import Mathlib

/-!
# customshell: the VFS storage engine and the tokenizer

A shallow embedding of `src/vfs.c`, `src/utils.c` (path helpers) and
`src/parser.c` (`parse_tokens`), with the properties of the specification
stated over it.

Modelling conventions.

* A C string is the list of its characters before the terminating NUL.
  Pointers are never NULL.  The fixed buffers `resolved[MAX_PATH]` are taken
  to be large enough: the model agrees with the code on every path whose
  resolved form is shorter than `MAX_PATH`, where the C code is defined.
* `uint32_t` fields are natural numbers, reduced modulo `2^32` where the code
  converts into them (`size`, the time stamps); `(uint32_t)-1` is
  `4294967295`.
* The arrays `entries[MAX_FILES]` and `block_used[MAX_BLOCKS]` are lists;
  the well-formed stores are those where the lists have these lengths.
* The store file is split in the header region (a `VFSHeader`, as last
  written by `save_header`) and the data region that follows it (a list of
  bytes).  Writing past the end of the file fills the gap with zero bytes;
  reading stops at the end of the file.  I/O errors are not modelled.
* `time(NULL)` is an explicit argument `now` of every operation that reads
  the clock.
-/

namespace CustomShell

/-! ## Constants of `vfs.h` -/

def MAX_FILENAME : Nat := 256
def MAX_PATH : Nat := 512
def BLOCK_SIZE : Nat := 4096
def MAX_BLOCKS : Nat := 1024
def MAX_FILES : Nat := 256

/-- The value `(uint32_t)-1`, returned by `find_free_block` on exhaustion. -/
def NO_BLOCK : Nat := 4294967295

abbrev Byte := Nat

inductive FileType where
  | FT_REGULAR
  | FT_DIRECTORY
  | FT_SCRIPT
  deriving DecidableEq, Repr

structure FileEntry where
  name : List Char
  type : FileType
  size : Nat
  first_block : Nat
  parent_dir : Nat
  created_time : Nat
  modified_time : Nat
  deriving DecidableEq, Repr

structure VFSHeader where
  magic : List Char
  block_size : Nat
  num_blocks : Nat
  num_files : Nat
  root_dir : Nat
  free_list : Nat
  entries : List FileEntry
  block_used : List Bool
  deriving DecidableEq, Repr

/-- The result of `memset(entry, 0, sizeof(FileEntry))`. -/
def zero_entry : FileEntry :=
  { name := [], type := FileType.FT_REGULAR, size := 0, first_block := 0,
    parent_dir := 0, created_time := 0, modified_time := 0 }

/-- The result of `memset(vfs, 0, sizeof(VFS))` on the header. -/
def zero_header : VFSHeader :=
  { magic := [], block_size := 0, num_blocks := 0, num_files := 0, root_dir := 0,
    free_list := 0, entries := List.replicate MAX_FILES zero_entry,
    block_used := List.replicate MAX_BLOCKS false }

/-- The store file on the host: its header region (`none` when the file is too
short to hold a header) and the bytes that follow it.  For a file too short
to hold a header, `short_read` is what the failed `fread` of `vfs_init` leaves
in `vfs->header`: the zeroed header with the bytes of the file stored over its
beginning. -/
structure StoreFile where
  header : Option VFSHeader
  data : List Byte
  short_read : VFSHeader := zero_header
  deriving DecidableEq, Repr

/-- The `VFS` context: the in-memory header, the open store file (header
region and data region) and the current directory. -/
structure VFS where
  header : VFSHeader
  file_header : VFSHeader
  file_data : List Byte
  current_dir : List Char
  deriving DecidableEq, Repr

def VFS_MAGIC : List Char := ['V', 'F', 'S', '0', '0', '1', '\n']

/-! ## `utils.c`: path helpers -/

/-- `is_absolute_path`. -/
def is_absolute_path (path : List Char) : Bool :=
  path.head? = some '/' || path.head? = some '\\' ||
    (decide (path.length > 1) && path.get? 1 = some ':')

/-- The second loop of `normalize_path`: drop a slash that follows a slash. -/
def collapse_slashes : Bool → List Char → List Char
  | _, [] => []
  | last_was_slash, c :: rest =>
    if c = '/' then
      if !last_was_slash then '/' :: collapse_slashes true rest
      else collapse_slashes true rest
    else c :: collapse_slashes false rest

/-- `normalize_path`. -/
def normalize_path (path : List Char) : List Char :=
  collapse_slashes false (path.map (fun c => if c = '\\' then '/' else c))

/-- `join_path`; `dir[dir_len - 1]` is the last character of `dir`.  For an
empty `dir` the code reads `dir[-1]`; the model then adds the separator. -/
def join_path (dir file : List Char) : List Char :=
  if dir.getLast? ≠ some '/' ∧ dir.getLast? ≠ some '\\' then
    dir ++ ['/'] ++ file
  else
    dir ++ file

/-! ## `vfs.c` -/

/-- Scanning the bitmap from index `i` on: the first index whose block is
not used. -/
def scan_free : List Bool → Nat → Option Nat
  | [], _ => none
  | used :: rest, i => if !used then some i else scan_free rest (i + 1)

/-- The loop of `find_free_block`: the first index below `MAX_BLOCKS` whose
block is not used. -/
def first_free (block_used : List Bool) : Option Nat :=
  scan_free (block_used.take MAX_BLOCKS) 0

/-- `find_free_block`: marks the block found and returns it, or returns
`(uint32_t)-1`. -/
def find_free_block (vfs : VFS) : VFS × Nat :=
  match first_free vfs.header.block_used with
  | some i =>
    ({ vfs with header := { vfs.header with block_used := vfs.header.block_used.set i true } }, i)
  | none => (vfs, NO_BLOCK)

/-- `free_block`. -/
def free_block (vfs : VFS) (block : Nat) : VFS :=
  if block < MAX_BLOCKS then
    { vfs with header := { vfs.header with block_used := vfs.header.block_used.set block false } }
  else vfs

/-- The index `find_file_entry` stops at: the first `i < num_files` whose name
is `name`. -/
def find_file_index (vfs : VFS) (name : List Char) : Option Nat :=
  (List.range vfs.header.num_files).find?
    (fun i => decide ((vfs.header.entries.getD i zero_entry).name = name))

/-- `find_file_entry`, returning the entry found. -/
def find_file_entry (vfs : VFS) (name : List Char) : Option FileEntry :=
  (find_file_index vfs name).map (fun i => vfs.header.entries.getD i zero_entry)

/-- `allocate_file_entry`: the index of the zeroed new slot, or `none`. -/
def allocate_file_entry (vfs : VFS) : VFS × Option Nat :=
  if vfs.header.num_files ≥ MAX_FILES then (vfs, none)
  else
    ({ vfs with header := { vfs.header with
        num_files := vfs.header.num_files + 1,
        entries := vfs.header.entries.set vfs.header.num_files zero_entry } },
     some vfs.header.num_files)

/-- `fseek` to `off` in the data region, then `fwrite` of `bytes`. -/
def file_write_at (file : List Byte) (off : Nat) (bytes : List Byte) : List Byte :=
  if bytes = [] then file
  else
    let padded := file ++ List.replicate (off - file.length) 0
    padded.take off ++ bytes ++ padded.drop (off + bytes.length)

/-- `fseek` to `off` in the data region, then `fread` of at most `n` bytes. -/
def file_read_at (file : List Byte) (off n : Nat) : List Byte :=
  (file.drop off).take n

/-- `write_block`; `data` holds at least `size` bytes. -/
def write_block (vfs : VFS) (block_num : Nat) (data : List Byte) (size : Nat) : VFS :=
  if block_num ≥ MAX_BLOCKS then vfs
  else
    let n := if size > BLOCK_SIZE then BLOCK_SIZE else size
    { vfs with file_data := file_write_at vfs.file_data (block_num * BLOCK_SIZE) (data.take n) }

/-- `read_block`: the bytes read; the return value is their number. -/
def read_block (vfs : VFS) (block_num : Nat) (max_size : Nat) : List Byte :=
  if block_num ≥ MAX_BLOCKS then []
  else
    file_read_at vfs.file_data (block_num * BLOCK_SIZE)
      (if max_size > BLOCK_SIZE then BLOCK_SIZE else max_size)

/-- `save_header`. -/
def save_header (vfs : VFS) : VFS :=
  { vfs with file_header := vfs.header }

/-- The second half of `vfs_init`, "Create new VFS": `base` is the content of
`vfs->header` when it is reached. -/
def vfs_create (base : VFSHeader) (creatable : Bool) (now : Nat) : Option VFS :=
  if !creatable then none
  else
    let vfs : VFS :=
      { header := { base with
          magic := VFS_MAGIC, block_size := BLOCK_SIZE, num_blocks := MAX_BLOCKS,
          num_files := 0, root_dir := 0, free_list := 1,
          block_used := List.replicate MAX_BLOCKS false },
        file_header := zero_header, file_data := [], current_dir := ['/'] }
    let (vfs, root) := allocate_file_entry vfs
    let idx := root.getD 0
    let t := now % 4294967296
    let vfs : VFS := { vfs with header := { vfs.header with
      entries := vfs.header.entries.set idx
        { name := ['/'], type := FileType.FT_DIRECTORY, size := 0, first_block := 0,
          parent_dir := 0, created_time := t, modified_time := t },
      block_used := vfs.header.block_used.set 0 true } }
    let vfs := save_header vfs
    some (write_block vfs 0 (List.replicate BLOCK_SIZE 0) BLOCK_SIZE)

/-- `vfs_init`: `existing` is the store file found on the host (if any),
`creatable` tells whether `fopen(..., "w+b")` succeeds.  When a header was
read but its magic tag is wrong, or the file was too short and `fread` stored
only some bytes, the slots of the header that the initialisation does not
assign keep what was read. -/
def vfs_init (existing : Option StoreFile) (creatable : Bool) (now : Nat) : Option VFS :=
  match existing with
  | none => vfs_create zero_header creatable now
  | some f =>
    match f.header with
    | none => vfs_create f.short_read creatable now
    | some h =>
      if h.magic = VFS_MAGIC then
        some { header := h, file_header := h, file_data := f.data, current_dir := ['/'] }
      else vfs_create h creatable now

/-- `vfs_close`: the store file left on the host. -/
def vfs_close (vfs : VFS) : StoreFile :=
  { header := some (save_header vfs).file_header, data := vfs.file_data }

/-- `vfs_resolve_path`: the content of `resolved` (the call returns true), for
a call whose two `strcpy` stay inside the buffer `char resolved[MAX_PATH]` of
the caller; `resolve_in_buffer` below tells when they do. -/
def vfs_resolve_path (vfs : VFS) (path : List Char) : List Char :=
  let resolved := normalize_path path
  if is_absolute_path resolved then resolved
  else join_path vfs.current_dir resolved

/-- The part of `s` after the last occurrence of `c`, when there is one:
`strrchr(s, c) + 1`. -/
def after_last (c : Char) : List Char → Option (List Char)
  | [] => none
  | d :: rest =>
    match after_last c rest with
    | some r => some r
    | none => if d = c then some rest else none

/-- The file name the operations look up: `strrchr(resolved, '/')`, skipping
the slash, or all of `resolved` when it has no slash. -/
def filename_of (resolved : List Char) : List Char :=
  match after_last '/' resolved with
  | some r => r
  | none => resolved

/-- `vfs_file_exists`. -/
def vfs_file_exists (vfs : VFS) (path : List Char) : Bool :=
  let resolved := vfs_resolve_path vfs path
  let filename := filename_of resolved
  (find_file_entry vfs filename).isSome

/-- `vfs_create_file`. -/
def vfs_create_file (vfs : VFS) (path : List Char) (type : FileType) (now : Nat) : VFS × Bool :=
  let resolved := vfs_resolve_path vfs path
  let filename := filename_of resolved
  if filename.length = 0 ∨ filename.length ≥ MAX_FILENAME then (vfs, false)
  else if (find_file_entry vfs filename).isSome then (vfs, false)
  else
    match allocate_file_entry vfs with
    | (vfs, none) => (vfs, false)
    | (vfs, some idx) =>
      let (vfs, block) := find_free_block vfs
      let t := now % 4294967296
      let vfs : VFS := { vfs with header := { vfs.header with
        entries := vfs.header.entries.set idx
          { name := filename.take (MAX_FILENAME - 1), type := type, size := 0,
            first_block := block, parent_dir := 0, created_time := t, modified_time := t } } }
      if block = NO_BLOCK then
        ({ vfs with header := { vfs.header with num_files := vfs.header.num_files - 1 } }, false)
      else (save_header vfs, true)

/-- `vfs_create_directory`. -/
def vfs_create_directory (vfs : VFS) (path : List Char) (now : Nat) : VFS × Bool :=
  vfs_create_file vfs path FileType.FT_DIRECTORY now

/-- The `while (remaining > 0)` loop of `vfs_write_file`; `src` is the data
still to write, `fuel` bounds the iterations. -/
def write_loop : Nat → VFS → Nat → List Byte → Nat → VFS
  | 0, vfs, _, _, _ => vfs
  | fuel + 1, vfs, block, src, remaining =>
    if remaining > 0 then
      let to_write := if remaining > BLOCK_SIZE then BLOCK_SIZE else remaining
      let vfs := write_block vfs block src to_write
      let src := src.drop to_write
      let remaining := remaining - to_write
      if remaining > 0 then
        let (vfs, next_block) := find_free_block vfs
        if next_block = NO_BLOCK then vfs
        else write_loop fuel vfs next_block src remaining
      else vfs
    else vfs

/-- The part of `vfs_write_file` after the entry has been found at index
`idx`: the write loop, then `entry->size = len`, the time stamp and
`save_header`.  Every iteration of the loop writes at least one byte, so
`len` iterations are enough. -/
def write_entry (vfs : VFS) (idx : Nat) (data : List Byte) (len : Nat) (now : Nat) : VFS × Bool :=
  let entry := vfs.header.entries.getD idx zero_entry
  let vfs := write_loop len vfs entry.first_block data len
  let entry := vfs.header.entries.getD idx zero_entry
  let vfs : VFS := { vfs with header := { vfs.header with
    entries := vfs.header.entries.set idx
      { entry with size := len % 4294967296, modified_time := now % 4294967296 } } }
  (save_header vfs, true)

/-- `vfs_write_file`; `data` holds at least `len` bytes. -/
def vfs_write_file (vfs : VFS) (path : List Char) (data : List Byte) (len : Nat) (now : Nat) :
    VFS × Bool :=
  let resolved := vfs_resolve_path vfs path
  let filename := filename_of resolved
  match find_file_index vfs filename with
  | some idx => write_entry vfs idx data len now
  | none =>
    match vfs_create_file vfs path FileType.FT_REGULAR now with
    | (vfs, false) => (vfs, false)
    | (vfs, true) =>
      match find_file_index vfs filename with
      | none => (vfs, false)
      | some idx => write_entry vfs idx data len now

/-- The `while (remaining > 0 && block < MAX_BLOCKS)` loop of
`vfs_read_file`: the bytes stored into `buffer`. -/
def read_loop : Nat → VFS → Nat → Nat → List Byte
  | 0, _, _, _ => []
  | fuel + 1, vfs, block, remaining =>
    if remaining > 0 ∧ block < MAX_BLOCKS then
      let got := read_block vfs block remaining
      if got.length = 0 then []
      else
        let remaining := remaining - got.length
        if remaining > 0 then
          let block := block + 1
          if block ≥ MAX_BLOCKS ∨ !(vfs.header.block_used.getD block false) then got
          else got ++ read_loop fuel vfs block remaining
        else got
    else []

/-- `vfs_read_file`: the return value and the bytes stored into `buffer`.
The block number grows in every iteration, so `MAX_BLOCKS` iterations are
enough. -/
def vfs_read_file (vfs : VFS) (path : List Char) (max_len : Nat) : Nat × List Byte :=
  let resolved := vfs_resolve_path vfs path
  let filename := filename_of resolved
  match find_file_entry vfs filename with
  | none => (0, [])
  | some entry =>
    let to_read := if entry.size > max_len then max_len else entry.size
    let buf := read_loop MAX_BLOCKS vfs entry.first_block to_read
    (to_read - (to_read - buf.length), buf)

/-- The loop of `vfs_delete_file` that frees blocks, starting at `block`. -/
def free_loop : Nat → VFS → Nat → VFS
  | 0, vfs, _ => vfs
  | fuel + 1, vfs, block =>
    if block < MAX_BLOCKS ∧ vfs.header.block_used.getD block false then
      free_loop fuel (free_block vfs block) (block + 1)
    else vfs

/-- `vfs_delete_file`.  The block number grows in every iteration of the
freeing loop, so `MAX_BLOCKS` iterations are enough. -/
def vfs_delete_file (vfs : VFS) (path : List Char) : VFS × Bool :=
  let resolved := vfs_resolve_path vfs path
  let filename := filename_of resolved
  match find_file_index vfs filename with
  | none => (vfs, false)
  | some idx =>
    let entry := vfs.header.entries.getD idx zero_entry
    let vfs := free_loop MAX_BLOCKS vfs entry.first_block
    let n := vfs.header.num_files
    let entries :=
      if idx < n - 1 then
        vfs.header.entries.take idx ++ (vfs.header.entries.drop (idx + 1)).take (n - idx - 1)
          ++ vfs.header.entries.drop (n - 1)
      else vfs.header.entries
    let vfs : VFS := { vfs with header := { vfs.header with entries := entries, num_files := n - 1 } }
    (save_header vfs, true)

/-- `vfs_change_directory`, for a call that stays inside its buffer
`char resolved[MAX_PATH]` (see `change_directory_in_buffer` below); the
`strncpy` then copies the whole resolved path. -/
def vfs_change_directory (vfs : VFS) (path : List Char) : VFS × Bool :=
  let resolved := vfs_resolve_path vfs path
  if resolved = ['/'] then ({ vfs with current_dir := ['/'] }, true)
  else
    let dirname := filename_of resolved
    match find_file_entry vfs dirname with
    | none => (vfs, false)
    | some entry =>
      if entry.type ≠ FileType.FT_DIRECTORY then (vfs, false)
      else ({ vfs with current_dir := resolved.take (MAX_PATH - 1) }, true)

/-! ## `parser.c`: the tokenizer -/

def MAX_TOKENS : Nat := 128
def MAX_TOKEN_LEN : Nat := 256

inductive TokenKind where
  | TOKEN_WORD
  | TOKEN_PIPE
  | TOKEN_REDIRECT_OUT
  | TOKEN_REDIRECT_IN
  | TOKEN_REDIRECT_APPEND
  | TOKEN_BACKGROUND
  deriving DecidableEq, Repr

structure Token where
  type : TokenKind
  value : List Char
  deriving DecidableEq, Repr

/-- `isspace` in the C locale. -/
def isspace (c : Char) : Bool :=
  c = ' ' || c = '\t' || c = '\n' || c = '\x0b' || c = '\x0c' || c = '\r'

/-- `add_token`; the list is `tokens[0 .. count)`, `value` is `none` for a
NULL pointer. -/
def add_token (tokens : List Token) (type : TokenKind) (value : Option (List Char)) :
    List Token :=
  if tokens.length ≥ MAX_TOKENS then tokens
  else
    match value with
    | some v => tokens ++ [{ type := type, value := v.take (MAX_TOKEN_LEN - 1) }]
    | none => tokens ++ [{ type := type, value := [] }]

/-- The local variables of `parse_tokens`: the token list, the buffer
`token[0 .. token_len)` and the two quote flags (`quote_char` is written but
never read). -/
structure TokState where
  tokens : List Token
  token : List Char
  in_quotes : Bool
  in_single_quotes : Bool
  deriving DecidableEq, Repr

/-- The statement block `if (token_len > 0) { add_token(WORD); token_len = 0; }`. -/
def flush_word (st : TokState) : TokState :=
  if st.token.length > 0 then
    { st with tokens := add_token st.tokens TokenKind.TOKEN_WORD (some st.token), token := [] }
  else st

/-- The block at the top of the loop body: flush when the buffer is full. -/
def flush_full (st : TokState) : TokState :=
  if st.token.length ≥ MAX_TOKEN_LEN - 1 then
    { st with tokens := add_token st.tokens TokenKind.TOKEN_WORD (some st.token), token := [] }
  else st

/-- Calling `add_token(tokens, kind, NULL)`. -/
def emit_op (st : TokState) (kind : TokenKind) : TokState :=
  { st with tokens := add_token st.tokens kind none }

/-- Storing a character: `token[token_len++] = c`. -/
def push_char (st : TokState) (c : Char) : TokState :=
  { st with token := st.token ++ [c] }

/-- The `while (*p)` loop of `parse_tokens`, on the characters from `p` on. -/
def tok_loop (st : TokState) : List Char → TokState
  | [] => st
  | c :: rest =>
    let st := flush_full st
    if !st.in_quotes && !st.in_single_quotes then
      if c = '|' then tok_loop (emit_op (flush_word st) TokenKind.TOKEN_PIPE) rest
      else if c = '>' then
        match rest with
        | d :: rest2 =>
          if d = '>' then tok_loop (emit_op (flush_word st) TokenKind.TOKEN_REDIRECT_APPEND) rest2
          else tok_loop (emit_op (flush_word st) TokenKind.TOKEN_REDIRECT_OUT) (d :: rest2)
        | [] => emit_op (flush_word st) TokenKind.TOKEN_REDIRECT_OUT
      else if c = '<' then tok_loop (emit_op (flush_word st) TokenKind.TOKEN_REDIRECT_IN) rest
      else if c = '&' && (rest.head?.isNone || (rest.head?.map isspace).getD false) then
        tok_loop (emit_op (flush_word st) TokenKind.TOKEN_BACKGROUND) rest
      else if c = '"' then tok_loop { st with in_quotes := true } rest
      else if c = '\'' then tok_loop { st with in_single_quotes := true } rest
      else if c = '\\' then
        match rest with
        | d :: rest2 => tok_loop (push_char st d) rest2
        | [] => st
      else if isspace c then tok_loop (flush_word st) rest
      else tok_loop (push_char st c) rest
    else
      if (st.in_quotes && c = '"') || (st.in_single_quotes && c = '\'') then
        tok_loop { st with in_quotes := false, in_single_quotes := false } rest
      else if c = '\\' && st.in_quotes then
        match rest with
        | d :: rest2 => tok_loop (push_char st d) rest2
        | [] => st
      else tok_loop (push_char st c) rest

/-- The state `parse_tokens` enters its loop in. -/
def tok_init : TokState :=
  { tokens := [], token := [], in_quotes := false, in_single_quotes := false }

/-- `parse_tokens`: the tokens `tokens[0 .. count)` of the list returned. -/
def parse_tokens (line : List Char) : List Token :=
  (flush_word (tok_loop tok_init line)).tokens

/-! ## Store states -/

/-- The store right after `vfs_init` has created it. -/
def fresh_store (now : Nat) : VFS :=
  (vfs_create zero_header true now).getD
    { header := zero_header, file_header := zero_header, file_data := [], current_dir := [] }

/-- The store states the program can be in: a fresh store, followed by any
calls of the operations of `vfs.h` (whether they succeed or not), and by
closing the store and opening it again. -/
inductive Reachable : VFS → Prop where
  | fresh (now : Nat) : Reachable (fresh_store now)
  | create (s : VFS) (path : List Char) (type : FileType) (now : Nat) :
      Reachable s → Reachable (vfs_create_file s path type now).1
  | write (s : VFS) (path : List Char) (data : List Byte) (len : Nat) (now : Nat) :
      Reachable s → len ≤ data.length → Reachable (vfs_write_file s path data len now).1
  | delete (s : VFS) (path : List Char) :
      Reachable s → Reachable (vfs_delete_file s path).1
  | chdir (s : VFS) (path : List Char) :
      Reachable s → Reachable (vfs_change_directory s path).1
  | reopen (s s1 : VFS) (now : Nat) :
      Reachable s → vfs_init (some (vfs_close s)) true now = some s1 → Reachable s1

/-! ## Derived notions used in the statements -/

/-- The entry table: the first `num_files` slots of `entries`. -/
def file_table (s : VFS) : List FileEntry :=
  s.header.entries.take s.header.num_files

/-- The names stored in the entry table, in table order. -/
def table_names (s : VFS) : List (List Char) :=
  (file_table s).map (fun e => e.name)

/-- The file name an operation on `path` looks up in store `s`. -/
def lookup_name (s : VFS) (path : List Char) : List Char :=
  filename_of (vfs_resolve_path s path)

/-- The properties every reachable store has. -/
structure WF (s : VFS) : Prop where
  entries_len : s.header.entries.length = MAX_FILES
  blocks_len : s.header.block_used.length = MAX_BLOCKS
  num_le : s.header.num_files ≤ MAX_FILES
  names_nodup : (table_names s).Nodup
  first_lt : ∀ e, e ∈ file_table s → e.first_block < MAX_BLOCKS
  magic_ok : s.header.magic = VFS_MAGIC
  cwd_ok : '\\' ∉ s.current_dir

/-- The entry `vfs_create_file` stores for a new file. -/
def new_entry (filename : List Char) (type : FileType) (block now : Nat) : FileEntry :=
  { name := filename.take (MAX_FILENAME - 1), type := type, size := 0,
    first_block := block, parent_dir := 0, created_time := now % 4294967296,
    modified_time := now % 4294967296 }

/-- Store `t` differs from store `s` at most in the allocation bitmap (not in
its size) and in the data region of the store file. -/
structure SameTable (s t : VFS) : Prop where
  entries_eq : t.header.entries = s.header.entries
  num_eq : t.header.num_files = s.header.num_files
  magic_eq : t.header.magic = s.header.magic
  cwd_eq : t.current_dir = s.current_dir
  blocks_len_eq : t.header.block_used.length = s.header.block_used.length

/-- A call of one of the mutating operations `vfs_create_file`,
`vfs_write_file`, `vfs_delete_file`, with its arguments. -/
inductive MutOp where
  | create (path : List Char) (type : FileType) (now : Nat)
  | write (path : List Char) (data : List Byte) (len : Nat) (now : Nat)
  | delete (path : List Char)

/-- Performing a mutating call on store `s`: the new store and the value
returned. -/
def run_op (s : VFS) : MutOp → VFS × Bool
  | MutOp.create path type now => vfs_create_file s path type now
  | MutOp.write path data len now => vfs_write_file s path data len now
  | MutOp.delete path => vfs_delete_file s path

/-- The store file as it is on the host while store `s` is open (what a crash
would leave behind). -/
def store_file_of (s : VFS) : StoreFile :=
  { header := some s.file_header, data := s.file_data }

/-- A fresh store in which the regular file `a` has been created. -/
def store_a : VFS :=
  (vfs_create_file (fresh_store 0) ['a'] FileType.FT_REGULAR 0).1

/-- The store `store_a` after the regular file `b` has been created too. -/
def store_ab : VFS :=
  (vfs_create_file store_a ['b'] FileType.FT_REGULAR 0).1

/-- A fresh store whose blocks are all marked used. -/
def store_full : VFS :=
  { fresh_store 0 with
    header := { (fresh_store 0).header with block_used := List.replicate MAX_BLOCKS true } }

/-- The WORD token that ends the word being accumulated, when the buffer is
not empty. -/
def pending_word (st : TokState) : List Token :=
  if st.token = [] then []
  else [{ type := TokenKind.TOKEN_WORD, value := st.token.take (MAX_TOKEN_LEN - 1) }]

/-- The state after the pending word and then an operator token of kind `kind`
have been appended to the token list. -/
def after_operator (st : TokState) (kind : TokenKind) : TokState :=
  { st with
    tokens := st.tokens ++ pending_word st ++ [{ type := kind, value := [] }],
    token := [] }

/-- The blocks that a write of `len` bytes into a file with first block `f`
needs beyond `f` are the ones `find_free_block` returns next: every block up
to `f` is used, the blocks after `f` that the data reaches are free, and they
lie in the store.  Nothing is asked of a write that fits one block. -/
def consecutive_free (used : List Bool) (f len : Nat) : Prop :=
  len > BLOCK_SIZE →
    (∀ j, j ≤ f → used.getD j false = true) ∧
    (∀ j, f < j → j * BLOCK_SIZE < f * BLOCK_SIZE + len → used.getD j false = false) ∧
    f * BLOCK_SIZE + len ≤ MAX_BLOCKS * BLOCK_SIZE

/-- The store and the table index on which `vfs_write_file` runs its write
loop: the store itself when the file exists, the store after
`vfs_create_file` otherwise; `none` when the call returns false. -/
def write_target (s : VFS) (path : List Char) (now : Nat) : Option (VFS × Nat) :=
  match find_file_index s (filename_of (vfs_resolve_path s path)) with
  | some idx => some (s, idx)
  | none =>
    match vfs_create_file s path FileType.FT_REGULAR now with
    | (_, false) => none
    | (s1, true) =>
      (find_file_index s1 (filename_of (vfs_resolve_path s path))).map (fun idx => (s1, idx))

/-- The write of `len` bytes to `path` takes consecutive blocks: when its loop
starts, the blocks after the file's first block that the data needs are the
next free ones. -/
def consecutive_write (s : VFS) (path : List Char) (now len : Nat) : Prop :=
  ∀ s1 idx, write_target s path now = some (s1, idx) →
    consecutive_free s1.header.block_used
      (s1.header.entries.getD idx zero_entry).first_block len

/-! ## The tokenizer, one iteration at a time -/

/-- The body of the `while (*p)` loop of `parse_tokens`, run once on the
character `c` at `p` with `rest` after it: the local variables after the
iteration and the characters from the new `p` on. -/
def tok_step (st : TokState) (c : Char) (rest : List Char) : TokState × List Char :=
  let st := flush_full st
  if !st.in_quotes && !st.in_single_quotes then
    if c = '|' then (emit_op (flush_word st) TokenKind.TOKEN_PIPE, rest)
    else if c = '>' then
      match rest with
      | d :: rest2 =>
        if d = '>' then (emit_op (flush_word st) TokenKind.TOKEN_REDIRECT_APPEND, rest2)
        else (emit_op (flush_word st) TokenKind.TOKEN_REDIRECT_OUT, rest)
      | [] => (emit_op (flush_word st) TokenKind.TOKEN_REDIRECT_OUT, rest)
    else if c = '<' then (emit_op (flush_word st) TokenKind.TOKEN_REDIRECT_IN, rest)
    else if c = '&' && (rest.head?.isNone || (rest.head?.map isspace).getD false) then
      (emit_op (flush_word st) TokenKind.TOKEN_BACKGROUND, rest)
    else if c = '"' then ({ st with in_quotes := true }, rest)
    else if c = '\'' then ({ st with in_single_quotes := true }, rest)
    else if c = '\\' then
      match rest with
      | d :: rest2 => (push_char st d, rest2)
      | [] => (st, rest)
    else if isspace c then (flush_word st, rest)
    else (push_char st c, rest)
  else
    if (st.in_quotes && c = '"') || (st.in_single_quotes && c = '\'') then
      ({ st with in_quotes := false, in_single_quotes := false }, rest)
    else if c = '\\' && st.in_quotes then
      match rest with
      | d :: rest2 => (push_char st d, rest2)
      | [] => (st, rest)
    else (push_char st c, rest)

/-- The `while (*p)` loop of `parse_tokens` run for at most `fuel` iterations:
`none` when the input is not used up by then. -/
def tok_run : Nat → TokState → List Char → Option TokState
  | _, st, [] => some st
  | 0, _, _ :: _ => none
  | fuel + 1, st, c :: rest => tok_run fuel (tok_step st c rest).1 (tok_step st c rest).2

/-! ## Characters and lines, as the tokenizer reads them -/


/-- A character that the tokenizer stores as it is wherever it stands: no
whitespace, quote, backslash or operator character. -/
def ordinary (c : Char) : Bool :=
  !isspace c && !(c = '|') && !(c = '<') && !(c = '>') && !(c = '&') &&
    !(c = '"') && !(c = '\'') && !(c = '\\')

/-- Every `&` of the line that stands outside quotes and is not escaped is
immediately followed by a character that is not whitespace; the flags tell
whether the line starts inside double or single quotes.  Quotes and escapes
are read by the rules of the tokenizer. -/
def amps_followed : Bool → Bool → List Char → Bool
  | _, _, [] => true
  | in_quotes, in_single_quotes, c :: rest =>
    if !in_quotes && !in_single_quotes then
      if c = '&' then
        !(rest.head?.isNone || (rest.head?.map isspace).getD false) &&
          amps_followed false false rest
      else if c = '"' then amps_followed true false rest
      else if c = '\'' then amps_followed false true rest
      else if c = '\\' then
        match rest with
        | _ :: rest2 => amps_followed false false rest2
        | [] => true
      else amps_followed false false rest
    else
      if (in_quotes && c = '"') || (in_single_quotes && c = '\'') then
        amps_followed false false rest
      else if c = '\\' && in_quotes then
        match rest with
        | _ :: rest2 => amps_followed in_quotes in_single_quotes rest2
        | [] => true
      else amps_followed in_quotes in_single_quotes rest

/-! ## `parser.c`: the pipeline parser -/

/-- A `Command`; `argc` is the length of `argv`, a NULL file name is `none`. -/
structure Command where
  argv : List (List Char)
  input_file : Option (List Char)
  output_file : Option (List Char)
  append_output : Bool
  background : Bool
  deriving DecidableEq, Repr

/-- The result of `memset(current_cmd, 0, sizeof(Command))`. -/
def empty_command : Command :=
  { argv := [], input_file := none, output_file := none, append_output := false,
    background := false }

/-- The local variables of `parse_command_line`: the commands
`pipeline->commands[0 .. count)`, the index `current_cmd` points to (`none`
for NULL), and the two redirect variables. -/
structure ParseState where
  commands : List Command
  current_cmd : Option Nat
  expect_redirect_file : Bool
  redirect_type : TokenKind
  deriving DecidableEq, Repr

/-- The block that starts a new command: `xrealloc`, `current_cmd =
&pipeline->commands[pipeline->count++]`, `memset`. -/
def new_command (st : ParseState) : ParseState :=
  { st with commands := st.commands ++ [empty_command],
            current_cmd := some st.commands.length }

/-- An assignment through `current_cmd` guarded by `if (current_cmd)`. -/
def update_current (st : ParseState) (f : Command → Command) : ParseState :=
  match st.current_cmd with
  | some idx =>
    { st with commands := st.commands.set idx (f (st.commands.getD idx empty_command)) }
  | none => st

/-- The body of the `for` loop of `parse_command_line`, run on one token. -/
def parse_step (st : ParseState) (token : Token) : ParseState :=
  if token.type = TokenKind.TOKEN_PIPE then
    { st with expect_redirect_file := false, current_cmd := none }
  else if token.type = TokenKind.TOKEN_REDIRECT_OUT ∨ token.type = TokenKind.TOKEN_REDIRECT_IN ∨
      token.type = TokenKind.TOKEN_REDIRECT_APPEND then
    let st : ParseState := { st with expect_redirect_file := true, redirect_type := token.type }
    if st.current_cmd.isNone then new_command st else st
  else if token.type = TokenKind.TOKEN_BACKGROUND then
    update_current st (fun cmd => { cmd with background := true })
  else if st.expect_redirect_file && token.type = TokenKind.TOKEN_WORD then
    let st : ParseState := { st with expect_redirect_file := false }
    if st.redirect_type = TokenKind.TOKEN_REDIRECT_IN then
      update_current st (fun cmd => { cmd with input_file := some token.value })
    else
      update_current st (fun cmd =>
        { cmd with output_file := some token.value,
                   append_output := decide (st.redirect_type = TokenKind.TOKEN_REDIRECT_APPEND) })
  else if token.type = TokenKind.TOKEN_WORD then
    let st := if st.current_cmd.isNone then new_command st else st
    update_current st (fun cmd => { cmd with argv := cmd.argv ++ [token.value] })
  else st

/-- The state `parse_command_line` enters its loop in. -/
def parse_init : ParseState :=
  { commands := [], current_cmd := none, expect_redirect_file := false,
    redirect_type := TokenKind.TOKEN_REDIRECT_OUT }

/-- The `for` loop of `parse_command_line` over the tokens from index `i` on. -/
def parse_loop (st : ParseState) (tokens : List Token) : ParseState :=
  tokens.foldl parse_step st

/-- The pipeline `parse_command_line` builds from a token list: `none` for the
NULL returned on an empty list, else the commands in order. -/
def parse_pipeline (tokens : List Token) : Option (List Command) :=
  if tokens.length = 0 then none
  else some (parse_loop parse_init tokens).commands

/-- `parse_command_line`. -/
def parse_command_line (line : List Char) : Option (List Command) :=
  parse_pipeline (parse_tokens line)

/-! ## Notions used to state the properties of the tokenizer and the parser -/

/-- A WORD token with text `w`. -/
def word_token (w : List Char) : Token :=
  { type := TokenKind.TOKEN_WORD, value := w }

/-- A plain word: not empty, short enough for the token buffer
(`MAX_TOKEN_LEN - 1` characters) and made of ordinary characters only. -/
def plain_word (w : List Char) : Bool :=
  !w.isEmpty && decide (w.length ≤ MAX_TOKEN_LEN - 1) && w.all ordinary

/-- The line `w1 | w2 | ... | wn`. -/
def pipe_line : List (List Char) → List Char
  | [] => []
  | [w] => w
  | w :: w2 :: ws => w ++ ' ' :: '|' :: ' ' :: pipe_line (w2 :: ws)

/-- The tokens `WORD w1, PIPE, WORD w2, PIPE, ..., WORD wn`. -/
def pipe_tokens : List (List Char) → List Token
  | [] => []
  | [w] => [word_token w]
  | w :: w2 :: ws =>
    word_token w :: { type := TokenKind.TOKEN_PIPE, value := [] } :: pipe_tokens (w2 :: ws)

/-- The command that runs `w` alone: one argument, no redirection, foreground. -/
def plain_command (w : List Char) : Command :=
  { empty_command with argv := [w] }

/-- The pieces of `MAX_TOKEN_LEN - 1` characters a run is cut into, the last
piece holding what is left over; `fuel` bounds the number of pieces. -/
def chunks_fuel : Nat → List Char → List (List Char)
  | 0, _ => []
  | fuel + 1, run =>
    if run = [] then []
    else if run.length ≤ MAX_TOKEN_LEN - 1 then [run]
    else run.take (MAX_TOKEN_LEN - 1) :: chunks_fuel fuel (run.drop (MAX_TOKEN_LEN - 1))

/-- The pieces of at most `MAX_TOKEN_LEN - 1` characters of a run, in order. -/
def word_chunks (run : List Char) : List (List Char) :=
  chunks_fuel run.length run

/-- The tokens of a list of output redirections, each given as a pair: whether
it is written `>>` (rather than `>`), and the file name that follows it. -/
def redirect_tokens : List (Bool × List Char) → List Token
  | [] => []
  | r :: rs =>
    { type := if r.1 then TokenKind.TOKEN_REDIRECT_APPEND else TokenKind.TOKEN_REDIRECT_OUT,
      value := [] } :: word_token r.2 :: redirect_tokens rs


/-! ## `vfs.c`: listing -/

/-- The loop of `vfs_list_directory`: `out` holds `entries[0 .. *count)`, `i`
is the index into the entry table, `fuel` bounds the iterations. -/
def list_loop : Nat → VFS → Nat → List FileEntry → List FileEntry
  | 0, _, _, out => out
  | fuel + 1, vfs, i, out =>
    if i < vfs.header.num_files ∧ out.length < 100 then
      list_loop fuel vfs (i + 1) (out ++ [vfs.header.entries.getD i zero_entry])
    else out

/-- `vfs_list_directory`: the value returned and the entries stored into
`entries`; `*count` is their number.  Every iteration adds one entry and the
loop stops at 100 entries, so 100 iterations are enough. -/
def vfs_list_directory (vfs : VFS) (_path : List Char) : Bool × List FileEntry :=
  (true, list_loop 100 vfs 0 [])

/-- No two adjacent characters of the path are both `/`. -/
def no_double_slash : List Char → Bool
  | [] => true
  | c :: rest =>
    match rest with
    | [] => true
    | d :: _ => !(c = '/' && d = '/') && no_double_slash rest

/-- The name of the `k`-th of many files: two letters. -/
def file_name_of_index (k : Nat) : List Char :=
  [Char.ofNat (97 + k / 26), Char.ofNat (97 + k % 26)]

/-- A fresh store in which `n` regular files with different names have been
created one after the other. -/
def store_many (n : Nat) : VFS :=
  (List.range n).foldl
    (fun s k => (vfs_create_file s (file_name_of_index k) FileType.FT_REGULAR 0).1)
    (fresh_store 0)

/-- The store `store_a` with every block marked used. -/
def store_a_full : VFS :=
  { store_a with
    header := { store_a.header with block_used := List.replicate MAX_BLOCKS true } }

/-! ## `process.c`: the job manager -/

def MAX_JOBS : Nat := 64

/-- `STILL_ACTIVE`: the exit code `GetExitCodeProcess` gives for a process
that has not ended. -/
def STILL_ACTIVE : Nat := 259

/-- A `Job`; handles and process ids are numbers, a NULL command is `none`. -/
structure Job where
  hProcess : Nat
  dwProcessId : Nat
  command : Option (List Char)
  is_background : Bool
  is_running : Bool
  deriving DecidableEq, Repr

/-- The `JobManager`: the array `jobs` of `MAX_JOBS` slots and `count`. -/
structure JobManager where
  jobs : List Job
  count : Nat
  deriving DecidableEq, Repr

/-- The result of `memset(job, 0, sizeof(Job))`. -/
def zero_job : Job :=
  { hProcess := 0, dwProcessId := 0, command := none, is_background := false,
    is_running := false }

/-- `job_manager_create`. -/
def job_manager_create : JobManager :=
  { jobs := List.replicate MAX_JOBS zero_job, count := 0 }

/-- `job_manager_add`: the new table and the value returned. -/
def job_manager_add (jm : JobManager) (hProcess pid : Nat) (cmd : Option (List Char))
    (background : Bool) : JobManager × Int :=
  if jm.count ≥ MAX_JOBS then (jm, -1)
  else
    let job : Job :=
      { hProcess := hProcess, dwProcessId := pid, command := cmd, is_background := background,
        is_running := true }
    let jm : JobManager := { jobs := jm.jobs.set jm.count job, count := jm.count + 1 }
    (jm, (jm.count : Int) - 1)

/-- The index the loops of `job_manager_remove` and `job_manager_find` stop
at: the first `i < count` whose job has process id `pid`. -/
def find_job_index (jm : JobManager) (pid : Nat) : Option Nat :=
  (List.range jm.count).find?
    (fun i => decide ((jm.jobs.getD i zero_job).dwProcessId = pid))

/-- The loop `for (j = i; j < count - 1; j++) jobs[j] = jobs[j + 1]` of
`job_manager_remove`, from index `j` on; `last` is `count - 1`. -/
def shift_jobs : Nat → List Job → Nat → Nat → List Job
  | 0, jobs, _, _ => jobs
  | fuel + 1, jobs, j, last =>
    if j < last then shift_jobs fuel (jobs.set j (jobs.getD (j + 1) zero_job)) (j + 1) last
    else jobs

/-- `job_manager_remove`.  The shifting loop runs fewer than `count` times. -/
def job_manager_remove (jm : JobManager) (pid : Nat) : JobManager :=
  match find_job_index jm pid with
  | none => jm
  | some i => { jobs := shift_jobs jm.count jm.jobs i (jm.count - 1), count := jm.count - 1 }

/-- `job_manager_find`. -/
def job_manager_find (jm : JobManager) (pid : Nat) : Option Job :=
  (find_job_index jm pid).map (fun i => jm.jobs.getD i zero_job)

/-- The loop of `job_manager_cleanup_finished`, with `i + 1` indices still to
visit (the loop variable is `i`, going down); `poll h` is what
`GetExitCodeProcess` gives for handle `h`: the exit code, or `none` when the
call fails. -/
def cleanup_loop (poll : Nat → Option Nat) : Nat → JobManager → JobManager
  | 0, jm => jm
  | i + 1, jm =>
    let job := jm.jobs.getD i zero_job
    if !job.is_running then cleanup_loop poll i jm
    else
      match poll job.hProcess with
      | some exit_code =>
        if exit_code ≠ STILL_ACTIVE then
          cleanup_loop poll i (job_manager_remove jm job.dwProcessId)
        else cleanup_loop poll i jm
      | none => cleanup_loop poll i jm

/-- `job_manager_cleanup_finished`. -/
def job_manager_cleanup_finished (poll : Nat → Option Nat) (jm : JobManager) : JobManager :=
  cleanup_loop poll jm.count jm

/-- The loop of `job_manager_get_running_count` from index `i` on, `count`
being the number of active jobs met so far. -/
def running_loop (poll : Nat → Option Nat) : Nat → JobManager → Nat → Nat → JobManager × Nat
  | 0, jm, _, count => (jm, count)
  | fuel + 1, jm, i, count =>
    if i < jm.count then
      let job := jm.jobs.getD i zero_job
      if job.is_running then
        match poll job.hProcess with
        | some exit_code =>
          if exit_code = STILL_ACTIVE then running_loop poll fuel jm (i + 1) (count + 1)
          else
            running_loop poll fuel
              { jm with jobs := jm.jobs.set i { job with is_running := false } } (i + 1) count
        | none => running_loop poll fuel jm (i + 1) count
      else running_loop poll fuel jm (i + 1) count
    else (jm, count)

/-- `job_manager_get_running_count`: the table afterwards and the value
returned. -/
def job_manager_get_running_count (poll : Nat → Option Nat) (jm : JobManager) :
    JobManager × Nat :=
  running_loop poll jm.count jm 0 0

/-- The job table: the first `count` slots of `jobs`. -/
def job_table (jm : JobManager) : List Job :=
  jm.jobs.take jm.count

/-- The poll of the job's handle succeeds and tells that the process has
ended. -/
def terminated (poll : Nat → Option Nat) (job : Job) : Bool :=
  match poll job.hProcess with
  | some exit_code => decide (exit_code ≠ STILL_ACTIVE)
  | none => false

/-- The job is one that `job_manager_cleanup_finished` polls (it is marked
running) and its poll tells that the process has ended. -/
def polled_finished (poll : Nat → Option Nat) (job : Job) : Bool :=
  job.is_running && terminated poll job

/-- The job tables the program can be in: the empty table, followed by any
calls of `job_manager_add`, `job_manager_remove`,
`job_manager_cleanup_finished` and `job_manager_get_running_count`, with any
outcome of the polls. -/
inductive JobReachable : JobManager → Prop where
  | create : JobReachable job_manager_create
  | add (jm : JobManager) (hProcess pid : Nat) (cmd : Option (List Char)) (background : Bool) :
      JobReachable jm → JobReachable (job_manager_add jm hProcess pid cmd background).1
  | remove (jm : JobManager) (pid : Nat) :
      JobReachable jm → JobReachable (job_manager_remove jm pid)
  | cleanup (jm : JobManager) (poll : Nat → Option Nat) :
      JobReachable jm → JobReachable (job_manager_cleanup_finished poll jm)
  | running (jm : JobManager) (poll : Nat → Option Nat) :
      JobReachable jm → JobReachable (job_manager_get_running_count poll jm).1

/-! ## `builtins.c` and `shell.c`: the executor -/

/-- The names in the table `builtins`. -/
def builtin_names : List (List Char) :=
  [['c', 'd'], ['m', 'k', 'd', 'i', 'r'], ['t', 'o', 'u', 'c', 'h'], ['l', 's'], ['r', 'm'],
   ['c', 'a', 't'], ['e', 'c', 'h', 'o'], ['p', 'w', 'd'], ['h', 'e', 'l', 'p'],
   ['h', 'i', 's', 't', 'o', 'r', 'y'], ['c', 'l', 'e', 'a', 'r'], ['c', 'p'], ['m', 'v'],
   ['w', 'c'], ['h', 'e', 'a', 'd'], ['t', 'a', 'i', 'l'], ['d', 'a', 't', 'e'],
   ['s', 't', 'a', 't'], ['g', 'r', 'e', 'p'], ['f', 'i', 'n', 'd'], ['s', 'e', 'd'],
   ['s', 'o', 'r', 't'], ['c', 'u', 't']]

/-- `is_builtin_command`. -/
def is_builtin_command (name : List Char) : Bool :=
  builtin_names.any (fun b => decide (b = name))

/-- The test `execute_command` applies to a redirection target: true when the
target is taken as a path of the store, false when it is left to
`setup_redirection` as a file of the host. -/
def is_vfs_target (file : List Char) : Bool :=
  !is_absolute_path file || (file.head? = some '/' || file.head? = some '\\')

/-- The three branches of the dispatch in `execute_command`. -/
inductive Dispatch where
  | builtin
  | script
  | not_found
  deriving DecidableEq, Repr

/-- What `execute_command` does not compute itself: whether
`setup_redirection` returns non-zero, the value `execute_builtin` returns,
whether `interpreter_load_from_vfs` succeeds and the value
`interpreter_execute` returns. -/
structure ExecEnv where
  setup_fails : Bool
  builtin_result : Int
  load_ok : Bool
  script_result : Int

/-- What a call of `execute_command` comes to: the branch of the dispatch
taken (`none` when the dispatch is not reached), the text `execute_command`
itself prints to the stream of `output_fd`, and the value returned. -/
structure ExecOutcome where
  branch : Option Dispatch
  message : List Char
  result : Int
  deriving DecidableEq, Repr

/-- `execute_command`, as far as the choice of the branch, the messages and
the value returned go; the state of the store after the call is left out. -/
def execute_command (env : ExecEnv) (vfs : VFS) (cmd : Command) : ExecOutcome :=
  match cmd.argv with
  | [] => { branch := none, message := [], result := 0 }
  | command_name :: _ =>
    let vfs_output_redirect :=
      match cmd.output_file with
      | some f => is_vfs_target f
      | none => false
    let vfs_input_redirect :=
      match cmd.input_file with
      | some f => is_vfs_target f
      | none => false
    if env.setup_fails && (!vfs_input_redirect && !vfs_output_redirect) then
      { branch := none, message := [], result := 1 }
    else if is_builtin_command command_name then
      { branch := some Dispatch.builtin, message := [], result := env.builtin_result }
    else if vfs_file_exists vfs command_name then
      if env.load_ok then
        { branch := some Dispatch.script, message := [], result := env.script_result }
      else
        { branch := some Dispatch.script,
          message := command_name ++ ": Failed to load script\n".toList, result := 1 }
    else
      { branch := some Dispatch.not_found,
        message := command_name ++ ": command not found\n".toList, result := 1 }

/-- The loop of `execute_command_pipeline` that creates the pipes: `mk i` is
what `create_pipe` gives for pipe `i`, the read and the write handle, or
`none` when it fails.  The result is `none` when a creation fails. -/
def create_pipes (mk : Nat → Option (Int × Int)) : Nat → Option (List (Int × Int))
  | 0 => some []
  | n + 1 =>
    match create_pipes mk n with
    | none => none
    | some pipes =>
      match mk n with
      | none => none
      | some p => some (pipes ++ [p])

/-- The values of `input` and `output` that `execute_command_pipeline` passes
to `execute_command` for stage `i`; `pipes` holds `pipe_read[k]` and
`pipe_write[k]`. -/
def stage_endpoints (count : Nat) (pipes : List (Int × Int)) (i : Nat) : Int × Int :=
  let input := if i > 0 then (pipes.getD (i - 1) (0, 0)).1 else 0
  let output := if i < count - 1 then (pipes.getD i (0, 0)).2 else 1
  (input, output)

/-- `execute_command_pipeline` for a pipeline of `count` commands: the value
returned and, stage by stage, the values of `input` and `output` passed to
`execute_command`; `run i io` is what `execute_command` returns for stage
`i`. -/
def execute_command_pipeline (count : Nat) (mk : Nat → Option (Int × Int))
    (run : Nat → Int × Int → Int) : Int × List (Int × Int) :=
  if count = 0 then (0, [])
  else if count = 1 then (run 0 (0, 1), [(0, 1)])
  else
    match create_pipes mk (count - 1) with
    | none => (1, [])
    | some pipes => (0, (List.range count).map (stage_endpoints count pipes))


/-! ## `shell.c`: the command history -/

def MAX_HISTORY : Nat := 1000

/-- The history of `shell.c`: the slots of `history_list`, `history_count`
and `history_capacity`. -/
structure History where
  history_list : List (List Char)
  history_count : Nat
  history_capacity : Nat
  deriving DecidableEq, Repr

/-- The history as `shell_init` sets it up: `MAX_HISTORY` slots, none in use. -/
def history_init : History :=
  { history_list := List.replicate MAX_HISTORY [], history_count := 0,
    history_capacity := MAX_HISTORY }

/-- `add_to_history`.  The `memmove` copies the slots `1 .. capacity - 1`
one place down. -/
def add_to_history (h : History) (line : List Char) : History :=
  if line.length = 0 then h
  else if h.history_count > 0 ∧ h.history_list.getD (h.history_count - 1) [] = line then h
  else
    let h : History :=
      if h.history_count ≥ h.history_capacity then
        { h with
          history_list :=
            (h.history_list.drop 1).take (h.history_capacity - 1)
              ++ h.history_list.drop (h.history_capacity - 1),
          history_count := h.history_count - 1 }
      else h
    { h with
      history_list := h.history_list.set h.history_count line,
      history_count := h.history_count + 1 }

/-- `get_history_item`: `none` is the NULL returned for an index out of range. -/
def get_history_item (h : History) (index : Int) : Option (List Char) :=
  if index < 1 ∨ index > h.history_count then none
  else some (h.history_list.getD (index - 1).toNat [])

/-- The stored lines: the first `history_count` slots, oldest first. -/
def history_table (h : History) : List (List Char) :=
  h.history_list.take h.history_count

/-- The history after `add_to_history` has been called with each of `lines`
in turn, starting from the initialised history. -/
def history_after (lines : List (List Char)) : History :=
  lines.foldl add_to_history history_init

/-! ## `builtins.c`: the wildcard matcher -/

/-- The `while (*text)` loop of the `*` case of `match_pattern`, followed by
the call on the empty rest; `rest` is `match_pattern` on the pattern after
the star. -/
def star_loop (rest : List Char → Bool) : List Char → Bool
  | [] => rest []
  | c :: text => if rest (c :: text) then true else star_loop rest text

/-- `match_pattern(text, pattern)`. -/
def match_pattern : List Char → List Char → Bool
  | text, [] => text.isEmpty
  | text, p :: pattern =>
    if p = '*' then
      if pattern.isEmpty then true
      else star_loop (fun t => match_pattern t pattern) text
    else if p = '?' then
      match text with
      | [] => false
      | _ :: text => match_pattern text pattern
    else
      match text with
      | [] => false
      | c :: text => if c ≠ p then false else match_pattern text pattern

/-- What one pattern character matches: `*` any sequence of characters, `?`
exactly one character, any other character only itself. -/
def piece_matches (p : Char) (piece : List Char) : Prop :=
  if p = '*' then True
  else if p = '?' then piece.length = 1
  else piece = [p]

/-- Glob semantics: `text` is, piece by piece, what the characters of
`pattern` match, with the whole text consumed. -/
def glob_matches (text pattern : List Char) : Prop :=
  ∃ pieces : List (List Char), List.Forall₂ piece_matches pattern pieces ∧ pieces.flatten = text

/-! ## Notions used to state the properties of the allocation bitmap -/

/-- The blocks marked used are exactly the blocks `0, ..., k - 1`. -/
def used_up_to (used : List Bool) (k : Nat) : Prop :=
  ∀ i, i < MAX_BLOCKS → used.getD i false = decide (i < k)

/-- The blocks marked used are the blocks `0, ..., k - 1` for some `k` from 1
to `MAX_BLOCKS`. -/
def used_run (used : List Bool) : Prop :=
  ∃ k, 1 ≤ k ∧ k ≤ MAX_BLOCKS ∧ used_up_to used k

/-- The number of blocks marked used in the allocation bitmap. -/
def used_count (s : VFS) : Nat :=
  (s.header.block_used.take MAX_BLOCKS).count true

/-- The root entry slot. -/
def root_entry (s : VFS) : FileEntry :=
  s.header.entries.getD 0 zero_entry

/-- The root entry comes first in the entry table, every other entry has a
first block other than block 0, and the used blocks are a run from block 0. -/
structure BlocksOk (s : VFS) : Prop where
  root_first : ∃ rest, file_table s = root_entry s :: rest ∧ ∀ e, e ∈ rest → 1 ≤ e.first_block
  root_name : (root_entry s).name = ['/']
  root_block : (root_entry s).first_block = 0
  used_ok : used_run s.header.block_used

/-- The store after `a` and `b` were created, `b` was written and `a` was
deleted: `b` keeps block 2, which the delete has marked free. -/
def store_b_unmarked : VFS :=
  (vfs_delete_file (vfs_write_file store_ab ['b'] [1, 2, 3] 3 0).1 ['a']).1

/-- The store `store_b_unmarked` after `c` and `d` were created: `d` gets
block 2, the first block of `b`. -/
def store_shared : VFS :=
  (vfs_create_file (vfs_create_file store_b_unmarked ['c'] FileType.FT_REGULAR 0).1 ['d']
    FileType.FT_REGULAR 0).1

/-- A fresh store in which a file of 5000 bytes has been written. -/
def store_big : VFS :=
  (vfs_write_file (fresh_store 0) ['b', 'i', 'g'] (List.replicate 5000 7) 5000 1).1

/-! ## Notions used to state the properties of the executor -/

/-- The read `command_name = cmd->argv[0]` that opens the background branch
of `execute_command_pipeline` for a single command; `none` when `argv` holds
no string (`argv` is then the null pointer `memset` left). -/
def background_command_name (cmd : Command) : Option (List Char) :=
  cmd.argv.head?

/-- An environment in which the I/O set-up succeeds, builtins and scripts
return 0 and scripts load. -/
def plain_env : ExecEnv :=
  { setup_fails := false, builtin_result := 0, load_ok := true, script_result := 0 }

/-- The value `execute_command` returns for stage `i` of `pipeline`, run in
`plain_env` on a fresh store. -/
def stage_result (pipeline : List Command) (i : Nat) (_ends : Int × Int) : Int :=
  (execute_command plain_env (fresh_store 0) (pipeline.getD i empty_command)).result

/-! ## Notions used to state the conservation of words -/

/-- The token is one of `>`, `<`, `>>`. -/
def is_redirect (t : Token) : Bool :=
  decide (t.type = TokenKind.TOKEN_REDIRECT_OUT) || decide (t.type = TokenKind.TOKEN_REDIRECT_IN) ||
    decide (t.type = TokenKind.TOKEN_REDIRECT_APPEND)

/-- The texts of the WORD tokens of a token list, in input order. -/
def word_texts (tokens : List Token) : List (List Char) :=
  (tokens.filter (fun t => decide (t.type = TokenKind.TOKEN_WORD))).map (fun t => t.value)

/-- The number of PIPE tokens of a token list. -/
def pipe_count (tokens : List Token) : Nat :=
  (tokens.filter (fun t => decide (t.type = TokenKind.TOKEN_PIPE))).length

/-- The argument vectors of the commands of a pipeline, concatenated in
pipeline order. -/
def all_args (cmds : List Command) : List (List Char) :=
  (cmds.map (fun c => c.argv)).flatten

/-- The state of the parser between two tokens of a list without redirect
token, after the words `ws` and `p` pipes: no target is expected, the
commands hold the words, none is empty, and the command in progress, if any,
is the last one. -/
def words_kept (st : ParseState) (ws : List (List Char)) (p : Nat) : Prop :=
  st.expect_redirect_file = false ∧ all_args st.commands = ws ∧
  (∀ c, c ∈ st.commands → c.argv ≠ []) ∧
  ((st.current_cmd = none ∧ st.commands.length ≤ p) ∨
   (∃ l c, st.commands = l ++ [c] ∧ st.current_cmd = some l.length ∧ l.length ≤ p))

/-- The properties the history has after any sequence of `add_to_history`
calls. -/
structure HistoryOk (h : History) : Prop where
  slots : h.history_list.length = MAX_HISTORY
  capacity : h.history_capacity = MAX_HISTORY
  count_le : h.history_count ≤ MAX_HISTORY
  no_empty : ∀ l, l ∈ history_table h → l ≠ []
  no_repeat : List.Chain' (fun a b => a ≠ b) (history_table h)

/-- A thousand lines, `a` and `b` in turn. -/
def thousand_lines : List (List Char) :=
  (List.range 1000).map (fun i => if i % 2 = 0 then ['a'] else ['b'])


/-! ## The callers' buffer of `vfs_resolve_path` -/

/-- `strcpy(resolved, src)` stays inside the buffer `char resolved[MAX_PATH]`
of the caller: the string and its terminator take at most `MAX_PATH` bytes. -/
def fits_resolved (src : List Char) : Bool :=
  decide (src.length + 1 ≤ MAX_PATH)

/-- `vfs_resolve_path` as its callers run it, on their buffer
`char resolved[MAX_PATH]`: `none` when one of its two `strcpy` calls writes
past the end of the buffer, else the content of `resolved`. -/
def resolve_in_buffer (vfs : VFS) (path : List Char) : Option (List Char) :=
  let normalized := normalize_path path
  if !fits_resolved normalized then none
  else if is_absolute_path normalized then some normalized
  else
    let full_path := join_path vfs.current_dir normalized
    if !fits_resolved full_path then none else some full_path

/-- `vfs_file_exists` with its buffer `char resolved[MAX_PATH]`: `none` when
`vfs_resolve_path` writes past the end of the buffer. -/
def file_exists_in_buffer (vfs : VFS) (path : List Char) : Option Bool :=
  match resolve_in_buffer vfs path with
  | none => none
  | some resolved => some (find_file_entry vfs (filename_of resolved)).isSome

/-- `vfs_change_directory` with its buffer `char resolved[MAX_PATH]`: `none`
when `vfs_resolve_path` writes past the end of the buffer. -/
def change_directory_in_buffer (vfs : VFS) (path : List Char) : Option (VFS × Bool) :=
  match resolve_in_buffer vfs path with
  | none => none
  | some resolved =>
    if resolved = ['/'] then some ({ vfs with current_dir := ['/'] }, true)
    else
      let dirname := filename_of resolved
      match find_file_entry vfs dirname with
      | none => some (vfs, false)
      | some entry =>
        if entry.type ≠ FileType.FT_DIRECTORY then some (vfs, false)
        else some ({ vfs with current_dir := resolved.take (MAX_PATH - 1) }, true)

/-- A relative path of 600 characters whose final component is `a`. -/
def long_path : List Char :=
  List.replicate 598 'x' ++ ['/', 'a']

/-- A name of 250 characters. -/
def deep_name : List Char :=
  List.replicate 250 'd'

/-- A fresh store in which the directory `deep_name` has been created. -/
def store_deep0 : VFS :=
  (vfs_create_directory (fresh_store 0) deep_name 0).1

/-- The store `store_deep0` after `vfs_change_directory(deep_name)`. -/
def store_deep1 : VFS :=
  (vfs_change_directory store_deep0 deep_name).1

/-- The store `store_deep1` after `vfs_change_directory(deep_name)` again: the
current directory has 502 characters. -/
def store_deep : VFS :=
  (vfs_change_directory store_deep1 deep_name).1

/-! ## Searching a range -/

theorem range_find_none {p : Nat → Bool} {n : Nat} :
    (List.range n).find? p = none ↔ ∀ i, i < n → p i = false := by
  rw [List.find?_eq_none]
  constructor
  · intro h i hi
    have := h i (List.mem_range.mpr hi)
    simpa using this
  · intro h i hi
    have := h i (List.mem_range.mp hi)
    simp [this]

theorem range_find_some {p : Nat → Bool} {n i : Nat}
    (h : (List.range n).find? p = some i) :
    i < n ∧ p i = true ∧ ∀ j, j < i → p j = false := by
  induction n with
  | zero => simp at h
  | succ n ih =>
    rw [List.range_succ, List.find?_append] at h
    cases hf : (List.range n).find? p with
    | some k =>
      rw [hf] at h
      simp at h
      subst h
      obtain ⟨h1, h2, h3⟩ := ih hf
      exact ⟨Nat.lt_succ_of_lt h1, h2, h3⟩
    | none =>
      rw [hf] at h
      simp at h
      obtain ⟨h1, h2⟩ := h
      subst h2
      refine ⟨Nat.lt_succ_self _, h1, ?_⟩
      exact range_find_none.mp hf

theorem range_find_first {p : Nat → Bool} {n i : Nat}
    (hi : i < n) (hp : p i = true) (hlt : ∀ j, j < i → p j = false) :
    (List.range n).find? p = some i := by
  cases hf : (List.range n).find? p with
  | none =>
    have := range_find_none.mp hf i hi
    rw [hp] at this
    cases this
  | some k =>
    obtain ⟨_, hk, hk2⟩ := range_find_some hf
    rcases Nat.lt_trichotomy k i with h | h | h
    · have := hlt k h
      rw [hk] at this
      cases this
    · rw [h]
    · have := hk2 i h
      rw [hp] at this
      cases this

/-! ## The entry table -/

theorem file_table_length {s : VFS} (h : s.header.num_files ≤ s.header.entries.length) :
    (file_table s).length = s.header.num_files := by
  simp [file_table, h]

theorem file_table_getD {s : VFS} {i : Nat} (hi : i < s.header.num_files) :
    (file_table s).getD i zero_entry = s.header.entries.getD i zero_entry := by
  simp [file_table, List.getD_eq_getElem?_getD, List.getElem?_take, hi]

theorem find_file_index_none {s : VFS} {name : List Char} :
    find_file_index s name = none ↔
      ∀ i, i < s.header.num_files → (s.header.entries.getD i zero_entry).name ≠ name := by
  unfold find_file_index
  rw [range_find_none]
  simp

theorem find_file_index_some {s : VFS} {name : List Char} {k : Nat}
    (h : find_file_index s name = some k) :
    k < s.header.num_files ∧ (s.header.entries.getD k zero_entry).name = name ∧
      ∀ j, j < k → (s.header.entries.getD j zero_entry).name ≠ name := by
  unfold find_file_index at h
  obtain ⟨h1, h2, h3⟩ := range_find_some h
  refine ⟨h1, by simpa using h2, ?_⟩
  intro j hj
  simpa using h3 j hj

theorem find_file_entry_isSome {s : VFS} {name : List Char} :
    (find_file_entry s name).isSome = (find_file_index s name).isSome := by
  simp [find_file_entry]

theorem mem_table_names {s : VFS} (h : s.header.num_files ≤ s.header.entries.length)
    {name : List Char} :
    name ∈ table_names s ↔
      ∃ i, i < s.header.num_files ∧ (s.header.entries.getD i zero_entry).name = name := by
  unfold table_names file_table
  rw [List.mem_map]
  constructor
  · rintro ⟨e, he, rfl⟩
    obtain ⟨i, hi, rfl⟩ := List.getElem_of_mem he
    have hi2 : i < s.header.num_files := by
      simp at hi
      exact hi.1
    refine ⟨i, hi2, ?_⟩
    have hi3 : i < s.header.entries.length := Nat.lt_of_lt_of_le hi2 h
    simp [List.getD_eq_getElem?_getD, List.getElem?_eq_getElem hi3]
  · rintro ⟨i, hi, rfl⟩
    have hi3 : i < s.header.entries.length := Nat.lt_of_lt_of_le hi h
    refine ⟨s.header.entries[i], ?_, ?_⟩
    · rw [List.mem_take_iff_getElem]
      exact ⟨i, by simp [hi, hi3], rfl⟩
    · simp [List.getD_eq_getElem?_getD, List.getElem?_eq_getElem hi3]

theorem find_file_index_none_iff_not_mem {s : VFS}
    (h : s.header.num_files ≤ s.header.entries.length) {name : List Char} :
    find_file_index s name = none ↔ name ∉ table_names s := by
  rw [find_file_index_none, mem_table_names h]
  constructor
  · rintro h1 ⟨i, hi, hn⟩
    exact h1 i hi hn
  · intro h1 i hi hn
    exact h1 ⟨i, hi, hn⟩

/-! ## The allocator -/

theorem scan_free_some {l : List Bool} {i b : Nat} (h : scan_free l i = some b) :
    i ≤ b ∧ b - i < l.length ∧ l.getD (b - i) false = false ∧
      ∀ j, j < b - i → l.getD j false = true := by
  induction l generalizing i with
  | nil => simp [scan_free] at h
  | cons x rest ih =>
    unfold scan_free at h
    by_cases hx : x = true
    · simp only [hx, Bool.not_true, Bool.false_eq_true, if_false] at h
      obtain ⟨h1, h2, h3, h4⟩ := ih h
      have e : b - i = (b - (i + 1)) + 1 := by omega
      refine ⟨by omega, ?_, ?_, ?_⟩
      · rw [e]; simp; omega
      · rw [e]; simpa using h3
      · intro j hj
        cases j with
        | zero => simp [hx]
        | succ j =>
          have := h4 j (by omega)
          simpa using this
    · have hx' : x = false := by simpa using hx
      simp only [hx', Bool.not_false, if_true, Option.some.injEq] at h
      subst h
      simp [hx']

theorem scan_free_none {l : List Bool} {i : Nat} :
    scan_free l i = none ↔ ∀ j, j < l.length → l.getD j false = true := by
  induction l generalizing i with
  | nil => simp [scan_free]
  | cons x rest ih =>
    unfold scan_free
    by_cases hx : x = true
    · simp only [hx, Bool.not_true, Bool.false_eq_true, if_false]
      rw [ih]
      constructor
      · intro h j hj
        cases j with
        | zero => simp
        | succ j =>
          have := h j (by simpa using hj)
          simpa using this
      · intro h j hj
        have := h (j + 1) (by simpa using hj)
        simpa using this
    · have hx' : x = false := by simpa using hx
      simp only [hx', Bool.not_false, if_true]
      constructor
      · intro h; cases h
      · intro h
        have := h 0 (by simp)
        simp at this

theorem getD_take_lt {l : List Bool} {n j : Nat} (hj : j < n) :
    (l.take n).getD j false = l.getD j false := by
  simp [List.getD_eq_getElem?_getD, List.getElem?_take, hj]

theorem first_free_some {used : List Bool} {b : Nat} (h : first_free used = some b) :
    b < MAX_BLOCKS ∧ b < used.length ∧ used.getD b false = false ∧
      ∀ j, j < b → used.getD j false = true := by
  unfold first_free at h
  obtain ⟨_, h2, h3, h4⟩ := scan_free_some h
  simp only [Nat.sub_zero, List.length_take] at h2 h3 h4
  have hb : b < MAX_BLOCKS := by omega
  refine ⟨hb, by omega, ?_, ?_⟩
  · rw [← getD_take_lt hb]; exact h3
  · intro j hj
    rw [← getD_take_lt (Nat.lt_trans hj hb)]
    exact h4 j hj

theorem first_free_none_of_all_used {used : List Bool}
    (h : ∀ i, i < MAX_BLOCKS → used.getD i false = true) : first_free used = none := by
  unfold first_free
  rw [scan_free_none]
  intro j hj
  simp only [List.length_take] at hj
  have hb : j < MAX_BLOCKS := by omega
  rw [getD_take_lt hb]
  exact h j hb

theorem first_free_ne_no_block {used : List Bool} {b : Nat} (h : first_free used = some b) :
    b ≠ NO_BLOCK := by
  have := (first_free_some h).1
  unfold MAX_BLOCKS at this
  unfold NO_BLOCK
  omega

theorem SameTable.refl (s : VFS) : SameTable s s :=
  ⟨rfl, rfl, rfl, rfl, rfl⟩

theorem SameTable.trans {s t u : VFS} (h1 : SameTable s t) (h2 : SameTable t u) :
    SameTable s u :=
  ⟨h2.entries_eq.trans h1.entries_eq, h2.num_eq.trans h1.num_eq,
    h2.magic_eq.trans h1.magic_eq, h2.cwd_eq.trans h1.cwd_eq,
    h2.blocks_len_eq.trans h1.blocks_len_eq⟩

theorem find_free_block_same (s : VFS) : SameTable s (find_free_block s).1 := by
  unfold find_free_block
  split
  · exact ⟨rfl, rfl, rfl, rfl, by simp⟩
  · exact SameTable.refl s

theorem free_block_same (s : VFS) (b : Nat) : SameTable s (free_block s b) := by
  unfold free_block
  split
  · exact ⟨rfl, rfl, rfl, rfl, by simp⟩
  · exact SameTable.refl s

theorem write_block_same (s : VFS) (b : Nat) (data : List Byte) (n : Nat) :
    SameTable s (write_block s b data n) := by
  unfold write_block
  split
  · exact SameTable.refl s
  · exact ⟨rfl, rfl, rfl, rfl, rfl⟩

theorem write_block_header (s : VFS) (b : Nat) (data : List Byte) (n : Nat) :
    (write_block s b data n).header = s.header := by
  unfold write_block
  split <;> rfl

theorem write_loop_same (fuel : Nat) (s : VFS) (block : Nat) (src : List Byte) (remaining : Nat) :
    SameTable s (write_loop fuel s block src remaining) := by
  induction fuel generalizing s block src remaining with
  | zero => exact SameTable.refl s
  | succ fuel ih =>
    simp only [write_loop]
    split_ifs
    all_goals first
      | exact SameTable.refl _
      | exact write_block_same _ _ _ _
      | exact (write_block_same _ _ _ _).trans (find_free_block_same _)
      | exact ((write_block_same _ _ _ _).trans (find_free_block_same _)).trans (ih _ _ _ _)

theorem free_loop_same (fuel : Nat) (s : VFS) (block : Nat) :
    SameTable s (free_loop fuel s block) := by
  induction fuel generalizing s block with
  | zero => exact SameTable.refl s
  | succ fuel ih =>
    unfold free_loop
    split
    · exact (free_block_same _ _).trans (ih _ _)
    · exact SameTable.refl s

theorem free_loop_file (fuel : Nat) (s : VFS) (block : Nat) :
    (free_loop fuel s block).file_data = s.file_data := by
  induction fuel generalizing s block with
  | zero => rfl
  | succ fuel ih =>
    unfold free_loop
    split
    · rw [ih]
      unfold free_block
      split <;> rfl
    · rfl

/-! ## `vfs_create_file`, case by case -/

theorem create_bad_name {s : VFS} {path : List Char} {type : FileType} {now : Nat}
    (h : (lookup_name s path).length = 0 ∨ (lookup_name s path).length ≥ MAX_FILENAME) :
    vfs_create_file s path type now = (s, false) := by
  unfold lookup_name at h
  unfold vfs_create_file
  simp only []
  rw [if_pos h]

theorem create_exists {s : VFS} {path : List Char} {type : FileType} {now : Nat}
    (h : (find_file_entry s (lookup_name s path)).isSome = true) :
    vfs_create_file s path type now = (s, false) := by
  unfold lookup_name at h
  unfold vfs_create_file
  simp only []
  split <;> rfl

theorem create_table_full {s : VFS} {path : List Char} {type : FileType} {now : Nat}
    (h : s.header.num_files ≥ MAX_FILES) :
    vfs_create_file s path type now = (s, false) := by
  unfold vfs_create_file
  simp only []
  split
  · rfl
  · split
    · rfl
    · simp only [allocate_file_entry, if_pos h]

theorem create_no_block {s : VFS} {path : List Char} {type : FileType} {now : Nat}
    (h1 : ¬ ((lookup_name s path).length = 0 ∨ (lookup_name s path).length ≥ MAX_FILENAME))
    (h2 : find_file_index s (lookup_name s path) = none)
    (h3 : s.header.num_files < MAX_FILES)
    (h4 : first_free s.header.block_used = none) :
    vfs_create_file s path type now =
      ({ s with header := { s.header with
          entries := s.header.entries.set s.header.num_files
            (new_entry (lookup_name s path) type NO_BLOCK now) } }, false) := by
  unfold lookup_name at h1 h2 ⊢
  have h2' : ¬ (find_file_entry s (filename_of (vfs_resolve_path s path))).isSome = true := by
    rw [find_file_entry_isSome, h2]; simp
  have h3' : ¬ s.header.num_files ≥ MAX_FILES := Nat.not_le.mpr h3
  unfold vfs_create_file
  simp only []
  rw [if_neg h1, if_neg h2']
  simp only [allocate_file_entry, if_neg h3', find_free_block, h4, if_true, new_entry,
    List.set_set, Nat.add_sub_cancel]

theorem create_ok {s : VFS} {path : List Char} {type : FileType} {now : Nat} {b : Nat}
    (h1 : ¬ ((lookup_name s path).length = 0 ∨ (lookup_name s path).length ≥ MAX_FILENAME))
    (h2 : find_file_index s (lookup_name s path) = none)
    (h3 : s.header.num_files < MAX_FILES)
    (h4 : first_free s.header.block_used = some b) :
    vfs_create_file s path type now =
      (save_header { s with header := { s.header with
          num_files := s.header.num_files + 1,
          entries := s.header.entries.set s.header.num_files
            (new_entry (lookup_name s path) type b now),
          block_used := s.header.block_used.set b true } }, true) := by
  unfold lookup_name at h1 h2 ⊢
  have h2' : ¬ (find_file_entry s (filename_of (vfs_resolve_path s path))).isSome = true := by
    rw [find_file_entry_isSome, h2]; simp
  have h3' : ¬ s.header.num_files ≥ MAX_FILES := Nat.not_le.mpr h3
  have h5 := first_free_ne_no_block h4
  unfold vfs_create_file
  simp only []
  rw [if_neg h1, if_neg h2']
  simp only [allocate_file_entry, if_neg h3', find_free_block, h4, if_neg h5, new_entry,
    List.set_set]

/-! ## List facts about the table operations -/

theorem take_set_self {α : Type} (l : List α) (n : Nat) (a : α) :
    (l.set n a).take n = l.take n := by
  induction l generalizing n with
  | nil => simp
  | cons x rest ih =>
    cases n with
    | zero => simp
    | succ n => simp [ih]

theorem take_succ_set_self {α : Type} (l : List α) (n : Nat) (a : α) (h : n < l.length) :
    (l.set n a).take (n + 1) = l.take n ++ [a] := by
  induction l generalizing n with
  | nil => simp at h
  | cons x rest ih =>
    cases n with
    | zero => simp
    | succ n =>
      simp only [List.length_cons, Nat.add_lt_add_iff_right] at h
      simp [ih n h]

theorem memmove_table {α : Type} (l : List α) (n idx : Nat) (hn : n ≤ l.length) (hi : idx < n) :
    (if idx < n - 1 then
        l.take idx ++ (l.drop (idx + 1)).take (n - idx - 1) ++ l.drop (n - 1)
      else l).take (n - 1) = (l.take n).eraseIdx idx := by
  apply List.ext_getElem?
  intro j
  rw [List.getElem?_eraseIdx, List.getElem?_take, List.getElem?_take, List.getElem?_take]
  by_cases h1 : idx < n - 1
  · rw [if_pos h1]
    by_cases hj : j < n - 1
    · rw [if_pos hj]
      by_cases hji : j < idx
      · rw [if_pos hji, if_pos (by omega)]
        rw [List.append_assoc, List.getElem?_append_left (by simp; omega)]
        rw [List.getElem?_take, if_pos hji]
      · rw [if_neg hji, if_pos (by omega)]
        rw [List.append_assoc, List.getElem?_append_right (by simp; omega)]
        have e1 : (l.take idx).length = idx := by simp; omega
        rw [e1, List.getElem?_append_left (by simp; omega)]
        rw [List.getElem?_take, if_pos (by omega), List.getElem?_drop]
        congr 1
        omega
    · rw [if_neg hj]
      by_cases hji : j < idx
      · omega
      · rw [if_neg hji, if_neg (by omega)]
  · rw [if_neg h1]
    have e : idx = n - 1 := by omega
    by_cases hj : j < n - 1
    · rw [if_pos hj, if_pos (by omega), if_pos (by omega)]
    · rw [if_neg hj, if_neg (by omega), if_neg (by omega)]

theorem memmove_length {α : Type} (l : List α) (n idx : Nat) (hn : n ≤ l.length) (hi : idx < n) :
    (if idx < n - 1 then
        l.take idx ++ (l.drop (idx + 1)).take (n - idx - 1) ++ l.drop (n - 1)
      else l).length = l.length := by
  split
  · simp
    omega
  · rfl

theorem map_set_same {α β : Type} (f : α → β) (l : List α) (i : Nat) (a d : α)
    (h : f a = f (l.getD i d)) : (l.set i a).map f = l.map f := by
  apply List.ext_getElem?
  intro j
  rw [List.getElem?_map, List.getElem?_map, List.getElem?_set]
  by_cases hij : i = j
  · subst hij
    rw [if_pos rfl]
    by_cases hl : i < l.length
    · rw [if_pos hl, List.getElem?_eq_getElem hl]
      simp only [Option.map_some']
      rw [h, List.getD_eq_getElem _ _ hl]
    · rw [if_neg hl]
      rw [List.getElem?_eq_none (by omega)]
  · rw [if_neg hij]

/-! ## Paths -/

theorem collapse_slashes_mem {b : Bool} {l : List Char} {c : Char}
    (h : c ∈ collapse_slashes b l) : c ∈ l := by
  induction l generalizing b with
  | nil => simp [collapse_slashes] at h
  | cons x rest ih =>
    unfold collapse_slashes at h
    split_ifs at h with h1 h2
    · rcases List.mem_cons.mp h with h | h
      · rw [h, h1]; exact List.mem_cons_self _ _
      · exact List.mem_cons_of_mem _ (ih h)
    · exact List.mem_cons_of_mem _ (ih h)
    · rcases List.mem_cons.mp h with h | h
      · rw [h]; exact List.mem_cons_self _ _
      · exact List.mem_cons_of_mem _ (ih h)

theorem normalize_path_no_backslash (path : List Char) : '\\' ∉ normalize_path path := by
  intro h
  have h2 := collapse_slashes_mem h
  rw [List.mem_map] at h2
  obtain ⟨c, _, hc⟩ := h2
  split_ifs at hc with h3
  · cases hc
  · exact h3 hc

theorem resolve_no_backslash {s : VFS} (h : '\\' ∉ s.current_dir) (path : List Char) :
    '\\' ∉ vfs_resolve_path s path := by
  unfold vfs_resolve_path
  simp only []
  have hn := normalize_path_no_backslash path
  have hne : '\\' ≠ '/' := by decide
  split
  · exact hn
  · unfold join_path
    split
    · intro hm
      rcases List.mem_append.mp hm with hm | hm
      · rcases List.mem_append.mp hm with hm | hm
        · exact h hm
        · exact hne (List.mem_singleton.mp hm)
      · exact hn hm
    · intro hm
      rcases List.mem_append.mp hm with hm | hm
      · exact h hm
      · exact hn hm

theorem after_last_append (c : Char) (a b : List Char) :
    after_last c (a ++ b) =
      match after_last c b with
      | some r => some r
      | none => (after_last c a).map (fun r => r ++ b) := by
  induction a with
  | nil =>
    simp only [List.nil_append]
    cases after_last c b <;> simp [after_last]
  | cons x rest ih =>
    rw [List.cons_append]
    simp only [after_last]
    rw [ih]
    cases h1 : after_last c b with
    | some r => rfl
    | none =>
      cases h2 : after_last c rest with
      | some r => rfl
      | none =>
        simp only [Option.map_none']
        split_ifs <;> rfl

theorem after_last_slash_cons (n : List Char) :
    after_last '/' ('/' :: n) = some (filename_of n) := by
  unfold filename_of
  simp only [after_last]
  cases after_last '/' n <;> simp

theorem filename_of_append_slash (a n : List Char) :
    filename_of (a ++ '/' :: n) = filename_of n := by
  unfold filename_of
  rw [after_last_append, after_last_slash_cons]
  simp only []
  rfl

/-- The name an operation looks up does not depend on the current directory. -/
theorem lookup_name_eq {s : VFS} (h : '\\' ∉ s.current_dir) (path : List Char) :
    lookup_name s path = filename_of (normalize_path path) := by
  unfold lookup_name vfs_resolve_path
  simp only []
  split
  · rfl
  · unfold join_path
    split
    · rw [List.append_assoc]
      exact filename_of_append_slash _ _
    · rename_i hc
      have hc2 : s.current_dir.getLast? = some '/' := by
        by_contra hne
        apply hc
        refine ⟨hne, ?_⟩
        intro hb
        exact h (List.mem_of_getLast?_eq_some hb)
      obtain ⟨ys, hys⟩ := List.getLast?_eq_some_iff.mp hc2
      rw [hys, List.append_assoc]
      exact filename_of_append_slash _ _

/-! ## Every reachable store is well formed -/

theorem fresh_store_header (now : Nat) :
    (fresh_store now).header =
      { magic := VFS_MAGIC, block_size := BLOCK_SIZE, num_blocks := MAX_BLOCKS, num_files := 1,
        root_dir := 0, free_list := 1,
        entries := (List.replicate MAX_FILES zero_entry).set 0
          { name := ['/'], type := FileType.FT_DIRECTORY, size := 0, first_block := 0,
            parent_dir := 0, created_time := now % 4294967296,
            modified_time := now % 4294967296 },
        block_used := (List.replicate MAX_BLOCKS false).set 0 true } := by
  rfl

theorem fresh_store_table (now : Nat) :
    file_table (fresh_store now) =
      [{ name := ['/'], type := FileType.FT_DIRECTORY, size := 0, first_block := 0,
         parent_dir := 0, created_time := now % 4294967296,
         modified_time := now % 4294967296 }] := by
  rfl

theorem wf_fresh (now : Nat) : WF (fresh_store now) where
  entries_len := by rw [fresh_store_header]; simp
  blocks_len := by rw [fresh_store_header]; simp
  num_le := by rw [fresh_store_header]; simp [MAX_FILES]
  names_nodup := by unfold table_names; rw [fresh_store_table]; simp
  first_lt := by
    intro e he
    rw [fresh_store_table] at he
    rw [List.mem_singleton.mp he]
    simp [MAX_BLOCKS]
  magic_ok := by rw [fresh_store_header]
  cwd_ok := by
    have : (fresh_store now).current_dir = ['/'] := rfl
    rw [this]
    decide

theorem wf_of_same_table {s t : VFS} (h : SameTable s t) (hs : WF s) : WF t where
  entries_len := by rw [h.entries_eq]; exact hs.entries_len
  blocks_len := by rw [h.blocks_len_eq]; exact hs.blocks_len
  num_le := by rw [h.num_eq]; exact hs.num_le
  names_nodup := by
    have : table_names t = table_names s := by
      unfold table_names file_table; rw [h.entries_eq, h.num_eq]
    rw [this]; exact hs.names_nodup
  first_lt := by
    have : file_table t = file_table s := by
      unfold file_table; rw [h.entries_eq, h.num_eq]
    rw [this]; exact hs.first_lt
  magic_ok := by rw [h.magic_eq]; exact hs.magic_ok
  cwd_ok := by rw [h.cwd_eq]; exact hs.cwd_ok

theorem wf_save_header {s : VFS} (hs : WF s) : WF (save_header s) :=
  ⟨hs.entries_len, hs.blocks_len, hs.num_le, hs.names_nodup, hs.first_lt, hs.magic_ok, hs.cwd_ok⟩

theorem wf_create {s : VFS} (hs : WF s) (path : List Char) (type : FileType) (now : Nat) :
    WF (vfs_create_file s path type now).1 := by
  by_cases h1 : (lookup_name s path).length = 0 ∨ (lookup_name s path).length ≥ MAX_FILENAME
  · rw [create_bad_name h1]; exact hs
  cases h2 : find_file_index s (lookup_name s path) with
  | some k =>
    have : (find_file_entry s (lookup_name s path)).isSome = true := by
      rw [find_file_entry_isSome, h2]; rfl
    rw [create_exists this]; exact hs
  | none =>
    by_cases h3 : s.header.num_files < MAX_FILES
    · have hlen : s.header.num_files < s.header.entries.length := by
        rw [hs.entries_len]; exact h3
      cases h4 : first_free s.header.block_used with
      | none =>
        rw [create_no_block h1 h2 h3 h4]
        refine ⟨?_, hs.blocks_len, hs.num_le, ?_, ?_, hs.magic_ok, hs.cwd_ok⟩
        · simp only [List.length_set]; exact hs.entries_len
        · have : table_names
              { s with header := { s.header with
                  entries := s.header.entries.set s.header.num_files
                    (new_entry (lookup_name s path) type NO_BLOCK now) } } = table_names s := by
            simp only [table_names, file_table, take_set_self]
          rw [this]; exact hs.names_nodup
        · intro e he
          simp only [file_table, take_set_self] at he
          exact hs.first_lt e he
      | some b =>
        rw [create_ok h1 h2 h3 h4]
        apply wf_save_header
        have hname : (lookup_name s path).take (MAX_FILENAME - 1) = lookup_name s path := by
          apply List.take_of_length_le
          have : (lookup_name s path).length < MAX_FILENAME := by
            by_contra hc
            exact h1 (Or.inr (Nat.le_of_not_lt hc))
          omega
        refine ⟨?_, ?_, ?_, ?_, ?_, hs.magic_ok, hs.cwd_ok⟩
        · simp only [List.length_set]; exact hs.entries_len
        · simp only [List.length_set]; exact hs.blocks_len
        · exact h3
        · simp only [table_names, file_table, take_succ_set_self _ _ _ hlen, List.map_append,
            List.map_cons, List.map_nil, new_entry, hname]
          rw [List.nodup_append]
          refine ⟨hs.names_nodup, List.nodup_singleton _, ?_⟩
          rw [List.disjoint_singleton]
          exact (find_file_index_none_iff_not_mem (Nat.le_of_lt hlen)).mp h2
        · intro e he
          simp only [file_table, take_succ_set_self _ _ _ hlen, List.mem_append,
            List.mem_singleton] at he
          rcases he with he | he
          · exact hs.first_lt e he
          · rw [he]
            exact (first_free_some h4).1
    · rw [create_table_full (Nat.le_of_not_lt h3)]; exact hs

theorem getD_mem_table {s : VFS} (h : s.header.num_files ≤ s.header.entries.length) {i : Nat}
    (hi : i < s.header.num_files) : s.header.entries.getD i zero_entry ∈ file_table s := by
  have hi2 : i < s.header.entries.length := Nat.lt_of_lt_of_le hi h
  unfold file_table
  rw [List.mem_take_iff_getElem]
  exact ⟨i, by simp [hi, hi2], by rw [List.getD_eq_getElem _ _ hi2]⟩

theorem wf_set_entry {t : VFS} (ht : WF t) {idx : Nat} (hi : idx < t.header.num_files)
    (e : FileEntry) (hn : e.name = (t.header.entries.getD idx zero_entry).name)
    (hb : e.first_block = (t.header.entries.getD idx zero_entry).first_block) :
    WF { t with header := { t.header with entries := t.header.entries.set idx e } } := by
  have hle : t.header.num_files ≤ t.header.entries.length := by
    rw [ht.entries_len]; exact ht.num_le
  refine ⟨?_, ht.blocks_len, ht.num_le, ?_, ?_, ht.magic_ok, ht.cwd_ok⟩
  · simp only [List.length_set]; exact ht.entries_len
  · have := ht.names_nodup
    simp only [table_names, file_table, List.map_take] at this ⊢
    rw [map_set_same (fun e => e.name) _ _ _ zero_entry hn]
    exact this
  · intro x hx
    simp only [file_table] at hx
    rw [List.mem_take_iff_getElem] at hx
    obtain ⟨i, hi2, hx⟩ := hx
    simp only [List.length_set] at hi2
    have hin : i < t.header.num_files := by omega
    rw [List.getElem_set] at hx
    by_cases h1 : idx = i
    · rw [if_pos h1] at hx
      rw [← hx, hb]
      exact ht.first_lt _ (getD_mem_table hle hi)
    · rw [if_neg h1] at hx
      apply ht.first_lt
      unfold file_table
      rw [List.mem_take_iff_getElem]
      exact ⟨i, hi2, hx⟩

theorem write_entry_fst (s : VFS) (idx : Nat) (data : List Byte) (len now : Nat) :
    (write_entry s idx data len now).1 =
      save_header
        { write_loop len s (s.header.entries.getD idx zero_entry).first_block data len with
          header :=
            { (write_loop len s (s.header.entries.getD idx zero_entry).first_block data len).header with
              entries := s.header.entries.set idx
                { s.header.entries.getD idx zero_entry with
                  size := len % 4294967296, modified_time := now % 4294967296 } } } := by
  unfold write_entry
  simp only []
  rw [(write_loop_same len s _ data len).entries_eq]

theorem wf_write_entry {s : VFS} (hs : WF s) {idx : Nat} (hi : idx < s.header.num_files)
    (data : List Byte) (len now : Nat) : WF (write_entry s idx data len now).1 := by
  rw [write_entry_fst]
  apply wf_save_header
  have hsame := write_loop_same len s (s.header.entries.getD idx zero_entry).first_block data len
  have ht := wf_of_same_table hsame hs
  have := @wf_set_entry _ ht idx (by rw [hsame.num_eq]; exact hi)
    { s.header.entries.getD idx zero_entry with
      size := len % 4294967296, modified_time := now % 4294967296 }
    (by rw [hsame.entries_eq]) (by rw [hsame.entries_eq])
  rw [hsame.entries_eq] at this
  exact this

theorem wf_write {s : VFS} (hs : WF s) (path : List Char) (data : List Byte) (len now : Nat) :
    WF (vfs_write_file s path data len now).1 := by
  unfold vfs_write_file
  simp only []
  split
  · rename_i idx h
    exact wf_write_entry hs (find_file_index_some h).1 data len now
  · have hc := wf_create hs path FileType.FT_REGULAR now
    split
    · rename_i v hv
      rw [hv] at hc; exact hc
    · rename_i v hv
      rw [hv] at hc
      split
      · exact hc
      · rename_i idx h
        exact wf_write_entry hc (find_file_index_some h).1 data len now

theorem delete_found {s : VFS} {path : List Char} {k : Nat}
    (h : find_file_index s (lookup_name s path) = some k) :
    vfs_delete_file s path =
      (save_header
        { free_loop MAX_BLOCKS s (s.header.entries.getD k zero_entry).first_block with
          header :=
            { (free_loop MAX_BLOCKS s (s.header.entries.getD k zero_entry).first_block).header with
              entries :=
                if k < s.header.num_files - 1 then
                  s.header.entries.take k ++
                    (s.header.entries.drop (k + 1)).take (s.header.num_files - k - 1) ++
                    s.header.entries.drop (s.header.num_files - 1)
                else s.header.entries,
              num_files := s.header.num_files - 1 } }, true) := by
  unfold lookup_name at h
  unfold vfs_delete_file
  simp only [h]
  have hsame := free_loop_same MAX_BLOCKS s (s.header.entries.getD k zero_entry).first_block
  rw [hsame.entries_eq, hsame.num_eq]

theorem delete_not_found {s : VFS} {path : List Char}
    (h : find_file_index s (lookup_name s path) = none) :
    vfs_delete_file s path = (s, false) := by
  unfold lookup_name at h
  unfold vfs_delete_file
  simp only [h]

theorem delete_table {s : VFS} (hs : WF s) {path : List Char} {k : Nat}
    (h : find_file_index s (lookup_name s path) = some k) :
    file_table (vfs_delete_file s path).1 = (file_table s).eraseIdx k := by
  rw [delete_found h]
  simp only [file_table, save_header]
  apply memmove_table
  · rw [hs.entries_len]; exact hs.num_le
  · exact (find_file_index_some h).1

theorem wf_delete {s : VFS} (hs : WF s) (path : List Char) : WF (vfs_delete_file s path).1 := by
  cases h : find_file_index s (lookup_name s path) with
  | none => rw [delete_not_found h]; exact hs
  | some k =>
    have htab := delete_table hs h
    have hk := (find_file_index_some h).1
    have hle : s.header.num_files ≤ s.header.entries.length := by
      rw [hs.entries_len]; exact hs.num_le
    have hsame := free_loop_same MAX_BLOCKS s (s.header.entries.getD k zero_entry).first_block
    refine ⟨?_, ?_, ?_, ?_, ?_, ?_, ?_⟩
    · rw [delete_found h]
      simp only [save_header]
      rw [memmove_length _ _ _ hle hk]
      exact hs.entries_len
    · rw [delete_found h]
      simp only [save_header]
      rw [hsame.blocks_len_eq]; exact hs.blocks_len
    · rw [delete_found h]
      simp only [save_header]
      have := hs.num_le
      omega
    · unfold table_names
      rw [htab]
      exact List.Nodup.sublist ((List.eraseIdx_sublist _ _).map _) hs.names_nodup
    · intro e he
      rw [htab] at he
      exact hs.first_lt e ((List.eraseIdx_sublist _ _).subset he)
    · rw [delete_found h]
      simp only [save_header]
      rw [hsame.magic_eq]; exact hs.magic_ok
    · rw [delete_found h]
      simp only [save_header]
      rw [hsame.cwd_eq]; exact hs.cwd_ok

theorem chdir_header (s : VFS) (path : List Char) :
    (vfs_change_directory s path).1.header = s.header ∧
      (vfs_change_directory s path).1.file_data = s.file_data ∧
      (vfs_change_directory s path).1.file_header = s.file_header := by
  unfold vfs_change_directory
  simp only []
  split_ifs
  · exact ⟨rfl, rfl, rfl⟩
  · split
    · exact ⟨rfl, rfl, rfl⟩
    · split_ifs <;> exact ⟨rfl, rfl, rfl⟩

theorem wf_chdir {s : VFS} (hs : WF s) (path : List Char) :
    WF (vfs_change_directory s path).1 := by
  have hh := (chdir_header s path).1
  have hcwd : '\\' ∉ (vfs_change_directory s path).1.current_dir := by
    unfold vfs_change_directory
    simp only []
    split_ifs
    · show '\\' ∉ ['/']
      decide
    · split
      · exact hs.cwd_ok
      · split_ifs
        · exact hs.cwd_ok
        · intro hm
          exact resolve_no_backslash hs.cwd_ok path (List.mem_of_mem_take hm)
  refine ⟨?_, ?_, ?_, ?_, ?_, ?_, hcwd⟩
  · rw [hh]; exact hs.entries_len
  · rw [hh]; exact hs.blocks_len
  · rw [hh]; exact hs.num_le
  · have : table_names (vfs_change_directory s path).1 = table_names s := by
      unfold table_names file_table; rw [hh]
    rw [this]; exact hs.names_nodup
  · have : file_table (vfs_change_directory s path).1 = file_table s := by
      unfold file_table; rw [hh]
    rw [this]; exact hs.first_lt
  · rw [hh]; exact hs.magic_ok

theorem reopen_eq {s : VFS} (hm : s.header.magic = VFS_MAGIC) (creatable : Bool) (now : Nat) :
    vfs_init (some (vfs_close s)) creatable now =
      some { header := s.header, file_header := s.header, file_data := s.file_data,
             current_dir := ['/'] } := by
  simp only [vfs_init, vfs_close, save_header, hm, if_true]

theorem wf_reopen {s s1 : VFS} (hs : WF s) {creatable : Bool} {now : Nat}
    (h : vfs_init (some (vfs_close s)) creatable now = some s1) : WF s1 := by
  rw [reopen_eq hs.magic_ok] at h
  cases h
  refine ⟨hs.entries_len, hs.blocks_len, hs.num_le, hs.names_nodup, hs.first_lt, hs.magic_ok, ?_⟩
  show '\\' ∉ ['/']
  decide

theorem reachable_wf {s : VFS} (h : Reachable s) : WF s := by
  induction h with
  | fresh now => exact wf_fresh now
  | create s path type now _ ih => exact wf_create ih path type now
  | write s path data len now _ _ ih => exact wf_write ih path data len now
  | delete s path _ ih => exact wf_delete ih path
  | chdir s path _ ih => exact wf_chdir ih path
  | reopen s s1 now _ h ih => exact wf_reopen ih h

/-! ## Lookup in a well-formed store -/

theorem table_names_length {s : VFS} (hs : WF s) :
    (table_names s).length = s.header.num_files := by
  unfold table_names
  rw [List.length_map]
  apply file_table_length
  rw [hs.entries_len]; exact hs.num_le

theorem table_names_getElem {s : VFS} (hs : WF s) {i : Nat} (hi : i < (table_names s).length) :
    (table_names s)[i] = (s.header.entries.getD i zero_entry).name := by
  have hn := table_names_length hs
  have hl : i < s.header.entries.length := by
    rw [hs.entries_len]
    exact Nat.lt_of_lt_of_le (hn ▸ hi) hs.num_le
  simp only [table_names, file_table, List.getElem_map, List.getElem_take]
  rw [List.getD_eq_getElem _ _ hl]

theorem wf_name_inj {s : VFS} (hs : WF s) {i j : Nat} (hi : i < s.header.num_files)
    (hj : j < s.header.num_files)
    (h : (s.header.entries.getD i zero_entry).name = (s.header.entries.getD j zero_entry).name) :
    i = j := by
  have hn := table_names_length hs
  have hi2 : i < (table_names s).length := by rw [hn]; exact hi
  have hj2 : j < (table_names s).length := by rw [hn]; exact hj
  apply (@List.Nodup.getElem_inj_iff _ _ hs.names_nodup i hi2 j hj2).mp
  rw [table_names_getElem hs, table_names_getElem hs]
  exact h

theorem find_of_name {s : VFS} (hs : WF s) {k : Nat} (hk : k < s.header.num_files)
    {name : List Char} (hname : (s.header.entries.getD k zero_entry).name = name) :
    find_file_index s name = some k := by
  unfold find_file_index
  apply range_find_first hk
  · simpa using hname
  · intro j hj
    have : (s.header.entries.getD j zero_entry).name ≠ name := by
      intro hc
      have := wf_name_inj hs (Nat.lt_trans hj hk) hk (hc.trans hname.symm)
      omega
    simpa using this

theorem delete_cwd (s : VFS) (path : List Char) :
    (vfs_delete_file s path).1.current_dir = s.current_dir := by
  cases h : find_file_index s (lookup_name s path) with
  | none => rw [delete_not_found h]
  | some k =>
    rw [delete_found h]
    exact (free_loop_same _ _ _).cwd_eq

theorem lookup_name_congr {s t : VFS} (h : t.current_dir = s.current_dir) (path : List Char) :
    lookup_name t path = lookup_name s path := by
  unfold lookup_name vfs_resolve_path
  rw [h]

/-! ## Claims C2 to C6 -/

set_option maxRecDepth 100000 in
/-- Claim C2, evaluated on the store in which `a` and `b` were created and `a`
was then deleted: the calls succeed, the entry `b` is still in the table with
`first_block = 2`, and block 2 is no longer marked used, because the freeing
loop of `vfs_delete_file` runs on from block 1 through every used block that
follows. -/
theorem c2_first_block_unmarked_after_delete :
    (vfs_create_file (fresh_store 0) ['a'] FileType.FT_REGULAR 0).2 = true ∧
    (vfs_create_file store_a ['b'] FileType.FT_REGULAR 0).2 = true ∧
    (vfs_delete_file store_ab ['a']).2 = true ∧
    (file_table (vfs_delete_file store_ab ['a']).1).map (fun e => (e.name, e.first_block))
      = [(['/'], 0), (['b'], 2)] ∧
    (vfs_delete_file store_ab ['a']).1.header.block_used.getD 2 false = false := by
  decide

/-- Claim C5: when the entry table holds `MAX_FILES` entries, or every block
is marked used, `vfs_create_file` returns false and `num_files`, the first
`num_files` entries and the allocation bitmap are what they were. -/
theorem c5_create_exhausted (s : VFS) (path : List Char) (type : FileType) (now : Nat)
    (h : s.header.num_files ≥ MAX_FILES ∨
      ∀ i, i < MAX_BLOCKS → s.header.block_used.getD i false = true) :
    (vfs_create_file s path type now).2 = false ∧
    (vfs_create_file s path type now).1.header.num_files = s.header.num_files ∧
    file_table (vfs_create_file s path type now).1 = file_table s ∧
    (vfs_create_file s path type now).1.header.block_used = s.header.block_used := by
  by_cases h1 : (lookup_name s path).length = 0 ∨ (lookup_name s path).length ≥ MAX_FILENAME
  · rw [create_bad_name h1]; exact ⟨rfl, rfl, rfl, rfl⟩
  cases h2 : find_file_index s (lookup_name s path) with
  | some k =>
    have : (find_file_entry s (lookup_name s path)).isSome = true := by
      rw [find_file_entry_isSome, h2]; rfl
    rw [create_exists this]; exact ⟨rfl, rfl, rfl, rfl⟩
  | none =>
    by_cases h3 : s.header.num_files < MAX_FILES
    · rcases h with h | h
      · omega
      · rw [create_no_block h1 h2 h3 (first_free_none_of_all_used h)]
        refine ⟨rfl, rfl, ?_, rfl⟩
        simp only [file_table, take_set_self]
    · rw [create_table_full (Nat.le_of_not_lt h3)]; exact ⟨rfl, rfl, rfl, rfl⟩

theorem store_full_all_used :
    ∀ i, i < MAX_BLOCKS → store_full.header.block_used.getD i false = true := by
  intro i hi
  show (List.replicate MAX_BLOCKS true).getD i false = true
  simp [List.getD_eq_getElem?_getD, List.getElem?_replicate, hi]

theorem c5_create_exhausted_witness :
    (∀ i, i < MAX_BLOCKS → store_full.header.block_used.getD i false = true) ∧
    (vfs_create_file store_full ['n', 'e', 'w'] FileType.FT_REGULAR 7).2 = false ∧
    (vfs_create_file store_full ['n', 'e', 'w'] FileType.FT_REGULAR 7).1.header.num_files
      = store_full.header.num_files ∧
    file_table (vfs_create_file store_full ['n', 'e', 'w'] FileType.FT_REGULAR 7).1
      = file_table store_full ∧
    (vfs_create_file store_full ['n', 'e', 'w'] FileType.FT_REGULAR 7).1.header.block_used
      = store_full.header.block_used :=
  ⟨store_full_all_used,
   c5_create_exhausted store_full ['n', 'e', 'w'] FileType.FT_REGULAR 7
     (Or.inr store_full_all_used)⟩

theorem create_saved {s : VFS} {path : List Char} {type : FileType} {now : Nat}
    (h : (vfs_create_file s path type now).2 = true) :
    (vfs_create_file s path type now).1.file_header = (vfs_create_file s path type now).1.header := by
  by_cases h1 : (lookup_name s path).length = 0 ∨ (lookup_name s path).length ≥ MAX_FILENAME
  · rw [create_bad_name h1] at h; cases h
  cases h2 : find_file_index s (lookup_name s path) with
  | some k =>
    have : (find_file_entry s (lookup_name s path)).isSome = true := by
      rw [find_file_entry_isSome, h2]; rfl
    rw [create_exists this] at h; cases h
  | none =>
    by_cases h3 : s.header.num_files < MAX_FILES
    · cases h4 : first_free s.header.block_used with
      | none => rw [create_no_block h1 h2 h3 h4] at h; cases h
      | some b => rw [create_ok h1 h2 h3 h4]; rfl
    · rw [create_table_full (Nat.le_of_not_lt h3)] at h; cases h

theorem write_entry_saved (s : VFS) (idx : Nat) (data : List Byte) (len now : Nat) :
    (write_entry s idx data len now).1.file_header = (write_entry s idx data len now).1.header := by
  rw [write_entry_fst]; rfl

theorem write_saved {s : VFS} {path : List Char} {data : List Byte} {len now : Nat}
    (h : (vfs_write_file s path data len now).2 = true) :
    (vfs_write_file s path data len now).1.file_header
      = (vfs_write_file s path data len now).1.header := by
  unfold vfs_write_file at h ⊢
  simp only [] at h ⊢
  split at h
  · exact write_entry_saved _ _ _ _ _
  · split at h
    · cases h
    · split at h
      · cases h
      · exact write_entry_saved _ _ _ _ _

theorem delete_saved {s : VFS} {path : List Char}
    (h : (vfs_delete_file s path).2 = true) :
    (vfs_delete_file s path).1.file_header = (vfs_delete_file s path).1.header := by
  cases h2 : find_file_index s (lookup_name s path) with
  | none => rw [delete_not_found h2] at h; cases h
  | some k => rw [delete_found h2]; rfl

theorem run_op_saved {s : VFS} {op : MutOp} (h : (run_op s op).2 = true) :
    (run_op s op).1.file_header = (run_op s op).1.header := by
  cases op with
  | create path type now => exact create_saved h
  | write path data len now => exact write_saved h
  | delete path => exact delete_saved h

theorem wf_run_op {s : VFS} (hs : WF s) (op : MutOp) : WF (run_op s op).1 := by
  cases op with
  | create path type now => exact wf_create hs path type now
  | write path data len now => exact wf_write hs path data len now
  | delete path => exact wf_delete hs path

theorem read_loop_congr (fuel : Nat) {s t : VFS} (hh : t.header = s.header)
    (hd : t.file_data = s.file_data) (block remaining : Nat) :
    read_loop fuel t block remaining = read_loop fuel s block remaining := by
  induction fuel generalizing block remaining with
  | zero => rfl
  | succ fuel ih =>
    simp only [read_loop, read_block, hh, hd, ih]

/-- Reading depends on the store through its in-memory header, the data region
of the store file and the name looked up. -/
theorem read_file_congr {s t : VFS} (hh : t.header = s.header) (hd : t.file_data = s.file_data)
    {p q : List Char} (hn : lookup_name t p = lookup_name s q) (max_len : Nat) :
    vfs_read_file t p max_len = vfs_read_file s q max_len := by
  unfold lookup_name at hn
  simp only [vfs_read_file, find_file_entry, find_file_index, hn, hh, read_loop_congr _ hh hd]

/-- Claim C7: after a successful `vfs_create_file`, `vfs_write_file` or
`vfs_delete_file` on a reachable store the header in the store file equals
the in-memory header, and opening the store file again (as it is, or after
`vfs_close`) gives a store with the same header and data in which every
`vfs_read_file` returns what it returned before. -/
theorem c7_durability (s : VFS) (hs : Reachable s) (op : MutOp)
    (hok : (run_op s op).2 = true) (creatable : Bool) (now : Nat) :
    (run_op s op).1.file_header = (run_op s op).1.header ∧
    vfs_init (some (store_file_of (run_op s op).1)) creatable now
      = vfs_init (some (vfs_close (run_op s op).1)) creatable now ∧
    ∃ t, vfs_init (some (vfs_close (run_op s op).1)) creatable now = some t ∧
      t.header = (run_op s op).1.header ∧ t.file_data = (run_op s op).1.file_data ∧
      ∀ path max_len,
        vfs_read_file t path max_len = vfs_read_file (run_op s op).1 path max_len := by
  have hw := wf_run_op (reachable_wf hs) op
  have hsaved := run_op_saved hok
  refine ⟨hsaved, ?_, _, reopen_eq hw.magic_ok creatable now, rfl, rfl, ?_⟩
  · simp only [store_file_of, vfs_close, save_header, hsaved]
  · intro path max_len
    refine @read_file_congr (run_op s op).1
      { header := (run_op s op).1.header, file_header := (run_op s op).1.header,
        file_data := (run_op s op).1.file_data, current_dir := ['/'] }
      rfl rfl path path ?_ max_len
    rw [lookup_name_eq hw.cwd_ok]
    apply lookup_name_eq
    show '\\' ∉ ['/']
    decide

set_option maxRecDepth 100000 in
theorem c7_durability_witness :
    (run_op store_a (MutOp.write ['a'] [104, 105] 2 5)).2 = true ∧
    (run_op store_a (MutOp.write ['a'] [104, 105] 2 5)).1.file_header
      = (run_op store_a (MutOp.write ['a'] [104, 105] 2 5)).1.header ∧
    vfs_init (some (store_file_of (run_op store_a (MutOp.write ['a'] [104, 105] 2 5)).1)) true 9
      = vfs_init (some (vfs_close (run_op store_a (MutOp.write ['a'] [104, 105] 2 5)).1)) true 9 ∧
    ∃ t, vfs_init (some (vfs_close (run_op store_a (MutOp.write ['a'] [104, 105] 2 5)).1)) true 9
        = some t ∧
      t.header = (run_op store_a (MutOp.write ['a'] [104, 105] 2 5)).1.header ∧
      t.file_data = (run_op store_a (MutOp.write ['a'] [104, 105] 2 5)).1.file_data ∧
      ∀ path max_len,
        vfs_read_file t path max_len
          = vfs_read_file (run_op store_a (MutOp.write ['a'] [104, 105] 2 5)).1 path max_len :=
  ⟨by decide,
   c7_durability store_a (Reachable.create _ _ _ _ (Reachable.fresh 0))
     (MutOp.write ['a'] [104, 105] 2 5) (by decide) true 9⟩

theorem create_congr {s : VFS} {p q : List Char} (h : lookup_name s p = lookup_name s q)
    (type : FileType) (now : Nat) :
    vfs_create_file s p type now = vfs_create_file s q type now := by
  unfold lookup_name at h
  simp only [vfs_create_file, h]

/-- For calls that stay inside the buffer `resolved[MAX_PATH]`:
`vfs_file_exists`, `vfs_create_file`, `vfs_read_file`, `vfs_write_file` and
`vfs_delete_file` give the same result on two paths whose resolved forms have
the same final component; in a reachable store that component is the final
component of the normalized path, whatever the current directory. -/
theorem same_component_same_result (s : VFS) (p q : List Char)
    (h : filename_of (vfs_resolve_path s p) = filename_of (vfs_resolve_path s q)) :
    vfs_file_exists s p = vfs_file_exists s q ∧
    (∀ type now, vfs_create_file s p type now = vfs_create_file s q type now) ∧
    (∀ max_len, vfs_read_file s p max_len = vfs_read_file s q max_len) ∧
    (∀ data len now, vfs_write_file s p data len now = vfs_write_file s q data len now) ∧
    vfs_delete_file s p = vfs_delete_file s q ∧
    (Reachable s → filename_of (vfs_resolve_path s p) = filename_of (normalize_path p)) := by
  refine ⟨?_, ?_, ?_, ?_, ?_, ?_⟩
  · simp only [vfs_file_exists, h]
  · intro type now
    exact create_congr h type now
  · intro max_len
    exact @read_file_congr s s rfl rfl p q h max_len
  · intro data len now
    simp only [vfs_write_file, h, create_congr h]
  · simp only [vfs_delete_file, h]
  · intro hs
    exact lookup_name_eq (reachable_wf hs).cwd_ok p

set_option maxRecDepth 100000 in
theorem same_component_example :
    (vfs_create_file (fresh_store 0) ['p', 'r', 'o', 'j', '/', 'a', '.', 't', 'x', 't']
      FileType.FT_REGULAR 0).2 = true ∧
    table_names (vfs_create_file (fresh_store 0) ['p', 'r', 'o', 'j', '/', 'a', '.', 't', 'x', 't']
      FileType.FT_REGULAR 0).1 = [['/'], ['a', '.', 't', 'x', 't']] ∧
    vfs_file_exists (vfs_create_file (fresh_store 0)
      ['p', 'r', 'o', 'j', '/', 'a', '.', 't', 'x', 't'] FileType.FT_REGULAR 0).1
      ['a', '.', 't', 'x', 't'] = true ∧
    vfs_file_exists (vfs_create_file (fresh_store 0)
      ['p', 'r', 'o', 'j', '/', 'a', '.', 't', 'x', 't'] FileType.FT_REGULAR 0).1
      ['a', '.', 't', 'x', 't']
      = vfs_file_exists (vfs_create_file (fresh_store 0)
          ['p', 'r', 'o', 'j', '/', 'a', '.', 't', 'x', 't'] FileType.FT_REGULAR 0).1
          ['o', 't', 'h', 'e', 'r', '/', 'a', '.', 't', 'x', 't'] :=
  ⟨by decide, by decide, by decide,
   (same_component_same_result (vfs_create_file (fresh_store 0)
      ['p', 'r', 'o', 'j', '/', 'a', '.', 't', 'x', 't'] FileType.FT_REGULAR 0).1
      ['a', '.', 't', 'x', 't'] ['o', 't', 'h', 'e', 'r', '/', 'a', '.', 't', 'x', 't']
      (by decide)).1⟩

/-! ## The tokenizer -/

theorem flush_full_of_lt {st : TokState} (h : st.token.length < MAX_TOKEN_LEN - 1) :
    flush_full st = st := by
  unfold flush_full
  rw [if_neg (Nat.not_le.mpr h)]

theorem flush_word_flush_full (st : TokState) :
    flush_word (flush_full st) = flush_word st := by
  unfold flush_full flush_word
  by_cases h : st.token.length ≥ MAX_TOKEN_LEN - 1
  · have h2 : st.token.length > 0 := by
      unfold MAX_TOKEN_LEN at h
      omega
    simp [h, h2]
  · simp [h]

theorem flush_full_quotes (st : TokState) :
    (flush_full st).in_quotes = st.in_quotes ∧
      (flush_full st).in_single_quotes = st.in_single_quotes := by
  unfold flush_full
  split <;> exact ⟨rfl, rfl⟩

theorem tok_loop_pipe (st : TokState) (rest : List Char)
    (hq : st.in_quotes = false) (hs : st.in_single_quotes = false) :
    tok_loop st ('|' :: rest) = tok_loop (emit_op (flush_word st) TokenKind.TOKEN_PIPE) rest := by
  have h := flush_full_quotes st
  rw [hq, hs] at h
  cases rest <;> simp [tok_loop, h.1, h.2, flush_word_flush_full]

theorem tok_loop_lt (st : TokState) (rest : List Char)
    (hq : st.in_quotes = false) (hs : st.in_single_quotes = false) :
    tok_loop st ('<' :: rest) =
      tok_loop (emit_op (flush_word st) TokenKind.TOKEN_REDIRECT_IN) rest := by
  have h := flush_full_quotes st
  rw [hq, hs] at h
  cases rest <;> simp [tok_loop, h.1, h.2, flush_word_flush_full]

theorem tok_loop_gt_gt (st : TokState) (rest : List Char)
    (hq : st.in_quotes = false) (hs : st.in_single_quotes = false) :
    tok_loop st ('>' :: '>' :: rest) =
      tok_loop (emit_op (flush_word st) TokenKind.TOKEN_REDIRECT_APPEND) rest := by
  have h := flush_full_quotes st
  rw [hq, hs] at h
  simp only [tok_loop, h.1, h.2, flush_word_flush_full]
  simp

theorem tok_loop_gt (st : TokState) (rest : List Char)
    (hq : st.in_quotes = false) (hs : st.in_single_quotes = false)
    (hnext : rest.head? ≠ some '>') :
    tok_loop st ('>' :: rest) =
      tok_loop (emit_op (flush_word st) TokenKind.TOKEN_REDIRECT_OUT) rest := by
  have h := flush_full_quotes st
  rw [hq, hs] at h
  cases rest with
  | nil =>
    simp only [tok_loop, h.1, h.2, flush_word_flush_full]
    simp
  | cons d rest2 =>
    have hd : d ≠ '>' := by
      intro hc
      apply hnext
      rw [hc]; rfl
    simp only [tok_loop, h.1, h.2, flush_word_flush_full]
    simp [hd]

theorem tok_loop_open_dquote (st : TokState) (rest : List Char)
    (hq : st.in_quotes = false) (hs : st.in_single_quotes = false) :
    tok_loop st ('"' :: rest) = tok_loop { flush_full st with in_quotes := true } rest := by
  have h := flush_full_quotes st
  rw [hq, hs] at h
  cases rest <;> simp [tok_loop, h.1, h.2]

theorem tok_loop_open_squote (st : TokState) (rest : List Char)
    (hq : st.in_quotes = false) (hs : st.in_single_quotes = false) :
    tok_loop st ('\'' :: rest) = tok_loop { flush_full st with in_single_quotes := true } rest := by
  have h := flush_full_quotes st
  rw [hq, hs] at h
  cases rest <;> simp [tok_loop, h.1, h.2]

theorem tok_loop_close_dquote (st : TokState) (rest : List Char) (hq : st.in_quotes = true) :
    tok_loop st ('"' :: rest) =
      tok_loop { flush_full st with in_quotes := false, in_single_quotes := false } rest := by
  have h := flush_full_quotes st
  rw [hq] at h
  cases rest <;> simp [tok_loop, h.1]

theorem tok_loop_close_squote (st : TokState) (rest : List Char)
    (hs : st.in_single_quotes = true) :
    tok_loop st ('\'' :: rest) =
      tok_loop { flush_full st with in_quotes := false, in_single_quotes := false } rest := by
  have h := flush_full_quotes st
  rw [hs] at h
  cases rest <;> simp [tok_loop, h.2]

theorem tok_loop_dquoted_char (st : TokState) (c : Char) (rest : List Char)
    (hq : st.in_quotes = true) (hs : st.in_single_quotes = false)
    (h1 : c ≠ '"') (h2 : c ≠ '\\') :
    tok_loop st (c :: rest) = tok_loop (push_char (flush_full st) c) rest := by
  have h := flush_full_quotes st
  rw [hq, hs] at h
  cases rest <;> simp [tok_loop, h.1, h.2, h1, h2]

theorem tok_loop_squoted_char (st : TokState) (c : Char) (rest : List Char)
    (hq : st.in_quotes = false) (hs : st.in_single_quotes = true) (h1 : c ≠ '\'') :
    tok_loop st (c :: rest) = tok_loop (push_char (flush_full st) c) rest := by
  have h := flush_full_quotes st
  rw [hq, hs] at h
  cases rest <;> simp [tok_loop, h.1, h.2, h1]

theorem tok_loop_dquoted (s rest : List Char) (st : TokState)
    (hq : st.in_quotes = true) (hs : st.in_single_quotes = false)
    (h1 : '"' ∉ s) (h2 : '\\' ∉ s) (hlen : st.token.length + s.length ≤ MAX_TOKEN_LEN - 1) :
    tok_loop st (s ++ rest) = tok_loop { st with token := st.token ++ s } rest := by
  induction s generalizing st with
  | nil => simp
  | cons c s ih =>
    have hc1 : c ≠ '"' := fun e => h1 (by rw [e]; exact List.mem_cons_self _ _)
    have hc2 : c ≠ '\\' := fun e => h2 (by rw [e]; exact List.mem_cons_self _ _)
    simp only [List.length_cons] at hlen
    rw [List.cons_append, tok_loop_dquoted_char st c _ hq hs hc1 hc2,
      flush_full_of_lt (by omega)]
    rw [ih (push_char st c) hq hs (fun m => h1 (List.mem_cons_of_mem _ m))
      (fun m => h2 (List.mem_cons_of_mem _ m))
      (by simp only [push_char, List.length_append, List.length_singleton]; omega)]
    simp [push_char]

theorem tok_loop_squoted (s rest : List Char) (st : TokState)
    (hq : st.in_quotes = false) (hs : st.in_single_quotes = true)
    (h1 : '\'' ∉ s) (hlen : st.token.length + s.length ≤ MAX_TOKEN_LEN - 1) :
    tok_loop st (s ++ rest) = tok_loop { st with token := st.token ++ s } rest := by
  induction s generalizing st with
  | nil => simp
  | cons c s ih =>
    have hc1 : c ≠ '\'' := fun e => h1 (by rw [e]; exact List.mem_cons_self _ _)
    simp only [List.length_cons] at hlen
    rw [List.cons_append, tok_loop_squoted_char st c _ hq hs hc1,
      flush_full_of_lt (by omega)]
    rw [ih (push_char st c) hq hs (fun m => h1 (List.mem_cons_of_mem _ m))
      (by simp only [push_char, List.length_append, List.length_singleton]; omega)]
    simp [push_char]

/-! ## Claims C9 and C10 -/

/-- Claim C10: a non-empty string of at most 254 characters without double
quote and backslash, wrapped in double quotes, tokenizes to the single WORD
holding the string; the same holds for single quotes when the string has no
single quote. -/
theorem c10_quoted_word (s : List Char) (hne : s ≠ []) (hlen : s.length ≤ 254)
    (hdq : '"' ∉ s) (hbs : '\\' ∉ s) :
    parse_tokens ('"' :: s ++ ['"']) = [{ type := TokenKind.TOKEN_WORD, value := s }] ∧
    ('\'' ∉ s →
      parse_tokens ('\'' :: s ++ ['\'']) = [{ type := TokenKind.TOKEN_WORD, value := s }]) ∧
    parse_tokens ['e', 'c', 'h', 'o', ' ', '"', 'a', ' ', 'b', '"', ' ', 'c']
      = [{ type := TokenKind.TOKEN_WORD, value := ['e', 'c', 'h', 'o'] },
         { type := TokenKind.TOKEN_WORD, value := ['a', ' ', 'b'] },
         { type := TokenKind.TOKEN_WORD, value := ['c'] }] := by
  have hpos : 0 < s.length := List.length_pos.mpr hne
  have hlt : ¬ s.length ≥ MAX_TOKEN_LEN - 1 := by unfold MAX_TOKEN_LEN; omega
  have htake : List.take (MAX_TOKEN_LEN - 1) s = s :=
    List.take_of_length_le (by unfold MAX_TOKEN_LEN; omega)
  refine ⟨?_, ?_, by decide⟩
  · unfold parse_tokens
    rw [List.cons_append, tok_loop_open_dquote _ _ rfl rfl, flush_full_of_lt (by decide)]
    rw [tok_loop_dquoted s ['"'] _ rfl rfl hdq hbs
      (by simp only [tok_init, List.length_nil, MAX_TOKEN_LEN]; omega)]
    rw [tok_loop_close_dquote _ _ rfl]
    simp [tok_loop, flush_full, flush_word, tok_init, add_token, hlt, hpos, htake, MAX_TOKENS]
  · intro hsq
    unfold parse_tokens
    rw [List.cons_append, tok_loop_open_squote _ _ rfl rfl, flush_full_of_lt (by decide)]
    rw [tok_loop_squoted s ['\''] _ rfl rfl hsq
      (by simp only [tok_init, List.length_nil, MAX_TOKEN_LEN]; omega)]
    rw [tok_loop_close_squote _ _ rfl]
    simp [tok_loop, flush_full, flush_word, tok_init, add_token, hlt, hpos, htake, MAX_TOKENS]

theorem c10_quoted_word_witness :
    parse_tokens ('"' :: ['a', ' ', '|', ' ', 'b', '&'] ++ ['"'])
      = [{ type := TokenKind.TOKEN_WORD, value := ['a', ' ', '|', ' ', 'b', '&'] }] ∧
    ('\'' ∉ ['a', ' ', '|', ' ', 'b', '&'] →
      parse_tokens ('\'' :: ['a', ' ', '|', ' ', 'b', '&'] ++ ['\''])
        = [{ type := TokenKind.TOKEN_WORD, value := ['a', ' ', '|', ' ', 'b', '&'] }]) ∧
    parse_tokens ['e', 'c', 'h', 'o', ' ', '"', 'a', ' ', 'b', '"', ' ', 'c']
      = [{ type := TokenKind.TOKEN_WORD, value := ['e', 'c', 'h', 'o'] },
         { type := TokenKind.TOKEN_WORD, value := ['a', ' ', 'b'] },
         { type := TokenKind.TOKEN_WORD, value := ['c'] }] :=
  c10_quoted_word ['a', ' ', '|', ' ', 'b', '&'] (by decide) (by decide) (by decide) (by decide)

/-! ## The token list only grows -/
theorem add_token_grows (ts : List Token) (k : TokenKind) (v : Option (List Char)) :
    ts <+: add_token ts k v := by
  unfold add_token
  split
  · exact List.prefix_refl _
  · split <;> exact List.prefix_append _ _

theorem flush_full_grows (st : TokState) : st.tokens <+: (flush_full st).tokens := by
  unfold flush_full
  split
  · exact add_token_grows st.tokens TokenKind.TOKEN_WORD (some st.token)
  · exact List.prefix_refl _

theorem flush_word_grows (st : TokState) : st.tokens <+: (flush_word st).tokens := by
  unfold flush_word
  split
  · exact add_token_grows st.tokens TokenKind.TOKEN_WORD (some st.token)
  · exact List.prefix_refl _

theorem emit_op_grows (st : TokState) (k : TokenKind) : st.tokens <+: (emit_op st k).tokens :=
  add_token_grows st.tokens k none

theorem emit_flush_grows (st : TokState) (k : TokenKind) :
    st.tokens <+: (emit_op (flush_word (flush_full st)) k).tokens :=
  ((flush_full_grows st).trans (flush_word_grows (flush_full st))).trans
    (emit_op_grows (flush_word (flush_full st)) k)

theorem grows_step {st st2 : TokState} {l : List Char} (h1 : st.tokens <+: st2.tokens)
    (h2 : st2.tokens <+: (tok_loop st2 l).tokens) : st.tokens <+: (tok_loop st2 l).tokens :=
  h1.trans h2

set_option maxHeartbeats 2000000 in
theorem tok_loop_tokens_grow_aux (n : Nat) :
    ∀ (l : List Char) (st : TokState), l.length ≤ n → st.tokens <+: (tok_loop st l).tokens := by
  induction n with
  | zero =>
    intro l st hl
    have : l = [] := List.length_eq_zero.mp (Nat.le_zero.mp hl)
    subst this
    exact List.prefix_refl _
  | succ n ih =>
    intro l st hl
    have hp := flush_full_grows st
    have hw := hp.trans (flush_word_grows (flush_full st))
    have he := emit_flush_grows st
    cases l with
    | nil => exact List.prefix_refl _
    | cons c rest =>
      simp only [List.length_cons] at hl
      cases rest with
      | nil =>
        simp only [tok_loop]
        split_ifs
        all_goals first
          | with_reducible exact he _
          | with_reducible exact hw
          | with_reducible exact hp
          | exact (show st.tokens <+: (flush_full st).tokens from hp)
      | cons d rest2 =>
        simp only [List.length_cons] at hl
        have h1 : (d :: rest2).length ≤ n := by simp only [List.length_cons]; omega
        have h2 : rest2.length ≤ n := by omega
        simp only [tok_loop]
        split_ifs
        all_goals
          refine grows_step ?_ (ih _ _ ?_)
        all_goals first
          | with_reducible exact h1
          | with_reducible exact h2
          | with_reducible exact he _
          | with_reducible exact hw
          | with_reducible exact hp
          | exact (show st.tokens <+: (flush_full st).tokens from hp)



/-- The tokens emitted so far stay at the front of the token list, in their
order, whatever the loop of `parse_tokens` reads next. -/
theorem tok_loop_tokens_grow (st : TokState) (l : List Char) :
    st.tokens <+: (tok_loop st l).tokens :=
  tok_loop_tokens_grow_aux l.length l st (Nat.le_refl _)

theorem emit_after_flush (st : TokState) (kind : TokenKind)
    (hroom : st.tokens.length + (pending_word st).length + 1 ≤ MAX_TOKENS) :
    emit_op (flush_word st) kind = after_operator st kind := by
  unfold emit_op flush_word after_operator pending_word at *
  by_cases h : st.token = []
  · simp only [h, List.length_nil, if_true, Nat.add_zero, List.append_nil] at hroom ⊢
    have : ¬ st.tokens.length ≥ MAX_TOKENS := by omega
    simp [add_token, this, h]
  · have hpos : st.token.length > 0 := List.length_pos.mpr h
    simp only [h, if_false, List.length_singleton] at hroom ⊢
    have h1 : ¬ st.tokens.length ≥ MAX_TOKENS := by omega
    have h2 : ¬ st.tokens.length + 1 ≥ MAX_TOKENS := by omega
    simp [add_token, h1, h2, hpos]

/-- Claim C9, amended: while the token list has room for them, an unquoted
`|`, `<` or `>` appends the pending word (if the buffer is not empty) and
then PIPE, REDIRECT_IN or REDIRECT_OUT to the token list and empties the
buffer; `>` followed by `>` appends one REDIRECT_APPEND instead and consumes
both characters.  The tokens appended stay in this place and order in the
list `parse_tokens` returns, whatever follows on the line. -/
theorem c9_operator_tokens (st : TokState) (rest : List Char)
    (hq : st.in_quotes = false) (hs : st.in_single_quotes = false)
    (hroom : st.tokens.length + (pending_word st).length + 1 ≤ MAX_TOKENS) :
    tok_loop st ('|' :: rest) = tok_loop (after_operator st TokenKind.TOKEN_PIPE) rest ∧
    tok_loop st ('<' :: rest) = tok_loop (after_operator st TokenKind.TOKEN_REDIRECT_IN) rest ∧
    (rest.head? ≠ some '>' →
      tok_loop st ('>' :: rest) = tok_loop (after_operator st TokenKind.TOKEN_REDIRECT_OUT) rest) ∧
    tok_loop st ('>' :: '>' :: rest)
      = tok_loop (after_operator st TokenKind.TOKEN_REDIRECT_APPEND) rest ∧
    (∀ kind,
      st.tokens ++ pending_word st ++ [{ type := kind, value := [] }]
        <+: (flush_word (tok_loop (after_operator st kind) rest)).tokens) ∧
    parse_tokens ['a', ' ', '|', ' ', 'b', ' ', '>', ' ', 'c']
      = [{ type := TokenKind.TOKEN_WORD, value := ['a'] },
         { type := TokenKind.TOKEN_PIPE, value := [] },
         { type := TokenKind.TOKEN_WORD, value := ['b'] },
         { type := TokenKind.TOKEN_REDIRECT_OUT, value := [] },
         { type := TokenKind.TOKEN_WORD, value := ['c'] }] ∧
    parse_tokens ['a', '>', '>', 'b']
      = [{ type := TokenKind.TOKEN_WORD, value := ['a'] },
         { type := TokenKind.TOKEN_REDIRECT_APPEND, value := [] },
         { type := TokenKind.TOKEN_WORD, value := ['b'] }] := by
  refine ⟨?_, ?_, ?_, ?_, ?_, by decide, by decide⟩
  · rw [tok_loop_pipe st rest hq hs, emit_after_flush st _ hroom]
  · rw [tok_loop_lt st rest hq hs, emit_after_flush st _ hroom]
  · intro hnext
    rw [tok_loop_gt st rest hq hs hnext, emit_after_flush st _ hroom]
  · rw [tok_loop_gt_gt st rest hq hs, emit_after_flush st _ hroom]
  · intro kind
    exact (tok_loop_tokens_grow (after_operator st kind) rest).trans
      (flush_word_grows (tok_loop (after_operator st kind) rest))

theorem c9_operator_tokens_witness :
    tok_loop { tokens := [], token := ['a'], in_quotes := false, in_single_quotes := false }
        ['|', 'b']
      = tok_loop (after_operator
          { tokens := [], token := ['a'], in_quotes := false, in_single_quotes := false }
          TokenKind.TOKEN_PIPE) ['b'] ∧
    (after_operator
        { tokens := [], token := ['a'], in_quotes := false, in_single_quotes := false }
        TokenKind.TOKEN_PIPE).tokens
      = [{ type := TokenKind.TOKEN_WORD, value := ['a'] },
         { type := TokenKind.TOKEN_PIPE, value := [] }] :=
  ⟨(c9_operator_tokens
      { tokens := [], token := ['a'], in_quotes := false, in_single_quotes := false } ['b']
      rfl rfl (by decide)).1,
   by decide⟩

set_option maxRecDepth 100000 in
/-- Claim C9 as stated fails once the token list is full: of 129 unquoted `|`
in a line only the first 128 emit a PIPE token, the last one emits nothing. -/
theorem c9_full_list_drops_pipe :
    parse_tokens (List.replicate 129 '|')
      = List.replicate 128 { type := TokenKind.TOKEN_PIPE, value := [] } ∧
    parse_tokens (List.replicate 129 '|')
      ≠ List.replicate 129 { type := TokenKind.TOKEN_PIPE, value := [] } := by
  decide

/-! ## The data region of the store file -/

theorem file_write_at_drop (fd : List Byte) (off : Nat) (bytes : List Byte) (h : bytes ≠ []) :
    (file_write_at fd off bytes).drop off
      = bytes ++ (fd ++ List.replicate (off - fd.length) 0).drop (off + bytes.length) := by
  unfold file_write_at
  rw [if_neg h]
  simp only []
  rw [List.append_assoc]
  apply List.drop_left'
  simp
  omega

theorem file_write_at_read (fd : List Byte) (off : Nat) (bytes : List Byte) (h : bytes ≠ []) :
    file_read_at (file_write_at fd off bytes) off bytes.length = bytes := by
  unfold file_read_at
  rw [file_write_at_drop fd off bytes h]
  exact List.take_left' rfl

theorem file_write_at_length (fd : List Byte) (off : Nat) (bytes : List Byte) (h : bytes ≠ []) :
    off + bytes.length ≤ (file_write_at fd off bytes).length := by
  unfold file_write_at
  rw [if_neg h]
  simp
  omega

theorem file_write_at_take (fd : List Byte) (off : Nat) (bytes : List Byte) (m : Nat)
    (h1 : m ≤ off) (h2 : m ≤ fd.length) :
    (file_write_at fd off bytes).take m = fd.take m := by
  unfold file_write_at
  split
  · rfl
  · simp only []
    rw [List.append_assoc, List.take_append_of_le_length (by simp; omega)]
    rw [List.take_take, Nat.min_eq_left h1]
    exact List.take_append_of_le_length h2

theorem file_write_at_length_ge (fd : List Byte) (off : Nat) (bytes : List Byte) :
    fd.length ≤ (file_write_at fd off bytes).length := by
  unfold file_write_at
  split
  · exact Nat.le_refl _
  · simp
    omega

theorem take_drop_of_take_eq {l1 l2 : List Byte} {a b : Nat}
    (h : l1.take (a + b) = l2.take (a + b)) :
    (l1.drop a).take b = (l2.drop a).take b := by
  have e : ∀ l : List Byte, (l.drop a).take b = (l.take (a + b)).drop a := by
    intro l
    rw [List.drop_take]
    congr 1
    omega
  rw [e l1, e l2, h]

theorem take_add_drop (l : List Byte) (a b c : Nat) :
    (l.drop a).take (b + c) = (l.drop a).take b ++ (l.drop (a + b)).take c := by
  rw [List.take_add, List.drop_drop]

/-! ## Writing and reading consecutive blocks -/

theorem first_free_none_imp {used : List Bool} (h : first_free used = none) :
    ∀ j, j < MAX_BLOCKS → j < used.length → used.getD j false = true := by
  unfold first_free at h
  rw [scan_free_none] at h
  intro j h1 h2
  rw [← getD_take_lt h1]
  apply h
  simp only [List.length_take]
  omega

theorem first_free_eq {used : List Bool} {b : Nat} (hb : b < MAX_BLOCKS) (hl : b < used.length)
    (hfree : used.getD b false = false) (hused : ∀ j, j < b → used.getD j false = true) :
    first_free used = some b := by
  cases h : first_free used with
  | none =>
    have := first_free_none_imp h b hb hl
    rw [hfree] at this
    cases this
  | some c =>
    obtain ⟨_, _, h3, h4⟩ := first_free_some h
    rcases Nat.lt_trichotomy c b with hc | hc | hc
    · have := hused c hc
      rw [h3] at this
      cases this
    · rw [hc]
    · have := h4 b hc
      rw [hfree] at this
      cases this

theorem getD_set_true_of_true (used : List Bool) (i j : Nat)
    (h : used.getD j false = true) : (used.set i true).getD j false = true := by
  rw [List.getD_eq_getElem?_getD] at h ⊢
  rw [List.getElem?_set]
  by_cases hij : i = j
  · rw [if_pos hij]
    split
    · rfl
    · subst hij
      rw [List.getElem?_eq_none (by omega)] at h
      cases h
  · rw [if_neg hij]
    exact h

theorem getD_set_self (used : List Bool) (i : Nat) (h : i < used.length) :
    (used.set i true).getD i false = true := by
  rw [List.getD_eq_getElem?_getD, List.getElem?_set, if_pos rfl, if_pos h]
  rfl

theorem getD_set_ne (used : List Bool) (i j : Nat) (b : Bool) (h : i ≠ j) :
    (used.set i b).getD j false = used.getD j false := by
  rw [List.getD_eq_getElem?_getD, List.getD_eq_getElem?_getD, List.getElem?_set, if_neg h]

theorem find_free_block_used_mono (s : VFS) (j : Nat)
    (h : s.header.block_used.getD j false = true) :
    (find_free_block s).1.header.block_used.getD j false = true := by
  unfold find_free_block
  split
  · exact getD_set_true_of_true _ _ _ h
  · exact h

theorem write_loop_used_mono (fuel : Nat) (s : VFS) (block : Nat) (src : List Byte)
    (remaining : Nat) (j : Nat) (h : s.header.block_used.getD j false = true) :
    (write_loop fuel s block src remaining).header.block_used.getD j false = true := by
  induction fuel generalizing s block src remaining with
  | zero => exact h
  | succ fuel ih =>
    have h1 : ∀ n, (write_block s block src n).header.block_used.getD j false = true := by
      intro n
      rw [write_block_header]; exact h
    simp only [write_loop]
    split_ifs
    all_goals first
      | exact h
      | exact h1 _
      | exact find_free_block_used_mono _ _ (h1 _)
      | exact ih _ _ _ _ (find_free_block_used_mono _ _ (h1 _))

theorem write_block_file (s : VFS) (block : Nat) (src : List Byte) (n : Nat)
    (hb : block < MAX_BLOCKS) (hn : n ≤ BLOCK_SIZE) :
    (write_block s block src n).file_data
      = file_write_at s.file_data (block * BLOCK_SIZE) (src.take n) := by
  unfold write_block
  rw [if_neg (Nat.not_le.mpr hb)]
  simp only []
  rw [if_neg (Nat.not_lt.mpr hn)]

theorem find_free_block_next (s : VFS) (block : Nat)
    (hlen : s.header.block_used.length = MAX_BLOCKS) (hb : block + 1 < MAX_BLOCKS)
    (hused : ∀ j, j ≤ block → s.header.block_used.getD j false = true)
    (hfree : s.header.block_used.getD (block + 1) false = false) :
    (find_free_block s).2 = block + 1 ∧
    (find_free_block s).1.header.block_used = s.header.block_used.set (block + 1) true ∧
    (find_free_block s).1.file_data = s.file_data := by
  have : first_free s.header.block_used = some (block + 1) :=
    first_free_eq hb (by rw [hlen]; exact hb) hfree (fun j hj => hused j (by omega))
  unfold find_free_block
  rw [this]
  exact ⟨rfl, rfl, rfl⟩

theorem write_loop_none (fuel : Nat) (s : VFS) (block : Nat) (src : List Byte) :
    write_loop fuel s block src 0 = s := by
  cases fuel with
  | zero => rfl
  | succ fuel => simp [write_loop]

theorem write_loop_last (fuel : Nat) (s : VFS) (block : Nat) (src : List Byte) (remaining : Nat)
    (h0 : 0 < remaining) (hB : remaining ≤ BLOCK_SIZE) :
    write_loop (fuel + 1) s block src remaining = write_block s block src remaining := by
  have h1 : ¬ remaining > BLOCK_SIZE := Nat.not_lt.mpr hB
  simp [write_loop, h0, h1]

theorem write_loop_more (fuel : Nat) (s : VFS) (block : Nat) (src : List Byte) (remaining : Nat)
    (hB : remaining > BLOCK_SIZE) :
    write_loop (fuel + 1) s block src remaining =
      if (find_free_block (write_block s block src BLOCK_SIZE)).2 = NO_BLOCK then
        (find_free_block (write_block s block src BLOCK_SIZE)).1
      else
        write_loop fuel (find_free_block (write_block s block src BLOCK_SIZE)).1
          (find_free_block (write_block s block src BLOCK_SIZE)).2
          (src.drop BLOCK_SIZE) (remaining - BLOCK_SIZE) := by
  have h0 : remaining > 0 := Nat.lt_of_le_of_lt (Nat.zero_le _) hB
  have h1 : remaining - BLOCK_SIZE > 0 := Nat.sub_pos_of_lt hB
  simp only [write_loop, h0, hB, h1, if_true]

/-- When the blocks after `block` that the data needs are the next free ones,
the write loop stores `src` in consecutive bytes of the data region, from the
start of `block` on, marks the blocks it takes and leaves what precedes
`block` in the file as it was. -/
theorem write_loop_consecutive (fuel : Nat) (s : VFS) (block : Nat) (src : List Byte)
    (remaining : Nat) (hfuel : remaining ≤ fuel) (hsrc : remaining ≤ src.length)
    (hb : block < MAX_BLOCKS) (hlen : s.header.block_used.length = MAX_BLOCKS)
    (hc : consecutive_free s.header.block_used block remaining) :
    ((write_loop fuel s block src remaining).file_data.drop (block * BLOCK_SIZE)).take remaining
      = src.take remaining ∧
    (∀ m, m ≤ block * BLOCK_SIZE → m ≤ s.file_data.length →
      (write_loop fuel s block src remaining).file_data.take m = s.file_data.take m) ∧
    (∀ j, block < j → j * BLOCK_SIZE < block * BLOCK_SIZE + remaining →
      (write_loop fuel s block src remaining).header.block_used.getD j false = true) ∧
    s.file_data.length ≤ (write_loop fuel s block src remaining).file_data.length := by
  induction fuel generalizing s block src remaining with
  | zero =>
    have h0 : remaining = 0 := Nat.le_zero.mp hfuel
    subst h0
    refine ⟨by simp, fun _ _ _ => rfl, ?_, Nat.le_refl _⟩
    intro j h1 h2
    have : block * BLOCK_SIZE + BLOCK_SIZE ≤ j * BLOCK_SIZE := by
      rw [← Nat.succ_mul]; exact Nat.mul_le_mul_right _ h1
    unfold BLOCK_SIZE at *
    omega
  | succ fuel ih =>
    by_cases h0 : remaining = 0
    · subst h0
      rw [write_loop_none]
      refine ⟨by simp, fun _ _ _ => rfl, ?_, Nat.le_refl _⟩
      intro j h1 h2
      have : block * BLOCK_SIZE + BLOCK_SIZE ≤ j * BLOCK_SIZE := by
        rw [← Nat.succ_mul]; exact Nat.mul_le_mul_right _ h1
      unfold BLOCK_SIZE at *
      omega
    by_cases hB : remaining ≤ BLOCK_SIZE
    · rw [write_loop_last fuel s block src remaining (Nat.pos_of_ne_zero h0) hB]
      rw [write_block_file s block src remaining hb hB]
      have hne : src.take remaining ≠ [] := by
        intro hn
        have := congrArg List.length hn
        simp only [List.length_take, List.length_nil] at this
        omega
      have hl : (src.take remaining).length = remaining := by
        simp only [List.length_take]; omega
      refine ⟨?_, ?_, ?_, file_write_at_length_ge _ _ _⟩
      · have := file_write_at_read s.file_data (block * BLOCK_SIZE) (src.take remaining) hne
        rw [hl] at this
        exact this
      · intro m h1 h2
        exact file_write_at_take _ _ _ _ h1 h2
      · intro j h1 h2
        have : block * BLOCK_SIZE + BLOCK_SIZE ≤ j * BLOCK_SIZE := by
          rw [← Nat.succ_mul]; exact Nat.mul_le_mul_right _ h1
        omega
    · have hB2 : remaining > BLOCK_SIZE := Nat.lt_of_not_le hB
      obtain ⟨hused, hfree, hbound⟩ := hc hB2
      have hnext : block + 1 < MAX_BLOCKS := by
        have : (block + 1) * BLOCK_SIZE < MAX_BLOCKS * BLOCK_SIZE := by
          rw [Nat.succ_mul]; omega
        exact Nat.lt_of_mul_lt_mul_right this
      have hfree1 : s.header.block_used.getD (block + 1) false = false := by
        apply hfree (block + 1) (Nat.lt_succ_self _)
        rw [Nat.succ_mul]; omega
      have hwb := write_block_header s block src BLOCK_SIZE
      obtain ⟨hf2, hfu, hfd⟩ := find_free_block_next (write_block s block src BLOCK_SIZE) block
        (by rw [hwb]; exact hlen) hnext (by rw [hwb]; exact hused) (by rw [hwb]; exact hfree1)
      rw [hwb] at hfu
      have hnb : block + 1 ≠ NO_BLOCK := by
        unfold MAX_BLOCKS at hnext
        unfold NO_BLOCK
        omega
      rw [write_loop_more fuel s block src remaining hB2, hf2, if_neg hnb]
      have hfile := write_block_file s block src BLOCK_SIZE hb (Nat.le_refl _)
      have hl : (src.take BLOCK_SIZE).length = BLOCK_SIZE := by
        simp only [List.length_take]; omega
      have hne : src.take BLOCK_SIZE ≠ [] := by
        intro hn
        rw [hn] at hl
        unfold BLOCK_SIZE at hl
        simp at hl
      have hih := ih (find_free_block (write_block s block src BLOCK_SIZE)).1
        (block + 1) (src.drop BLOCK_SIZE) (remaining - BLOCK_SIZE)
        (by unfold BLOCK_SIZE at *; omega)
        (by simp only [List.length_drop]; omega)
        hnext
        (by rw [hfu, List.length_set]; exact hlen)
        (by
          intro hgt
          rw [hfu]
          refine ⟨?_, ?_, ?_⟩
          · intro j hj
            by_cases hj2 : j = block + 1
            · rw [hj2]
              exact getD_set_self _ _ (by rw [hlen]; exact hnext)
            · exact getD_set_true_of_true _ _ _ (hused j (by omega))
          · intro j hj1 hj2
            rw [getD_set_ne _ _ _ _ (by omega)]
            apply hfree j (by omega)
            rw [Nat.succ_mul] at hj2
            omega
          · rw [Nat.succ_mul]
            omega)
      have hmono := write_loop_used_mono fuel
        (find_free_block (write_block s block src BLOCK_SIZE)).1 (block + 1)
        (src.drop BLOCK_SIZE) (remaining - BLOCK_SIZE) (block + 1)
        (by rw [hfu]; exact getD_set_self _ _ (by rw [hlen]; exact hnext))
      rw [hfd, hfile] at hih
      generalize write_loop fuel (find_free_block (write_block s block src BLOCK_SIZE)).1
        (block + 1) (List.drop BLOCK_SIZE src) (remaining - BLOCK_SIZE) = T at hih hmono ⊢
      obtain ⟨ha, hbb, hcc, hdd⟩ := hih
      have hwlen := file_write_at_length s.file_data (block * BLOCK_SIZE) (src.take BLOCK_SIZE) hne
      rw [hl] at hwlen
      have hsm : (block + 1) * BLOCK_SIZE = block * BLOCK_SIZE + BLOCK_SIZE := Nat.succ_mul _ _
      rw [hsm] at ha
      refine ⟨?_, ?_, ?_, ?_⟩
      · have e : remaining = BLOCK_SIZE + (remaining - BLOCK_SIZE) := by omega
        have h1 := hbb (block * BLOCK_SIZE + BLOCK_SIZE) (by rw [hsm]) hwlen
        have h2 := take_drop_of_take_eq h1
        have h3 := file_write_at_read s.file_data (block * BLOCK_SIZE) (src.take BLOCK_SIZE) hne
        rw [hl] at h3
        unfold file_read_at at h3
        rw [h3] at h2
        calc (T.file_data.drop (block * BLOCK_SIZE)).take remaining
            = (T.file_data.drop (block * BLOCK_SIZE)).take (BLOCK_SIZE + (remaining - BLOCK_SIZE)) := by
              rw [← e]
          _ = src.take BLOCK_SIZE ++ (src.drop BLOCK_SIZE).take (remaining - BLOCK_SIZE) := by
              rw [take_add_drop, h2, ha]
          _ = src.take (BLOCK_SIZE + (remaining - BLOCK_SIZE)) := by
              rw [List.take_add]
          _ = src.take remaining := by rw [← e]
      · intro m h1 h2
        rw [hbb m (by rw [hsm]; omega)
          (Nat.le_trans h2 (file_write_at_length_ge _ _ _))]
        exact file_write_at_take _ _ _ _ h1 h2
      · intro j h1 h2
        by_cases hj : j = block + 1
        · rw [hj]
          exact hmono
        · apply hcc j (by omega)
          rw [hsm]
          omega
      · exact Nat.le_trans (file_write_at_length_ge _ _ _) hdd

theorem read_block_eq (t : VFS) (f n : Nat) (hf : f < MAX_BLOCKS) :
    read_block t f n
      = (t.file_data.drop (f * BLOCK_SIZE)).take (if n > BLOCK_SIZE then BLOCK_SIZE else n) := by
  unfold read_block file_read_at
  rw [if_neg (Nat.not_le.mpr hf)]

/-- When the data region holds `data` in consecutive bytes from the start of
block `f` on and the blocks after `f` that the data reaches are marked used,
the read loop returns `data`. -/
theorem read_loop_consecutive (fuel : Nat) (t : VFS) (f len : Nat) (data : List Byte)
    (hdata : data.length = len)
    (hfile : (t.file_data.drop (f * BLOCK_SIZE)).take len = data)
    (hf : f < MAX_BLOCKS)
    (hused : ∀ j, f < j → j * BLOCK_SIZE < f * BLOCK_SIZE + len →
      t.header.block_used.getD j false = true)
    (hbound : len > BLOCK_SIZE → f * BLOCK_SIZE + len ≤ MAX_BLOCKS * BLOCK_SIZE)
    (hfuel : MAX_BLOCKS ≤ fuel + f) :
    read_loop fuel t f len = data := by
  induction fuel generalizing f len data with
  | zero => omega
  | succ fuel ih =>
    by_cases h0 : len = 0
    · subst h0
      have : data = [] := List.length_eq_zero.mp hdata
      rw [this]
      simp [read_loop]
    have hpos : len > 0 := Nat.pos_of_ne_zero h0
    have htake : ∀ m, m ≤ len → (t.file_data.drop (f * BLOCK_SIZE)).take m = data.take m := by
      intro m hm
      rw [← hfile, List.take_take, Nat.min_eq_left hm]
    by_cases hB : len ≤ BLOCK_SIZE
    · have hgot : read_block t f len = data := by
        rw [read_block_eq t f len hf, if_neg (Nat.not_lt.mpr hB), htake len (Nat.le_refl _)]
        exact List.take_of_length_le (by omega)
      have hl : ¬ data.length = 0 := by omega
      simp only [read_loop, hpos, hf, and_self, if_true, hgot, hl, if_false, hdata,
        Nat.sub_self, Nat.lt_irrefl, h0]
    · have hB2 : len > BLOCK_SIZE := Nat.lt_of_not_le hB
      have hgot : read_block t f len = data.take BLOCK_SIZE := by
        rw [read_block_eq t f len hf, if_pos hB2, htake BLOCK_SIZE (Nat.le_of_lt hB2)]
      have hgl : (data.take BLOCK_SIZE).length = BLOCK_SIZE := by
        simp only [List.length_take]; omega
      have hl : ¬ (data.take BLOCK_SIZE).length = 0 := by
        rw [hgl]; unfold BLOCK_SIZE; omega
      have hrem : len - BLOCK_SIZE > 0 := Nat.sub_pos_of_lt hB2
      have hb := hbound hB2
      have hsm : (f + 1) * BLOCK_SIZE = f * BLOCK_SIZE + BLOCK_SIZE := Nat.succ_mul _ _
      have hnext : f + 1 < MAX_BLOCKS := by
        have : (f + 1) * BLOCK_SIZE < MAX_BLOCKS * BLOCK_SIZE := by
          rw [hsm]; omega
        exact Nat.lt_of_mul_lt_mul_right this
      have hu : t.header.block_used.getD (f + 1) false = true := by
        apply hused (f + 1) (Nat.lt_succ_self _)
        rw [hsm]; omega
      have hcond : ¬ (f + 1 ≥ MAX_BLOCKS ∨ (!t.header.block_used.getD (f + 1) false) = true) := by
        rw [hu]
        simp only [Bool.not_true, Bool.false_eq_true, or_false]
        omega
      have hrest := ih (f + 1) (len - BLOCK_SIZE) (data.drop BLOCK_SIZE)
        (by simp only [List.length_drop]; omega)
        (by
          have e : len = BLOCK_SIZE + (len - BLOCK_SIZE) := by omega
          have h1 := take_add_drop t.file_data (f * BLOCK_SIZE) BLOCK_SIZE (len - BLOCK_SIZE)
          rw [← e, hfile, htake BLOCK_SIZE (Nat.le_of_lt hB2)] at h1
          have h2 : data = data.take BLOCK_SIZE ++ data.drop BLOCK_SIZE :=
            (List.take_append_drop _ _).symm
          rw [hsm]
          have h3 := h1.symm.trans h2
          exact List.append_cancel_left h3)
        hnext
        (by
          intro j hj1 hj2
          apply hused j (by omega)
          rw [hsm] at hj2
          omega)
        (by
          intro _
          rw [hsm]; omega)
        (by omega)
      simp only [read_loop, hpos, hf, and_self, if_true, hgot, hl, if_false, hgl, hrem,
        hcond, hrest]
      exact List.take_append_drop _ _

theorem write_eq (s : VFS) (path : List Char) (data : List Byte) (len now : Nat) :
    vfs_write_file s path data len now =
      match write_target s path now with
      | some (s1, idx) => write_entry s1 idx data len now
      | none => ((vfs_create_file s path FileType.FT_REGULAR now).1, false) := by
  unfold vfs_write_file write_target
  simp only []
  cases h1 : find_file_index s (filename_of (vfs_resolve_path s path)) with
  | some idx => rfl
  | none =>
    simp only []
    rcases h2 : vfs_create_file s path FileType.FT_REGULAR now with ⟨s1, ok⟩
    cases ok with
    | false => rfl
    | true =>
      simp only []
      cases h3 : find_file_index s1 (filename_of (vfs_resolve_path s path)) with
      | none => rfl
      | some idx => rfl

theorem create_cwd (s : VFS) (path : List Char) (type : FileType) (now : Nat) :
    (vfs_create_file s path type now).1.current_dir = s.current_dir := by
  by_cases h1 : (lookup_name s path).length = 0 ∨ (lookup_name s path).length ≥ MAX_FILENAME
  · rw [create_bad_name h1]
  cases h2 : find_file_index s (lookup_name s path) with
  | some k =>
    have : (find_file_entry s (lookup_name s path)).isSome = true := by
      rw [find_file_entry_isSome, h2]; rfl
    rw [create_exists this]
  | none =>
    by_cases h3 : s.header.num_files < MAX_FILES
    · cases h4 : first_free s.header.block_used with
      | none => rw [create_no_block h1 h2 h3 h4]
      | some b => rw [create_ok h1 h2 h3 h4]; rfl
    · rw [create_table_full (Nat.le_of_not_lt h3)]

theorem write_target_some {s : VFS} (hs : WF s) {path : List Char} {now : Nat} {s1 : VFS}
    {idx : Nat} (h : write_target s path now = some (s1, idx)) :
    WF s1 ∧ find_file_index s1 (lookup_name s path) = some idx ∧
      s1.current_dir = s.current_dir := by
  unfold write_target at h
  cases h1 : find_file_index s (filename_of (vfs_resolve_path s path)) with
  | some k =>
    rw [h1] at h
    simp only [Option.some.injEq, Prod.mk.injEq] at h
    obtain ⟨e1, e2⟩ := h
    subst e1 e2
    exact ⟨hs, h1, rfl⟩
  | none =>
    rw [h1] at h
    simp only [] at h
    have hw := wf_create hs path FileType.FT_REGULAR now
    have hcwd := create_cwd s path FileType.FT_REGULAR now
    rcases h2 : vfs_create_file s path FileType.FT_REGULAR now with ⟨s2, ok⟩
    rw [h2] at h hw hcwd
    cases ok with
    | false => simp at h
    | true =>
      simp only [Option.map_eq_some', Prod.mk.injEq] at h
      obtain ⟨k, hk, e1, e2⟩ := h
      subst e1 e2
      exact ⟨hw, hk, hcwd⟩

/-! ## Claim C1 -/

theorem write_entry_read {s1 : VFS} (hs1 : WF s1) {idx : Nat} {name : List Char}
    (hidx : find_file_index s1 name = some idx) (data : List Byte) (len now max_len : Nat)
    (hlen : data.length = len) (hmax : len ≤ max_len)
    (hc : consecutive_free s1.header.block_used
      (s1.header.entries.getD idx zero_entry).first_block len)
    (path : List Char) (hname : lookup_name (write_entry s1 idx data len now).1 path = name) :
    vfs_read_file (write_entry s1 idx data len now).1 path max_len = (len, data) := by
  obtain ⟨hlt, hnm, _⟩ := find_file_index_some hidx
  have hle : s1.header.num_files ≤ s1.header.entries.length := by
    rw [hs1.entries_len]; exact hs1.num_le
  have hil : idx < s1.header.entries.length := Nat.lt_of_lt_of_le hlt hle
  have hf : (s1.header.entries.getD idx zero_entry).first_block < MAX_BLOCKS :=
    hs1.first_lt _ (getD_mem_table hle hlt)
  have hw := wf_write_entry hs1 hlt data len now
  have hloop := write_loop_consecutive len s1
    (s1.header.entries.getD idx zero_entry).first_block data len (Nat.le_refl _)
    (by omega) hf hs1.blocks_len hc
  obtain ⟨ha, _, hcc, _⟩ := hloop
  have hsmall : len < 4294967296 := by
    by_cases hB : len ≤ BLOCK_SIZE
    · unfold BLOCK_SIZE at hB; omega
    · have := (hc (Nat.lt_of_not_le hB)).2.2
      unfold MAX_BLOCKS BLOCK_SIZE at this
      omega
  -- the entry found by the read
  have hentry : (write_entry s1 idx data len now).1.header.entries.getD idx zero_entry
      = { s1.header.entries.getD idx zero_entry with
          size := len % 4294967296, modified_time := now % 4294967296 } := by
    rw [write_entry_fst]
    simp only [save_header]
    rw [List.getD_eq_getElem?_getD, List.getElem?_set, if_pos rfl, if_pos hil]
    rfl
  have hnum : (write_entry s1 idx data len now).1.header.num_files = s1.header.num_files := by
    rw [write_entry_fst]
    exact (write_loop_same _ _ _ _ _).num_eq
  have hfind : find_file_index (write_entry s1 idx data len now).1 name = some idx := by
    apply find_of_name hw (by rw [hnum]; exact hlt)
    rw [hentry]
    exact hnm
  have hused : (write_entry s1 idx data len now).1.header.block_used
      = (write_loop len s1 (s1.header.entries.getD idx zero_entry).first_block data
          len).header.block_used := by
    rw [write_entry_fst]; rfl
  have hdata : (write_entry s1 idx data len now).1.file_data
      = (write_loop len s1 (s1.header.entries.getD idx zero_entry).first_block data
          len).file_data := by
    rw [write_entry_fst]; rfl
  have hread := read_loop_consecutive MAX_BLOCKS (write_entry s1 idx data len now).1
    (s1.header.entries.getD idx zero_entry).first_block len data hlen
    (by
      rw [hdata, ha]
      exact List.take_of_length_le (by omega))
    hf
    (by
      intro j h1 h2
      rw [hused]
      exact hcc j h1 h2)
    (fun hgt => (hc hgt).2.2)
    (Nat.le_add_right _ _)
  unfold lookup_name at hname
  unfold vfs_read_file
  simp only [hname, find_file_entry, hfind, Option.map_some', hentry, Nat.mod_eq_of_lt hsmall]
  rw [if_neg (Nat.not_lt.mpr hmax), hread, hlen]
  simp

theorem write_entry_cwd (s1 : VFS) (idx : Nat) (data : List Byte) (len now : Nat) :
    (write_entry s1 idx data len now).1.current_dir = s1.current_dir := by
  rw [write_entry_fst]
  exact (write_loop_same _ _ _ _ _).cwd_eq

/-- Claim C1, amended: on a reachable store, when `vfs_write_file(path, data,
len)` returns true and either `len ≤ BLOCK_SIZE` or the write takes
consecutive blocks (the blocks after the file's first block that the data
needs are the next free ones), `vfs_read_file(path, buf, max_len)` with
`max_len ≥ len` returns `len` and stores exactly `data`. -/
theorem c1_round_trip (s : VFS) (hs : Reachable s) (path : List Char) (data : List Byte)
    (len now max_len : Nat) (hlen : data.length = len)
    (hok : (vfs_write_file s path data len now).2 = true)
    (hc : len ≤ BLOCK_SIZE ∨ consecutive_write s path now len)
    (hmax : len ≤ max_len) :
    vfs_read_file (vfs_write_file s path data len now).1 path max_len = (len, data) := by
  have hw := reachable_wf hs
  rw [write_eq] at hok ⊢
  cases ht : write_target s path now with
  | none => rw [ht] at hok; cases hok
  | some p =>
    obtain ⟨s1, idx⟩ := p
    simp only []
    obtain ⟨hw1, hfind, hcwd⟩ := write_target_some hw ht
    have hcf : consecutive_free s1.header.block_used
        (s1.header.entries.getD idx zero_entry).first_block len := by
      rcases hc with hc | hc
      · intro hgt
        omega
      · exact hc s1 idx ht
    apply write_entry_read hw1 hfind data len now max_len hlen hmax hcf
    rw [lookup_name_congr (write_entry_cwd s1 idx data len now) path]
    exact lookup_name_congr hcwd path

set_option maxRecDepth 100000 in
theorem big_file_target :
    write_target (fresh_store 0) ['b', 'i', 'g'] 1
      = some ((vfs_create_file (fresh_store 0) ['b', 'i', 'g'] FileType.FT_REGULAR 1).1, 1) := by
  rfl

set_option maxRecDepth 100000 in
/-- On a fresh store the first file written takes consecutive blocks: here a
file of 5000 bytes, in blocks 1 and 2. -/
theorem big_file_consecutive : consecutive_write (fresh_store 0) ['b', 'i', 'g'] 1 5000 := by
  intro s1 idx h
  rw [big_file_target] at h
  simp only [Option.some.injEq, Prod.mk.injEq] at h
  obtain ⟨e1, e2⟩ := h
  subst e1 e2
  have hf : ((vfs_create_file (fresh_store 0) ['b', 'i', 'g']
      FileType.FT_REGULAR 1).1.header.entries.getD 1 zero_entry).first_block = 1 := by rfl
  rw [hf]
  intro _
  refine ⟨?_, ?_, by decide⟩
  · intro j hj
    have : j = 0 ∨ j = 1 := by omega
    rcases this with h | h <;> subst h <;> decide
  · intro j h1 h2
    have : j = 2 := by unfold BLOCK_SIZE at h2; omega
    subst this
    decide

set_option maxRecDepth 100000 in
theorem c1_round_trip_witness :
    vfs_read_file
      (vfs_write_file (fresh_store 0) ['f', '.', 't', 'x', 't'] [104, 101, 108, 108, 111] 5 1).1
      ['f', '.', 't', 'x', 't'] 100 = (5, [104, 101, 108, 108, 111]) ∧
    vfs_read_file
      (vfs_write_file (fresh_store 0) ['b', 'i', 'g'] (List.replicate 5000 7) 5000 1).1
      ['b', 'i', 'g'] 5000 = (5000, List.replicate 5000 7) :=
  ⟨c1_round_trip (fresh_store 0) (Reachable.fresh 0) ['f', '.', 't', 'x', 't']
      [104, 101, 108, 108, 111] 5 1 100 (by decide) (by decide) (Or.inl (by decide))
      (by decide),
   c1_round_trip (fresh_store 0) (Reachable.fresh 0) ['b', 'i', 'g']
      (List.replicate 5000 7) 5000 1 5000 (List.length_replicate _ _) (by decide)
      (Or.inr big_file_consecutive) (Nat.le_refl _)⟩

/-- Claim C1 as stated fails for a file of more than one block whose blocks
are not consecutive: with `a` in block 1 and `b` in block 2, writing 4097
bytes `x` to `a` succeeds and leaves free blocks, the second chunk goes to
block 3, and reading `a` back returns 4097 bytes that are not the data,
because the read takes its second chunk from block 2. -/
theorem c1_multi_block_read_differs :
    (vfs_write_file store_ab ['a'] (List.replicate 4097 120) 4097 0).2 = true ∧
    first_free (vfs_write_file store_ab ['a'] (List.replicate 4097 120) 4097 0).1.header.block_used
      = some 4 ∧
    (vfs_read_file (vfs_write_file store_ab ['a'] (List.replicate 4097 120) 4097 0).1
      ['a'] 4097).1 = 4097 ∧
    (vfs_read_file (vfs_write_file store_ab ['a'] (List.replicate 4097 120) 4097 0).1
      ['a'] 4097).2 ≠ List.replicate 4097 120 := by
  decide!

/-! ## The loop of the tokenizer as iterated steps -/

set_option maxHeartbeats 2000000 in
theorem tok_loop_step (st : TokState) (c : Char) (rest : List Char) :
    tok_loop st (c :: rest) = tok_loop (tok_step st c rest).1 (tok_step st c rest).2 := by
  cases rest with
  | nil =>
    simp only [tok_loop, tok_step]
    split_ifs <;> rfl
  | cons d rest2 =>
    simp only [tok_loop, tok_step]
    split_ifs <;> rfl

theorem tok_step_quotes_of_unquoted {st : TokState} (hq : st.in_quotes = false)
    (hs : st.in_single_quotes = false) :
    (flush_full st).in_quotes = false ∧ (flush_full st).in_single_quotes = false := by
  have h := flush_full_quotes st
  rw [hq, hs] at h
  exact h

theorem ordinary_ne {c : Char} (h : ordinary c = true) :
    isspace c = false ∧ c ≠ '|' ∧ c ≠ '<' ∧ c ≠ '>' ∧ c ≠ '&' ∧ c ≠ '"' ∧ c ≠ '\'' ∧
      c ≠ '\\' := by
  unfold ordinary at h
  simp only [Bool.and_eq_true, Bool.not_eq_true', decide_eq_false_iff_not] at h
  obtain ⟨⟨⟨⟨⟨⟨⟨h1, h2⟩, h3⟩, h4⟩, h5⟩, h6⟩, h7⟩, h8⟩ := h
  exact ⟨h1, h2, h3, h4, h5, h6, h7, h8⟩

theorem tok_step_ordinary (st : TokState) (c : Char) (rest : List Char)
    (hq : st.in_quotes = false) (hs : st.in_single_quotes = false) (ho : ordinary c = true) :
    tok_step st c rest = (push_char (flush_full st) c, rest) := by
  obtain ⟨h1, h2, h3, h4, h5, h6, h7, h8⟩ := ordinary_ne ho
  obtain ⟨q1, q2⟩ := tok_step_quotes_of_unquoted hq hs
  simp [tok_step, q1, q2, h1, h2, h3, h4, h5, h6, h7, h8]

theorem isspace_ne {c : Char} (h : isspace c = true) :
    c ≠ '|' ∧ c ≠ '<' ∧ c ≠ '>' ∧ c ≠ '&' ∧ c ≠ '"' ∧ c ≠ '\'' ∧ c ≠ '\\' := by
  unfold isspace at h
  simp only [Bool.or_eq_true, decide_eq_true_eq] at h
  rcases h with ((((h | h) | h) | h) | h) | h <;> subst h <;> decide

theorem tok_step_space (st : TokState) (c : Char) (rest : List Char)
    (hq : st.in_quotes = false) (hs : st.in_single_quotes = false) (hsp : isspace c = true) :
    tok_step st c rest = (flush_word st, rest) := by
  obtain ⟨h2, h3, h4, h5, h6, h7, h8⟩ := isspace_ne hsp
  obtain ⟨q1, q2⟩ := tok_step_quotes_of_unquoted hq hs
  simp [tok_step, q1, q2, hsp, h2, h3, h4, h5, h6, h7, h8, flush_word_flush_full]

theorem tok_loop_ordinary_run (w rest : List Char) (st : TokState)
    (hq : st.in_quotes = false) (hs : st.in_single_quotes = false)
    (ho : ∀ c, c ∈ w → ordinary c = true)
    (hlen : st.token.length + w.length ≤ MAX_TOKEN_LEN - 1) :
    tok_loop st (w ++ rest) = tok_loop { st with token := st.token ++ w } rest := by
  induction w generalizing st with
  | nil => simp
  | cons c w ih =>
    simp only [List.length_cons] at hlen
    rw [List.cons_append, tok_loop_step, tok_step_ordinary st c _ hq hs
      (ho c (List.mem_cons_self _ _)), flush_full_of_lt (by omega)]
    simp only []
    rw [ih (push_char st c) hq hs (fun d hd => ho d (List.mem_cons_of_mem _ hd))
      (by simp only [push_char, List.length_append, List.length_singleton]; omega)]
    simp [push_char]

/-! ## Each iteration advances, the loop ends -/

set_option maxHeartbeats 2000000 in
theorem tok_step_rest (st : TokState) (c : Char) (rest : List Char) :
    (tok_step st c rest).2 = rest ∨ ∃ d, rest = d :: (tok_step st c rest).2 := by
  cases rest with
  | nil =>
    simp only [tok_step]
    split_ifs <;> exact Or.inl rfl
  | cons d rest2 =>
    simp only [tok_step]
    split_ifs <;> first | exact Or.inl rfl | exact Or.inr ⟨_, rfl⟩

theorem tok_step_rest_length (st : TokState) (c : Char) (rest : List Char) :
    (tok_step st c rest).2.length ≤ rest.length := by
  rcases tok_step_rest st c rest with h | ⟨d, h⟩
  · rw [h]
  · conv_rhs => rw [h]
    simp

theorem tok_loop_invariant (P : TokState → List Char → Prop)
    (hstep : ∀ st c rest, P st (c :: rest) → P (tok_step st c rest).1 (tok_step st c rest).2)
    (n : Nat) : ∀ (l : List Char) (st : TokState), l.length ≤ n → P st l →
      P (tok_loop st l) [] := by
  induction n with
  | zero =>
    intro l st hl h
    have : l = [] := List.length_eq_zero.mp (Nat.le_zero.mp hl)
    subst this
    simpa [tok_loop] using h
  | succ n ih =>
    intro l st hl h
    cases l with
    | nil => simpa [tok_loop] using h
    | cons c rest =>
      rw [tok_loop_step]
      apply ih _ _ _ (hstep st c rest h)
      have := tok_step_rest_length st c rest
      simp only [List.length_cons] at hl
      omega

theorem tok_run_enough (fuel : Nat) : ∀ (l : List Char) (st : TokState), l.length ≤ fuel →
    tok_run fuel st l = some (tok_loop st l) := by
  induction fuel with
  | zero =>
    intro l st hl
    have : l = [] := List.length_eq_zero.mp (Nat.le_zero.mp hl)
    subst this
    simp [tok_run, tok_loop]
  | succ n ih =>
    intro l st hl
    cases l with
    | nil => simp [tok_run, tok_loop]
    | cons c rest =>
      rw [tok_loop_step, tok_run]
      apply ih
      have := tok_step_rest_length st c rest
      simp only [List.length_cons] at hl
      omega

theorem add_token_length_le (ts : List Token) (k : TokenKind) (v : Option (List Char))
    (h : ts.length ≤ MAX_TOKENS) : (add_token ts k v).length ≤ MAX_TOKENS := by
  unfold add_token
  split
  · exact h
  · split <;> simp only [List.length_append, List.length_singleton] <;> omega

theorem flush_full_length_le (st : TokState) (h : st.tokens.length ≤ MAX_TOKENS) :
    (flush_full st).tokens.length ≤ MAX_TOKENS := by
  unfold flush_full
  split
  · exact add_token_length_le st.tokens TokenKind.TOKEN_WORD (some st.token) h
  · exact h

theorem flush_word_length_le (st : TokState) (h : st.tokens.length ≤ MAX_TOKENS) :
    (flush_word st).tokens.length ≤ MAX_TOKENS := by
  unfold flush_word
  split
  · exact add_token_length_le st.tokens TokenKind.TOKEN_WORD (some st.token) h
  · exact h

theorem emit_op_length_le (st : TokState) (k : TokenKind) (h : st.tokens.length ≤ MAX_TOKENS) :
    (emit_op st k).tokens.length ≤ MAX_TOKENS :=
  add_token_length_le st.tokens k none h

set_option maxHeartbeats 2000000 in
theorem tok_step_shape_aux (st : TokState) (c : Char) (rest : List Char) (r : TokState)
    (hr : (tok_step st c rest).1 = r) :
    (∃ k, r = emit_op (flush_word (flush_full st)) k) ∨
    (∃ a b, r = { flush_full st with in_quotes := a, in_single_quotes := b }) ∨
    (∃ d, r = push_char (flush_full st) d) ∨
    r = flush_word (flush_full st) := by
  have hid : ∃ a b, flush_full st
      = { flush_full st with in_quotes := a, in_single_quotes := b } := ⟨_, _, rfl⟩
  cases rest with
  | nil =>
    simp only [tok_step] at hr
    split_ifs at hr <;> subst hr <;>
      first | with_reducible exact Or.inl ⟨_, rfl⟩
            | with_reducible exact Or.inr (Or.inl ⟨true, _, rfl⟩)
            | with_reducible exact Or.inr (Or.inl ⟨_, true, rfl⟩)
            | with_reducible exact Or.inr (Or.inl ⟨false, false, rfl⟩)
            | with_reducible exact Or.inr (Or.inl hid)
            | with_reducible exact Or.inr (Or.inr (Or.inl ⟨_, rfl⟩))
            | with_reducible exact Or.inr (Or.inr (Or.inr rfl))
  | cons d rest2 =>
    simp only [tok_step] at hr
    split_ifs at hr <;> subst hr <;>
      first | with_reducible exact Or.inl ⟨_, rfl⟩
            | with_reducible exact Or.inr (Or.inl ⟨true, _, rfl⟩)
            | with_reducible exact Or.inr (Or.inl ⟨_, true, rfl⟩)
            | with_reducible exact Or.inr (Or.inl ⟨false, false, rfl⟩)
            | with_reducible exact Or.inr (Or.inl hid)
            | with_reducible exact Or.inr (Or.inr (Or.inl ⟨_, rfl⟩))
            | with_reducible exact Or.inr (Or.inr (Or.inr rfl))

theorem tok_step_shape (st : TokState) (c : Char) (rest : List Char) :
    (∃ k, (tok_step st c rest).1 = emit_op (flush_word (flush_full st)) k) ∨
    (∃ a b, (tok_step st c rest).1
      = { flush_full st with in_quotes := a, in_single_quotes := b }) ∨
    (∃ d, (tok_step st c rest).1 = push_char (flush_full st) d) ∨
    (tok_step st c rest).1 = flush_word (flush_full st) :=
  tok_step_shape_aux st c rest _ rfl

theorem tok_step_length_le (st : TokState) (c : Char) (rest : List Char)
    (h : st.tokens.length ≤ MAX_TOKENS) : (tok_step st c rest).1.tokens.length ≤ MAX_TOKENS := by
  have h1 := flush_full_length_le st h
  have h2 := flush_word_length_le _ h1
  rcases tok_step_shape st c rest with ⟨k, e⟩ | ⟨a, b, e⟩ | ⟨d, e⟩ | e <;> rw [e]
  · exact emit_op_length_le _ k h2
  · exact h1
  · exact h1
  · exact h2

theorem flush_full_token_lt (st : TokState) :
    (flush_full st).token.length < MAX_TOKEN_LEN - 1 := by
  unfold flush_full
  split
  · simp [MAX_TOKEN_LEN]
  · omega

theorem tok_step_token_le (st : TokState) (c : Char) (rest : List Char) :
    (tok_step st c rest).1.token.length ≤ MAX_TOKEN_LEN - 1 := by
  have h1 := flush_full_token_lt st
  have h0 : (flush_word (flush_full st)).token.length ≤ MAX_TOKEN_LEN - 1 := by
    unfold flush_word
    split
    · simp
    · omega
  rcases tok_step_shape st c rest with ⟨k, e⟩ | ⟨a, b, e⟩ | ⟨d, e⟩ | e <;> rw [e]
  · exact h0
  · exact Nat.le_of_lt h1
  · simp only [push_char, List.length_append, List.length_singleton]
    omega
  · exact h0

/-! ## The background marker -/

theorem tok_loop_amp_marker (st : TokState) (rest : List Char)
    (hq : st.in_quotes = false) (hs : st.in_single_quotes = false)
    (hnext : rest = [] ∨ ∃ d r, rest = d :: r ∧ isspace d = true) :
    tok_loop st ('&' :: rest)
      = tok_loop (emit_op (flush_word st) TokenKind.TOKEN_BACKGROUND) rest := by
  obtain ⟨q1, q2⟩ := tok_step_quotes_of_unquoted hq hs
  rw [tok_loop_step]
  rcases hnext with h | ⟨d, r, h, hd⟩
  · subst h
    simp [tok_step, q1, q2, flush_word_flush_full]
  · subst h
    simp [tok_step, q1, q2, hd, flush_word_flush_full]

theorem tok_loop_amp_char (st : TokState) (d : Char) (r : List Char)
    (hq : st.in_quotes = false) (hs : st.in_single_quotes = false)
    (hd : isspace d = false) :
    tok_loop st ('&' :: d :: r) = tok_loop (push_char (flush_full st) '&') (d :: r) := by
  obtain ⟨q1, q2⟩ := tok_step_quotes_of_unquoted hq hs
  have hamp : isspace '&' = false := by decide
  rw [tok_loop_step]
  simp [tok_step, q1, q2, hd, hamp]

set_option maxRecDepth 100000 in
/-- Claim C11, amended: while the token list has room, an unquoted `&` that is
the last character of the line or is followed by whitespace appends the
pending word (if any) and then BACKGROUND to the token list and empties the
buffer; an unquoted `&` followed by any other character is stored in the
buffer as a character of the current word, with or without room in the token
list, and the tokens appended at that point are no operator tokens.  The line
`echo a&` gives WORD echo, WORD a, BACKGROUND, and `echo a&b` gives WORD echo,
WORD a&b. -/
theorem c11_background_marker (st : TokState) (rest : List Char)
    (hq : st.in_quotes = false) (hs : st.in_single_quotes = false) :
    (st.tokens.length + (pending_word st).length + 1 ≤ MAX_TOKENS →
      (rest = [] ∨ ∃ d r, rest = d :: r ∧ isspace d = true) →
      tok_loop st ('&' :: rest)
        = tok_loop (after_operator st TokenKind.TOKEN_BACKGROUND) rest) ∧
    (∀ d r, rest = d :: r → isspace d = false →
      tok_loop st ('&' :: rest) = tok_loop (push_char (flush_full st) '&') rest ∧
      (push_char (flush_full st) '&').token = (flush_full st).token ++ ['&'] ∧
      (push_char (flush_full st) '&').tokens = (flush_full st).tokens ∧
      ((flush_full st).tokens = st.tokens ∨
        (flush_full st).tokens
          = st.tokens ++ [word_token (st.token.take (MAX_TOKEN_LEN - 1))])) ∧
    parse_tokens ['e', 'c', 'h', 'o', ' ', 'a', '&']
      = [word_token ['e', 'c', 'h', 'o'], word_token ['a'],
         { type := TokenKind.TOKEN_BACKGROUND, value := [] }] ∧
    parse_tokens ['e', 'c', 'h', 'o', ' ', 'a', '&', 'b']
      = [word_token ['e', 'c', 'h', 'o'], word_token ['a', '&', 'b']] := by
  refine ⟨?_, ?_, by decide, by decide⟩
  · intro hroom hnext
    rw [tok_loop_amp_marker st rest hq hs hnext, emit_after_flush st _ hroom]
  · intro d r hrest hd
    subst hrest
    refine ⟨tok_loop_amp_char st d r hq hs hd, rfl, rfl, ?_⟩
    unfold flush_full
    split
    · by_cases h1 : st.tokens.length ≥ MAX_TOKENS
      · left
        simp only [add_token, h1, if_true]
      · right
        simp only [add_token, h1, if_false, word_token]
    · left
      rfl

theorem c11_background_marker_witness :
    tok_loop { tokens := [], token := ['a'], in_quotes := false, in_single_quotes := false }
        ['&', ' ', 'b']
      = tok_loop (after_operator
          { tokens := [], token := ['a'], in_quotes := false, in_single_quotes := false }
          TokenKind.TOKEN_BACKGROUND) [' ', 'b'] ∧
    (after_operator
        { tokens := [], token := ['a'], in_quotes := false, in_single_quotes := false }
        TokenKind.TOKEN_BACKGROUND).tokens
      = [word_token ['a'], { type := TokenKind.TOKEN_BACKGROUND, value := [] }] :=
  ⟨(c11_background_marker
      { tokens := [], token := ['a'], in_quotes := false, in_single_quotes := false } [' ', 'b']
      rfl rfl).1 (by decide) (Or.inr ⟨' ', ['b'], rfl, by decide⟩),
   by decide⟩

set_option maxRecDepth 100000 in
/-- Claim C11 as stated fails once the token list is full: after 128 unquoted
`|` an `&` that ends the line emits no BACKGROUND token. -/
theorem c11_full_list_drops_background :
    parse_tokens (List.replicate 128 '|' ++ ['&'])
      = List.replicate 128 { type := TokenKind.TOKEN_PIPE, value := [] } ∧
    { type := TokenKind.TOKEN_BACKGROUND, value := [] }
      ∉ parse_tokens (List.replicate 128 '|' ++ ['&']) := by
  decide

/-! ## Escapes -/

theorem tok_step_escape (st : TokState) (c : Char) (rest : List Char)
    (hs : st.in_single_quotes = false) :
    tok_step st '\\' (c :: rest) = (push_char (flush_full st) c, rest) := by
  have h := flush_full_quotes st
  rw [hs] at h
  cases hq : st.in_quotes
  · rw [hq] at h
    simp [tok_step, h.1, h.2, isspace]
  · rw [hq] at h
    simp [tok_step, h.1, h.2]

/-- Claim C13: outside single quotes (in unquoted text and inside double
quotes) a backslash followed by a character `c` is one iteration of the loop
that appends exactly `c` to the buffer of the current word, appends no token,
leaves the quoting state as it is and goes on after `c`, whatever `c` is;
inside single quotes a backslash is stored in the buffer like any other
character and the character after it is read on its own.  So `a\|b` gives the
one WORD `a|b`, `"a\"b"` the one WORD `a"b`, and `'a\b'` the one WORD `a\b`. -/
theorem c13_escape (st : TokState) (c : Char) (rest : List Char)
    (hs : st.in_single_quotes = false) :
    tok_step st '\\' (c :: rest) = (push_char (flush_full st) c, rest) ∧
    tok_loop st ('\\' :: c :: rest) = tok_loop (push_char (flush_full st) c) rest ∧
    (push_char (flush_full st) c).token = (flush_full st).token ++ [c] ∧
    (push_char (flush_full st) c).tokens = (flush_full st).tokens ∧
    (push_char (flush_full st) c).in_quotes = st.in_quotes ∧
    (push_char (flush_full st) c).in_single_quotes = false ∧
    (∀ sq : TokState, sq.in_quotes = false → sq.in_single_quotes = true →
      tok_loop sq ('\\' :: c :: rest)
        = tok_loop (push_char (flush_full sq) '\\') (c :: rest)) ∧
    parse_tokens ['a', '\\', '|', 'b'] = [word_token ['a', '|', 'b']] ∧
    parse_tokens ['"', 'a', '\\', '"', 'b', '"'] = [word_token ['a', '"', 'b']] ∧
    parse_tokens ['\'', 'a', '\\', 'b', '\''] = [word_token ['a', '\\', 'b']] := by
  have h := flush_full_quotes st
  refine ⟨tok_step_escape st c rest hs, ?_, rfl, rfl, h.1, h.2.trans hs, ?_,
    by decide, by decide, by decide⟩
  · rw [tok_loop_step, tok_step_escape st c rest hs]
  · intro sq hq hsq
    exact tok_loop_squoted_char sq '\\' (c :: rest) hq hsq (by decide)

theorem c13_escape_witness :
    tok_loop { tokens := [], token := ['a'], in_quotes := false, in_single_quotes := false }
        ['\\', '|', 'b']
      = tok_loop { tokens := [], token := ['a', '|'], in_quotes := false,
                   in_single_quotes := false } ['b'] :=
  (c13_escape { tokens := [], token := ['a'], in_quotes := false, in_single_quotes := false }
    '|' ['b'] rfl).2.1

/-! ## Totality of the tokenizer -/

theorem tok_loop_length_le (l : List Char) (st : TokState)
    (h : st.tokens.length ≤ MAX_TOKENS) : (tok_loop st l).tokens.length ≤ MAX_TOKENS :=
  tok_loop_invariant (fun s _ => s.tokens.length ≤ MAX_TOKENS)
    (fun s c rest hs => tok_step_length_le s c rest hs) l.length l st (Nat.le_refl _) h

/-- Claim C14: for every input line the loop of `parse_tokens`, run one
iteration at a time, uses up the line within as many iterations as the line
has characters and ends in the state from which `parse_tokens` returns its
token list (of at most `MAX_TOKENS` tokens); every iteration moves the read
position forward by one or two characters and never past the end of the line.
Malformed lines give words and operators: the unterminated `echo "a b` gives
WORD echo, WORD a b; a trailing backslash is dropped; a line of operators
gives the operator tokens. -/
theorem c14_tokenizer_total (line : List Char) :
    tok_run line.length tok_init line = some (tok_loop tok_init line) ∧
    parse_tokens line = (flush_word (tok_loop tok_init line)).tokens ∧
    (parse_tokens line).length ≤ MAX_TOKENS ∧
    (∀ (st : TokState) (c : Char) (rest : List Char),
      ((tok_step st c rest).2 = rest ∨ ∃ d, rest = d :: (tok_step st c rest).2) ∧
      (tok_step st c rest).2.length < (c :: rest).length) ∧
    parse_tokens ['e', 'c', 'h', 'o', ' ', '"', 'a', ' ', 'b']
      = [word_token ['e', 'c', 'h', 'o'], word_token ['a', ' ', 'b']] ∧
    parse_tokens ['a', '\\'] = [word_token ['a']] ∧
    parse_tokens ['|', '<', '>'] = [{ type := TokenKind.TOKEN_PIPE, value := [] },
       { type := TokenKind.TOKEN_REDIRECT_IN, value := [] },
       { type := TokenKind.TOKEN_REDIRECT_OUT, value := [] }] := by
  refine ⟨tok_run_enough _ line tok_init (Nat.le_refl _), rfl, ?_, ?_,
    by decide, by decide, by decide⟩
  · exact flush_word_length_le _ (tok_loop_length_le line tok_init (by decide))
  · intro st c rest
    refine ⟨tok_step_rest st c rest, ?_⟩
    have := tok_step_rest_length st c rest
    simp only [List.length_cons]
    omega

/-! ## Lines without a background marker -/

theorem add_token_no_background (ts : List Token) (k : TokenKind) (v : Option (List Char))
    (hk : k ≠ TokenKind.TOKEN_BACKGROUND)
    (h : ∀ t, t ∈ ts → t.type ≠ TokenKind.TOKEN_BACKGROUND) :
    ∀ t, t ∈ add_token ts k v → t.type ≠ TokenKind.TOKEN_BACKGROUND := by
  intro t ht
  unfold add_token at ht
  split at ht
  · exact h t ht
  · split at ht
    · rcases List.mem_append.mp ht with h1 | h1
      · exact h t h1
      · rw [List.mem_singleton.mp h1]
        exact hk
    · rcases List.mem_append.mp ht with h1 | h1
      · exact h t h1
      · rw [List.mem_singleton.mp h1]
        exact hk

theorem flush_full_no_background (st : TokState)
    (h : ∀ t, t ∈ st.tokens → t.type ≠ TokenKind.TOKEN_BACKGROUND) :
    ∀ t, t ∈ (flush_full st).tokens → t.type ≠ TokenKind.TOKEN_BACKGROUND := by
  unfold flush_full
  split
  · exact add_token_no_background st.tokens TokenKind.TOKEN_WORD (some st.token) (by decide) h
  · exact h

theorem flush_word_no_background (st : TokState)
    (h : ∀ t, t ∈ st.tokens → t.type ≠ TokenKind.TOKEN_BACKGROUND) :
    ∀ t, t ∈ (flush_word st).tokens → t.type ≠ TokenKind.TOKEN_BACKGROUND := by
  unfold flush_word
  split
  · exact add_token_no_background st.tokens TokenKind.TOKEN_WORD (some st.token) (by decide) h
  · exact h

theorem emit_op_no_background (st : TokState) (k : TokenKind)
    (hk : k ≠ TokenKind.TOKEN_BACKGROUND)
    (h : ∀ t, t ∈ st.tokens → t.type ≠ TokenKind.TOKEN_BACKGROUND) :
    ∀ t, t ∈ (emit_op st k).tokens → t.type ≠ TokenKind.TOKEN_BACKGROUND :=
  add_token_no_background st.tokens k none hk h

theorem amps_followed_gt (rest : List Char) :
    amps_followed false false ('>' :: rest) = amps_followed false false rest := by
  cases rest <;> simp [amps_followed]

set_option maxHeartbeats 4000000 in
theorem tok_step_no_background_aux (s : TokState) (c : Char) (rest : List Char)
    (r : TokState × List Char)
    (h1 : ∀ t, t ∈ s.tokens → t.type ≠ TokenKind.TOKEN_BACKGROUND)
    (h2 : ∀ t, t ∈ (flush_word s).tokens → t.type ≠ TokenKind.TOKEN_BACKGROUND)
    (h3 : ∀ k, k ≠ TokenKind.TOKEN_BACKGROUND →
      ∀ t, t ∈ (emit_op (flush_word s) k).tokens → t.type ≠ TokenKind.TOKEN_BACKGROUND)
    (hr : (if !s.in_quotes && !s.in_single_quotes then
        if c = '|' then (emit_op (flush_word s) TokenKind.TOKEN_PIPE, rest)
        else if c = '>' then
          match rest with
          | d :: rest2 =>
            if d = '>' then (emit_op (flush_word s) TokenKind.TOKEN_REDIRECT_APPEND, rest2)
            else (emit_op (flush_word s) TokenKind.TOKEN_REDIRECT_OUT, rest)
          | [] => (emit_op (flush_word s) TokenKind.TOKEN_REDIRECT_OUT, rest)
        else if c = '<' then (emit_op (flush_word s) TokenKind.TOKEN_REDIRECT_IN, rest)
        else if c = '&' && (rest.head?.isNone || (rest.head?.map isspace).getD false) then
          (emit_op (flush_word s) TokenKind.TOKEN_BACKGROUND, rest)
        else if c = '"' then ({ s with in_quotes := true }, rest)
        else if c = '\'' then ({ s with in_single_quotes := true }, rest)
        else if c = '\\' then
          match rest with
          | d :: rest2 => (push_char s d, rest2)
          | [] => (s, rest)
        else if isspace c then (flush_word s, rest)
        else (push_char s c, rest)
      else
        if (s.in_quotes && c = '"') || (s.in_single_quotes && c = '\'') then
          ({ s with in_quotes := false, in_single_quotes := false }, rest)
        else if c = '\\' && s.in_quotes then
          match rest with
          | d :: rest2 => (push_char s d, rest2)
          | [] => (s, rest)
        else (push_char s c, rest)) = r)
    (ha : amps_followed s.in_quotes s.in_single_quotes (c :: rest) = true) :
    (∀ t, t ∈ r.1.tokens → t.type ≠ TokenKind.TOKEN_BACKGROUND) ∧
      amps_followed r.1.in_quotes r.1.in_single_quotes r.2 = true := by
  have k1 := h3 TokenKind.TOKEN_PIPE (by decide)
  have k2 := h3 TokenKind.TOKEN_REDIRECT_OUT (by decide)
  have k3 := h3 TokenKind.TOKEN_REDIRECT_IN (by decide)
  have k4 := h3 TokenKind.TOKEN_REDIRECT_APPEND (by decide)
  have w1 : (flush_word s).in_quotes = s.in_quotes := by
    unfold flush_word
    split <;> rfl
  have w2 : (flush_word s).in_single_quotes = s.in_single_quotes := by
    unfold flush_word
    split <;> rfl
  have e1 : ∀ k, (emit_op (flush_word s) k).in_quotes = s.in_quotes := fun _ => w1
  have e2 : ∀ k, (emit_op (flush_word s) k).in_single_quotes = s.in_single_quotes :=
    fun _ => w2
  obtain ⟨tokens, token, q, sq⟩ := s
  cases q <;> cases sq <;> cases rest <;>
    simp only [amps_followed, Bool.not_false, Bool.not_true, Bool.and_true, Bool.and_false,
      Bool.false_and, Bool.true_and, Bool.or_false, Bool.false_or, if_true, if_false,
      Bool.false_eq_true, decide_eq_true_eq, push_char] at hr ha <;>
    split_ifs at hr ha <;> subst hr <;> simp only [w1, w2, e1, e2] <;>
    first
      | exact ⟨h1, ha⟩
      | exact ⟨h2, ha⟩
      | exact ⟨k1, ha⟩
      | exact ⟨k2, ha⟩
      | exact ⟨k3, ha⟩
      | exact ⟨k4, ha⟩
      | exact ⟨h1, rfl⟩
      | (simp_all <;> (rw [amps_followed_gt] at ha; exact ha))

theorem tok_step_no_background (st : TokState) (c : Char) (rest : List Char)
    (h : ∀ t, t ∈ st.tokens → t.type ≠ TokenKind.TOKEN_BACKGROUND)
    (ha : amps_followed st.in_quotes st.in_single_quotes (c :: rest) = true) :
    (∀ t, t ∈ (tok_step st c rest).1.tokens → t.type ≠ TokenKind.TOKEN_BACKGROUND) ∧
      amps_followed (tok_step st c rest).1.in_quotes (tok_step st c rest).1.in_single_quotes
        (tok_step st c rest).2 = true := by
  have h1 := flush_full_no_background st h
  have h2 := flush_word_no_background _ h1
  have hq := flush_full_quotes st
  rw [← hq.1, ← hq.2] at ha
  exact tok_step_no_background_aux (flush_full st) c rest (tok_step st c rest) h1 h2
    (fun k hk => emit_op_no_background _ k hk h2) rfl ha

/-- Claim C12, amended: for every input line in which each `&` that stands
outside quotes and is not escaped is immediately followed by a character that
is not whitespace (as both `&` of `a&&b` are, the first by `&`, the second by
`b`), `parse_tokens` emits no BACKGROUND token. -/
theorem c12_no_background (line : List Char) (h : amps_followed false false line = true) :
    ∀ t, t ∈ parse_tokens line → t.type ≠ TokenKind.TOKEN_BACKGROUND := by
  have key := tok_loop_invariant
    (fun s l => (∀ t, t ∈ s.tokens → t.type ≠ TokenKind.TOKEN_BACKGROUND) ∧
      amps_followed s.in_quotes s.in_single_quotes l = true)
    (fun s c rest hs => tok_step_no_background s c rest hs.1 hs.2)
    line.length line tok_init (Nat.le_refl _)
    ⟨fun t ht => absurd ht (List.not_mem_nil t), h⟩
  exact flush_word_no_background _ key.1

theorem c12_no_background_witness :
    amps_followed false false ['a', '&', '&', 'b'] = true ∧
    parse_tokens ['a', '&', '&', 'b'] = [word_token ['a', '&', '&', 'b']] ∧
    ∀ t, t ∈ parse_tokens ['a', '&', '&', 'b'] → t.type ≠ TokenKind.TOKEN_BACKGROUND :=
  ⟨by decide, by decide, c12_no_background ['a', '&', '&', 'b'] (by decide)⟩

/-- Claim C12 as stated fails on its own example: in `a && b` the second `&`
is followed by a blank, so it is a background marker, and the first `&` is
left as a word. -/
theorem c12_spaced_pair_emits_background :
    parse_tokens ['a', ' ', '&', '&', ' ', 'b']
      = [word_token ['a'], word_token ['&'],
         { type := TokenKind.TOKEN_BACKGROUND, value := [] }, word_token ['b']] ∧
    ¬ (∀ t, t ∈ parse_tokens ['a', ' ', '&', '&', ' ', 'b'] →
        t.type ≠ TokenKind.TOKEN_BACKGROUND) := by
  decide

/-! ## Words longer than the token buffer -/

theorem flush_full_idem (st : TokState) : flush_full (flush_full st) = flush_full st := by
  apply flush_full_of_lt
  exact flush_full_token_lt st

theorem tok_step_flush_full (st : TokState) (c : Char) (rest : List Char) :
    tok_step (flush_full st) c rest = tok_step st c rest := by
  unfold tok_step
  rw [flush_full_idem]

theorem tok_loop_flush_full (st : TokState) (c : Char) (rest : List Char) :
    tok_loop st (c :: rest) = tok_loop (flush_full st) (c :: rest) := by
  rw [tok_loop_step st, tok_loop_step (flush_full st), tok_step_flush_full]

theorem add_token_eq_take (ts : List Token) (k : TokenKind) (v : List Char)
    (h : ts.length ≤ MAX_TOKENS) :
    add_token ts k (some v)
      = (ts ++ [({ type := k, value := v.take (MAX_TOKEN_LEN - 1) } : Token)]).take
          MAX_TOKENS := by
  unfold add_token
  by_cases hfull : ts.length ≥ MAX_TOKENS
  · rw [if_pos hfull]
    have hlen : ts.length = MAX_TOKENS := by omega
    rw [List.take_append_of_le_length (by omega), List.take_of_length_le (by omega)]
  · rw [if_neg hfull, List.take_of_length_le]
    simp only [List.length_append, List.length_singleton]
    omega

theorem flush_word_of_pos (st : TokState) (h : 0 < st.token.length) :
    flush_word st
      = TokState.mk (add_token st.tokens TokenKind.TOKEN_WORD (some st.token)) []
          st.in_quotes st.in_single_quotes := by
  unfold flush_word
  rw [if_pos h]

theorem flush_full_of_ge (st : TokState) (h : st.token.length ≥ MAX_TOKEN_LEN - 1) :
    flush_full st
      = TokState.mk (add_token st.tokens TokenKind.TOKEN_WORD (some st.token)) []
          st.in_quotes st.in_single_quotes := by
  unfold flush_full
  rw [if_pos h]

theorem take_append_take (l1 l2 : List Token) (m : Nat) :
    (l1.take m ++ l2).take m = (l1 ++ l2).take m := by
  by_cases h : l1.length ≤ m
  · rw [List.take_of_length_le h]
  · have h1 : m ≤ l1.length := by omega
    have h2 : m ≤ (l1.take m).length := by
      rw [List.length_take]
      omega
    rw [List.take_append_of_le_length h2, List.take_append_of_le_length h1, List.take_take,
      Nat.min_self]

theorem tok_loop_chunks (n : Nat) : ∀ (run : List Char) (st : TokState), run.length ≤ n →
    (∀ c, c ∈ run → ordinary c = true) →
    st.in_quotes = false → st.in_single_quotes = false → st.token = [] →
    st.tokens.length ≤ MAX_TOKENS →
    (flush_word (tok_loop st run)).tokens
      = (st.tokens ++ (chunks_fuel n run).map word_token).take MAX_TOKENS := by
  induction n with
  | zero =>
    intro run st hl ho hq hs ht hm
    have : run = [] := List.length_eq_zero.mp (Nat.le_zero.mp hl)
    subst this
    simp [tok_loop, flush_word, ht, chunks_fuel, List.take_of_length_le hm]
  | succ n ih =>
    intro run st hl ho hq hs ht hm
    unfold chunks_fuel
    by_cases h0 : run = []
    · subst h0
      simp [tok_loop, flush_word, ht, List.take_of_length_le hm]
    · rw [if_neg h0]
      have hpos : 0 < run.length := List.length_pos.mpr h0
      by_cases h1 : run.length ≤ MAX_TOKEN_LEN - 1
      · rw [if_pos h1]
        have e := tok_loop_ordinary_run run [] st hq hs ho (by rw [ht]; simpa using h1)
        rw [List.append_nil, ht, List.nil_append] at e
        have tnil : tok_loop (TokState.mk st.tokens run st.in_quotes st.in_single_quotes) []
            = TokState.mk st.tokens run st.in_quotes st.in_single_quotes := by
          simp [tok_loop]
        rw [e, tnil,
          flush_word_of_pos (TokState.mk st.tokens run st.in_quotes st.in_single_quotes) hpos]
        simp only []
        rw [add_token_eq_take _ _ _ hm, List.take_of_length_le h1]
        rfl
      · rw [if_neg h1]
        have h2 : MAX_TOKEN_LEN - 1 < run.length := Nat.lt_of_not_le h1
        have hsplit : run = run.take (MAX_TOKEN_LEN - 1) ++ run.drop (MAX_TOKEN_LEN - 1) :=
          (List.take_append_drop _ _).symm
        have htake : (run.take (MAX_TOKEN_LEN - 1)).length = MAX_TOKEN_LEN - 1 := by
          rw [List.length_take]
          omega
        have hdrop : (run.drop (MAX_TOKEN_LEN - 1)).length = run.length - (MAX_TOKEN_LEN - 1) :=
          List.length_drop _ _
        have hdne : run.drop (MAX_TOKEN_LEN - 1) ≠ [] := by
          intro h
          rw [h] at hdrop
          simp only [List.length_nil] at hdrop
          omega
        obtain ⟨c, r, hcr⟩ := List.exists_cons_of_ne_nil hdne
        have e := tok_loop_ordinary_run (run.take (MAX_TOKEN_LEN - 1))
          (run.drop (MAX_TOKEN_LEN - 1)) st hq hs
          (fun c hc => ho c (List.mem_of_mem_take hc)) (by rw [ht, htake]; simp)
        rw [← hsplit, ht, List.nil_append] at e
        rw [e, hcr, tok_loop_flush_full, ← hcr,
          flush_full_of_ge
            (TokState.mk st.tokens (run.take (MAX_TOKEN_LEN - 1)) st.in_quotes
              st.in_single_quotes) (Nat.le_of_eq htake.symm)]
        simp only []
        have hM : MAX_TOKEN_LEN - 1 = 255 := rfl
        have hd : (run.drop (MAX_TOKEN_LEN - 1)).length ≤ n := by omega
        rw [ih (run.drop (MAX_TOKEN_LEN - 1))
          (TokState.mk (add_token st.tokens TokenKind.TOKEN_WORD
            (some (run.take (MAX_TOKEN_LEN - 1)))) [] st.in_quotes st.in_single_quotes) hd
          (fun c hc => ho c (List.mem_of_mem_drop hc)) hq hs rfl
          (add_token_length_le st.tokens TokenKind.TOKEN_WORD
            (some (run.take (MAX_TOKEN_LEN - 1))) hm)]
        simp only []
        rw [add_token_eq_take _ _ _ hm, take_append_take, List.take_of_length_le
          (Nat.le_of_eq htake), List.map_cons, List.append_assoc]
        rfl

theorem chunks_fuel_join (n : Nat) : ∀ run : List Char, run.length ≤ n →
    (chunks_fuel n run).flatten = run := by
  induction n with
  | zero =>
    intro run hl
    have : run = [] := List.length_eq_zero.mp (Nat.le_zero.mp hl)
    subst this
    simp [chunks_fuel]
  | succ n ih =>
    intro run hl
    unfold chunks_fuel
    split_ifs with h0 h1
    · simp [h0]
    · simp
    · have hM : MAX_TOKEN_LEN - 1 = 255 := rfl
      have hd : (run.drop (MAX_TOKEN_LEN - 1)).length ≤ n := by
        rw [List.length_drop]
        omega
      rw [List.flatten_cons, ih _ hd, List.take_append_drop]

theorem chunks_fuel_bounds (n : Nat) : ∀ (run w : List Char), w ∈ chunks_fuel n run →
    w ≠ [] ∧ w.length ≤ MAX_TOKEN_LEN - 1 := by
  induction n with
  | zero =>
    intro run w hw
    simp [chunks_fuel] at hw
  | succ n ih =>
    intro run w hw
    unfold chunks_fuel at hw
    split_ifs at hw with h0 h1
    · simp at hw
    · rw [List.mem_singleton.mp hw]
      exact ⟨h0, h1⟩
    · rcases List.mem_cons.mp hw with h | h
      · subst h
        constructor
        · intro h
          have := congrArg List.length h
          rw [List.length_take] at this
          simp only [List.length_nil] at this
          unfold MAX_TOKEN_LEN at *
          omega
        · rw [List.length_take]
          omega
      · exact ih _ w h

theorem chunks_fuel_length (n : Nat) : ∀ run : List Char, run.length ≤ n →
    (chunks_fuel n run).length = (run.length + (MAX_TOKEN_LEN - 2)) / (MAX_TOKEN_LEN - 1) := by
  induction n with
  | zero =>
    intro run hl
    have : run = [] := List.length_eq_zero.mp (Nat.le_zero.mp hl)
    subst this
    simp [chunks_fuel, MAX_TOKEN_LEN]
  | succ n ih =>
    intro run hl
    unfold chunks_fuel
    split_ifs with h0 h1
    · simp [h0, MAX_TOKEN_LEN]
    · have hpos : 0 < run.length := List.length_pos.mpr h0
      unfold MAX_TOKEN_LEN at *
      simp only [List.length_singleton]
      omega
    · have hM : MAX_TOKEN_LEN - 1 = 255 := rfl
      have hd : (run.drop (MAX_TOKEN_LEN - 1)).length ≤ n := by
        rw [List.length_drop]
        omega
      rw [List.length_cons, ih _ hd, List.length_drop]
      unfold MAX_TOKEN_LEN at *
      omega

theorem tok_loop_token_le (l : List Char) (st : TokState)
    (h : st.token.length ≤ MAX_TOKEN_LEN - 1) :
    (tok_loop st l).token.length ≤ MAX_TOKEN_LEN - 1 :=
  tok_loop_invariant (fun s _ => s.token.length ≤ MAX_TOKEN_LEN - 1)
    (fun s c rest _ => tok_step_token_le s c rest) l.length l st (Nat.le_refl _) h

/-- Claim C15: a run of ordinary characters (no whitespace, quote, backslash
or operator character) of any length is not rejected: `parse_tokens` cuts it
into consecutive WORD tokens of at most `MAX_TOKEN_LEN - 1 = 255` characters
each, none empty, whose concatenation is the run, `ceil(n / 255)` of them for
a run of `n` characters, of which the token list keeps the first
`MAX_TOKENS`; the same holds for a run that ends the line after any earlier
tokens.  On every line, the buffer holds fewer than 255 characters when
a character is stored and at most 255 after every iteration, so it is never
written out of bounds. -/
theorem c15_long_run (run : List Char) (ho : ∀ c, c ∈ run → ordinary c = true) :
    parse_tokens run = ((word_chunks run).map word_token).take MAX_TOKENS ∧
    (∀ st : TokState, st.in_quotes = false → st.in_single_quotes = false → st.token = [] →
      st.tokens.length ≤ MAX_TOKENS →
      (flush_word (tok_loop st run)).tokens
        = (st.tokens ++ (word_chunks run).map word_token).take MAX_TOKENS) ∧
    (word_chunks run).flatten = run ∧
    (∀ w, w ∈ word_chunks run → w ≠ [] ∧ w.length ≤ MAX_TOKEN_LEN - 1) ∧
    (word_chunks run).length = (run.length + (MAX_TOKEN_LEN - 2)) / (MAX_TOKEN_LEN - 1) ∧
    (∀ (st : TokState) (c : Char) (rest : List Char),
      (flush_full st).token.length < MAX_TOKEN_LEN - 1 ∧
      (tok_step st c rest).1.token.length ≤ MAX_TOKEN_LEN - 1) ∧
    (∀ line : List Char, (tok_loop tok_init line).token.length ≤ MAX_TOKEN_LEN - 1) := by
  refine ⟨?_, fun st hq hs ht hm => tok_loop_chunks run.length run st (Nat.le_refl _) ho hq hs
      ht hm, chunks_fuel_join _ run (Nat.le_refl _), chunks_fuel_bounds _ run,
    chunks_fuel_length _ run (Nat.le_refl _),
    fun st c rest => ⟨flush_full_token_lt st, tok_step_token_le st c rest⟩,
    fun line => tok_loop_token_le line tok_init (by decide)⟩
  have h := tok_loop_chunks run.length run tok_init (Nat.le_refl _) ho rfl rfl rfl (by decide)
  simpa [parse_tokens, word_chunks, tok_init] using h

set_option maxRecDepth 100000 in
theorem c15_long_run_witness :
    parse_tokens (List.replicate 256 'x')
      = ((word_chunks (List.replicate 256 'x')).map word_token).take MAX_TOKENS ∧
    word_chunks (List.replicate 256 'x') = [List.replicate 255 'x', ['x']] :=
  ⟨(c15_long_run (List.replicate 256 'x')
      (fun c hc => by rw [List.eq_of_mem_replicate hc]; decide)).1,
   by decide⟩

/-! ## Steps of the pipeline parser -/

theorem set_length_append (l : List Command) (a b : Command) :
    (l ++ [a]).set l.length b = l ++ [b] := by
  induction l with
  | nil => rfl
  | cons x l ih => simp [List.set, ih]

theorem getD_length_append (l : List Command) (a d : Command) :
    (l ++ [a]).getD l.length d = a := by
  induction l with
  | nil => rfl
  | cons x l ih => simp

theorem parse_step_redirect (st : ParseState) (r : Token)
    (hr : r.type = TokenKind.TOKEN_REDIRECT_OUT ∨ r.type = TokenKind.TOKEN_REDIRECT_IN ∨
      r.type = TokenKind.TOKEN_REDIRECT_APPEND) :
    parse_step st r
      = if st.current_cmd.isNone then
          ParseState.mk (st.commands ++ [empty_command]) (some st.commands.length) true r.type
        else ParseState.mk st.commands st.current_cmd true r.type := by
  have h1 : r.type ≠ TokenKind.TOKEN_PIPE := by
    rcases hr with h | h | h <;> rw [h] <;> decide
  unfold parse_step
  rw [if_neg h1, if_pos hr]
  rfl

theorem parse_step_target (st : ParseState) (f : Token) (idx : Nat)
    (hf : f.type = TokenKind.TOKEN_WORD) (hexp : st.expect_redirect_file = true)
    (hcur : st.current_cmd = some idx) :
    parse_step st f
      = ParseState.mk
          (st.commands.set idx
            (if st.redirect_type = TokenKind.TOKEN_REDIRECT_IN then
              { st.commands.getD idx empty_command with input_file := some f.value }
            else
              { st.commands.getD idx empty_command with
                output_file := some f.value,
                append_output := decide (st.redirect_type = TokenKind.TOKEN_REDIRECT_APPEND) }))
          (some idx) false st.redirect_type := by
  unfold parse_step
  simp only [hf, hexp, hcur, update_current]
  split_ifs <;> simp_all

theorem parse_step_word_new (st : ParseState) (w : List Char)
    (hexp : st.expect_redirect_file = false) (hcur : st.current_cmd = none) :
    parse_step st (word_token w)
      = ParseState.mk (st.commands ++ [plain_command w]) (some st.commands.length) false
          st.redirect_type := by
  unfold parse_step
  simp [word_token, hexp, hcur, update_current, new_command, set_length_append,
    getD_length_append, plain_command, empty_command]

theorem parse_step_word_more (st : ParseState) (w : List Char) (idx : Nat)
    (hexp : st.expect_redirect_file = false) (hcur : st.current_cmd = some idx) :
    parse_step st (word_token w)
      = ParseState.mk
          (st.commands.set idx
            { st.commands.getD idx empty_command with
              argv := (st.commands.getD idx empty_command).argv ++ [w] })
          (some idx) false st.redirect_type := by
  unfold parse_step
  simp [word_token, hexp, hcur, update_current]

theorem parse_step_pipe (st : ParseState) :
    parse_step st { type := TokenKind.TOKEN_PIPE, value := [] }
      = ParseState.mk st.commands none false st.redirect_type := by
  unfold parse_step
  simp

theorem parse_loop_cons (st : ParseState) (t : Token) (ts : List Token) :
    parse_loop st (t :: ts) = parse_loop (parse_step st t) ts := rfl

theorem parse_loop_append (st : ParseState) (l1 l2 : List Token) :
    parse_loop st (l1 ++ l2) = parse_loop (parse_loop st l1) l2 := by
  unfold parse_loop
  rw [List.foldl_append]

/-! ## Redirection targets, the background flag, a leading redirection -/

theorem parse_loop_redirects (cmd : List Char) (rs : List (Bool × List Char)) :
    ∀ st : ParseState, st.current_cmd = some 0 → st.expect_redirect_file = false →
      (∃ c, st.commands = [c] ∧ c.argv = [cmd] ∧ c.input_file = none ∧ c.background = false) →
      (parse_loop st (redirect_tokens rs)).current_cmd = some 0 ∧
      (parse_loop st (redirect_tokens rs)).expect_redirect_file = false ∧
      ∃ c, (parse_loop st (redirect_tokens rs)).commands = [c] ∧ c.argv = [cmd] ∧
        c.input_file = none ∧ c.background = false ∧
        (∀ r, rs.getLast? = some r → c.output_file = some r.2 ∧ c.append_output = r.1) := by
  induction rs with
  | nil =>
    intro st hcur hexp hc
    obtain ⟨c, h1, h2, h3, h4⟩ := hc
    exact ⟨hcur, hexp, c, h1, h2, h3, h4, fun r hr => by simp at hr⟩
  | cons r rs ih =>
    intro st hcur hexp hc
    obtain ⟨c, h1, h2, h3, h4⟩ := hc
    have hop : ∀ b : Bool,
        (if b then TokenKind.TOKEN_REDIRECT_APPEND else TokenKind.TOKEN_REDIRECT_OUT)
            = TokenKind.TOKEN_REDIRECT_OUT ∨
          (if b then TokenKind.TOKEN_REDIRECT_APPEND else TokenKind.TOKEN_REDIRECT_OUT)
            = TokenKind.TOKEN_REDIRECT_IN ∨
          (if b then TokenKind.TOKEN_REDIRECT_APPEND else TokenKind.TOKEN_REDIRECT_OUT)
            = TokenKind.TOKEN_REDIRECT_APPEND := by
      intro b
      cases b <;> simp
    have e1 := parse_step_redirect st
      { type := if r.1 then TokenKind.TOKEN_REDIRECT_APPEND else TokenKind.TOKEN_REDIRECT_OUT,
        value := [] } (hop r.1)
    rw [hcur] at e1
    simp only [Option.isNone_some, Bool.false_eq_true, if_false] at e1
    have e2 := parse_step_target
      (ParseState.mk st.commands (some 0) true
        (if r.1 then TokenKind.TOKEN_REDIRECT_APPEND else TokenKind.TOKEN_REDIRECT_OUT))
      (word_token r.2) 0 rfl rfl rfl
    have hne : (if r.1 then TokenKind.TOKEN_REDIRECT_APPEND else TokenKind.TOKEN_REDIRECT_OUT)
        ≠ TokenKind.TOKEN_REDIRECT_IN := by
      cases r.1 <;> simp
    simp only [hne, if_false, h1, List.getD_cons_zero, List.set_cons_zero, word_token] at e2
    have happ : decide ((if r.1 then TokenKind.TOKEN_REDIRECT_APPEND
        else TokenKind.TOKEN_REDIRECT_OUT) = TokenKind.TOKEN_REDIRECT_APPEND) = r.1 := by
      cases r.1 <;> simp
    rw [happ] at e2
    have step : parse_loop st (redirect_tokens (r :: rs))
        = parse_loop (ParseState.mk
            [{ c with output_file := some r.2, append_output := r.1 }] (some 0) false
            (if r.1 then TokenKind.TOKEN_REDIRECT_APPEND else TokenKind.TOKEN_REDIRECT_OUT))
          (redirect_tokens rs) := by
      rw [redirect_tokens, parse_loop_cons, parse_loop_cons, e1]
      simp only [word_token]
      rw [h1, e2]
    rw [step]
    obtain ⟨k1, k2, c2, k3, k4, k5, k6, k7⟩ := ih
      (ParseState.mk [{ c with output_file := some r.2, append_output := r.1 }] (some 0) false
        (if r.1 then TokenKind.TOKEN_REDIRECT_APPEND else TokenKind.TOKEN_REDIRECT_OUT))
      rfl rfl ⟨{ c with output_file := some r.2, append_output := r.1 }, rfl, h2, h3, h4⟩
    refine ⟨k1, k2, c2, k3, k4, k5, k6, ?_⟩
    intro r2 hr2
    cases rs with
    | nil =>
      simp only [List.getLast?_singleton, Option.some.injEq] at hr2
      subst hr2
      simp only [redirect_tokens, parse_loop, List.foldl_nil] at k3
      rw [← List.head_eq_of_cons_eq k3]
      exact ⟨rfl, rfl⟩
    | cons r3 rs3 =>
      rw [List.getLast?_cons_cons] at hr2
      exact k7 r2 hr2

theorem getD_set_same (l : List Command) (idx : Nat) (c d : Command) (h : idx < l.length) :
    (l.set idx c).getD idx d = c := by
  rw [List.getD_eq_getElem?_getD, List.getElem?_set, if_pos rfl, if_pos h]
  rfl

/-- Claim C17: a redirect token followed by a WORD, met while a command is
open, stores the text of the WORD as that command's target and changes
nothing else: `input_file` for `<`, and for `>` and `>>` `output_file`
together with `append_output`, true exactly for `>>`; the argument vector of
the command and the number of commands stay as they were.  So `cmd > out.txt`
gives one command with argv = [cmd], output_file = out.txt and
append_output = false, `cmd >> out.txt` the same with append_output = true,
`cmd < in.txt` gives input_file = in.txt and no output_file, and after a
command word and any number of output redirections the command has the file
of the last one and append_output true exactly when the last one is `>>`. -/
theorem c17_redirect_target (st : ParseState) (r f : Token) (idx : Nat)
    (hr : r.type = TokenKind.TOKEN_REDIRECT_OUT ∨ r.type = TokenKind.TOKEN_REDIRECT_IN ∨
      r.type = TokenKind.TOKEN_REDIRECT_APPEND)
    (hf : f.type = TokenKind.TOKEN_WORD)
    (hcur : st.current_cmd = some idx) (hidx : idx < st.commands.length) :
    parse_step (parse_step st r) f
      = ParseState.mk
          (st.commands.set idx
            (if r.type = TokenKind.TOKEN_REDIRECT_IN then
              { st.commands.getD idx empty_command with input_file := some f.value }
            else
              { st.commands.getD idx empty_command with
                output_file := some f.value,
                append_output := decide (r.type = TokenKind.TOKEN_REDIRECT_APPEND) }))
          (some idx) false r.type ∧
    ((parse_step (parse_step st r) f).commands.getD idx empty_command).argv
      = (st.commands.getD idx empty_command).argv ∧
    (parse_step (parse_step st r) f).commands.length = st.commands.length ∧
    (∀ s0 : ParseState, s0.current_cmd = none →
      parse_step (parse_step s0 r) f
        = ParseState.mk
            (s0.commands ++
              [if r.type = TokenKind.TOKEN_REDIRECT_IN then
                { empty_command with input_file := some f.value }
              else
                { empty_command with
                  output_file := some f.value,
                  append_output := decide (r.type = TokenKind.TOKEN_REDIRECT_APPEND) }])
            (some s0.commands.length) false r.type) ∧
    parse_command_line ['c', 'm', 'd', ' ', '>', ' ', 'o', 'u', 't', '.', 't', 'x', 't']
      = some [{ argv := [['c', 'm', 'd']], input_file := none,
                output_file := some ['o', 'u', 't', '.', 't', 'x', 't'],
                append_output := false, background := false }] ∧
    parse_command_line ['c', 'm', 'd', ' ', '>', '>', ' ', 'o', 'u', 't', '.', 't', 'x', 't']
      = some [{ argv := [['c', 'm', 'd']], input_file := none,
                output_file := some ['o', 'u', 't', '.', 't', 'x', 't'],
                append_output := true, background := false }] ∧
    parse_command_line ['c', 'm', 'd', ' ', '<', ' ', 'i', 'n', '.', 't', 'x', 't']
      = some [{ argv := [['c', 'm', 'd']], input_file := some ['i', 'n', '.', 't', 'x', 't'],
                output_file := none, append_output := false, background := false }] ∧
    (∀ (cmd : List Char) (rs : List (Bool × List Char)) (last : Bool × List Char),
      parse_pipeline (word_token cmd :: redirect_tokens (rs ++ [last]))
        = some [{ argv := [cmd], input_file := none, output_file := some last.2,
                  append_output := last.1, background := false }]) := by
  have e1 := parse_step_redirect st r hr
  rw [hcur] at e1
  simp only [Option.isNone_some, Bool.false_eq_true, if_false] at e1
  have e2 := parse_step_target (ParseState.mk st.commands (some idx) true r.type) f idx hf
    rfl rfl
  have e := Eq.trans (congrArg (fun s => parse_step s f) e1) e2
  simp only [] at e
  refine ⟨e, ?_, ?_, ?_, by decide, by decide, by decide, ?_⟩
  · rw [e]
    simp only []
    rw [getD_set_same _ _ _ _ hidx]
    split_ifs <;> rfl
  · rw [e]
    simp only [List.length_set]
  · intro s0 h0
    have d1 := parse_step_redirect s0 r hr
    rw [h0] at d1
    simp only [Option.isNone_none, if_true] at d1
    have d2 := parse_step_target
      (ParseState.mk (s0.commands ++ [empty_command]) (some s0.commands.length) true r.type)
      f s0.commands.length hf rfl rfl
    have d := Eq.trans (congrArg (fun s => parse_step s f) d1) d2
    simp only [set_length_append, getD_length_append] at d
    exact d
  · intro cmd rs last
    have h0 := parse_step_word_new parse_init cmd rfl rfl
    obtain ⟨_, _, c, k1, k2, k3, k4, k5⟩ := parse_loop_redirects cmd (rs ++ [last])
      (ParseState.mk [plain_command cmd] (some 0) false TokenKind.TOKEN_REDIRECT_OUT) rfl rfl
      ⟨plain_command cmd, rfl, rfl, rfl, rfl⟩
    obtain ⟨k6, k7⟩ := k5 last (by simp)
    unfold parse_pipeline
    rw [if_neg (by simp), parse_loop_cons, h0]
    simp only [parse_init, List.length_nil, List.nil_append]
    rw [k1]
    obtain ⟨a, i, o, ap, b⟩ := c
    simp only at k2 k3 k4 k6 k7
    subst k2 k3 k4 k6 k7
    rfl

theorem c17_redirect_target_witness :
    parse_step
        (parse_step (ParseState.mk [plain_command ['c']] (some 0) false
          TokenKind.TOKEN_REDIRECT_OUT) { type := TokenKind.TOKEN_REDIRECT_APPEND, value := [] })
        (word_token ['f'])
      = ParseState.mk
          [{ argv := [['c']], input_file := none, output_file := some ['f'],
             append_output := true, background := false }]
          (some 0) false TokenKind.TOKEN_REDIRECT_APPEND :=
  (c17_redirect_target
    (ParseState.mk [plain_command ['c']] (some 0) false TokenKind.TOKEN_REDIRECT_OUT)
    { type := TokenKind.TOKEN_REDIRECT_APPEND, value := [] } (word_token ['f']) 0
    (Or.inr (Or.inr rfl)) rfl rfl (by decide)).1

/-- Claim C19: a BACKGROUND token leaves the number of commands, the command
being built and the pending redirection as they are; it sets `background` of
the command being built, if there is one, and changes no other command and no
other field.  So `cmd arg &` gives one command with argv = [cmd, arg] and
background = true, and in `a & b` the word `b` goes to the same command: one
command with argv = [a, b] and background = true. -/
theorem c19_background_flag (st : ParseState) (t : Token)
    (ht : t.type = TokenKind.TOKEN_BACKGROUND) :
    (parse_step st t).commands.length = st.commands.length ∧
    (parse_step st t).current_cmd = st.current_cmd ∧
    (parse_step st t).expect_redirect_file = st.expect_redirect_file ∧
    (parse_step st t).redirect_type = st.redirect_type ∧
    (∀ idx, st.current_cmd = some idx →
      (parse_step st t).commands
        = st.commands.set idx { st.commands.getD idx empty_command with background := true }) ∧
    (st.current_cmd = none → parse_step st t = st) ∧
    parse_command_line ['c', 'm', 'd', ' ', 'a', 'r', 'g', ' ', '&']
      = some [{ argv := [['c', 'm', 'd'], ['a', 'r', 'g']], input_file := none,
                output_file := none, append_output := false, background := true }] ∧
    parse_command_line ['a', ' ', '&', ' ', 'b']
      = some [{ argv := [['a'], ['b']], input_file := none, output_file := none,
                append_output := false, background := true }] := by
  have e : parse_step st t
      = update_current st (fun cmd => { cmd with background := true }) := by
    unfold parse_step
    simp [ht]
  rw [e]
  unfold update_current
  refine ⟨?_, ?_, ?_, ?_, ?_, ?_, by decide, by decide⟩
  · cases st.current_cmd <;> simp
  · cases h : st.current_cmd <;> simp [h]
  · cases st.current_cmd <;> simp
  · cases st.current_cmd <;> simp
  · intro idx h
    simp [h]
  · intro h
    simp [h]

theorem c19_background_flag_witness :
    (parse_step (ParseState.mk [plain_command ['a']] (some 0) false TokenKind.TOKEN_REDIRECT_OUT)
        { type := TokenKind.TOKEN_BACKGROUND, value := [] }).commands
      = [{ argv := [['a']], input_file := none, output_file := none, append_output := false,
           background := true }] :=
  (c19_background_flag
    (ParseState.mk [plain_command ['a']] (some 0) false TokenKind.TOKEN_REDIRECT_OUT)
    { type := TokenKind.TOKEN_BACKGROUND, value := [] } rfl).2.2.2.2.1 0 rfl

/-- Claim C20: a redirect token met while no command is open appends one new
command, with no arguments and no targets, to the pipeline, makes it the
command being built and waits for the file name.  So `> file` gives a
pipeline of exactly one command with empty argv, output_file = file and
append_output = false. -/
theorem c20_leading_redirect (st : ParseState) (r : Token)
    (hr : r.type = TokenKind.TOKEN_REDIRECT_OUT ∨ r.type = TokenKind.TOKEN_REDIRECT_IN ∨
      r.type = TokenKind.TOKEN_REDIRECT_APPEND)
    (hcur : st.current_cmd = none) :
    parse_step st r
      = ParseState.mk (st.commands ++ [empty_command]) (some st.commands.length) true r.type ∧
    empty_command
      = { argv := [], input_file := none, output_file := none, append_output := false,
          background := false } ∧
    parse_command_line ['>', ' ', 'f', 'i', 'l', 'e']
      = some [{ argv := [], input_file := none, output_file := some ['f', 'i', 'l', 'e'],
                append_output := false, background := false }] := by
  refine ⟨?_, rfl, by decide⟩
  rw [parse_step_redirect st r hr, hcur]
  rfl

theorem c20_leading_redirect_witness :
    parse_step parse_init { type := TokenKind.TOKEN_REDIRECT_OUT, value := [] }
      = ParseState.mk [empty_command] (some 0) true TokenKind.TOKEN_REDIRECT_OUT :=
  (c20_leading_redirect parse_init { type := TokenKind.TOKEN_REDIRECT_OUT, value := [] }
    (Or.inl rfl) rfl).1

/-! ## Token lists without a word -/

theorem plain_word_spec {w : List Char} (h : plain_word w = true) :
    0 < w.length ∧ w.length ≤ MAX_TOKEN_LEN - 1 ∧ ∀ c, c ∈ w → ordinary c = true := by
  unfold plain_word at h
  simp only [Bool.and_eq_true, Bool.not_eq_true', List.isEmpty_eq_false, decide_eq_true_eq,
    List.all_eq_true] at h
  exact ⟨List.length_pos.mpr h.1.1, h.1.2, h.2⟩

theorem add_token_room (ts : List Token) (k : TokenKind) (h : ts.length < MAX_TOKENS) :
    add_token ts k none = ts ++ [{ type := k, value := [] }] := by
  unfold add_token
  rw [if_neg (Nat.not_le.mpr h)]

theorem add_token_word_room (ts : List Token) (w : List Char) (h : ts.length < MAX_TOKENS)
    (hw : w.length ≤ MAX_TOKEN_LEN - 1) :
    add_token ts TokenKind.TOKEN_WORD (some w) = ts ++ [word_token w] := by
  unfold add_token
  rw [if_neg (Nat.not_le.mpr h)]
  simp only [List.take_of_length_le hw, word_token]

theorem tok_loop_plain_word (w rest : List Char) (ts : List Token) (h : plain_word w = true) :
    tok_loop (TokState.mk ts [] false false) (w ++ rest)
      = tok_loop (TokState.mk ts w false false) rest := by
  obtain ⟨_, h2, h3⟩ := plain_word_spec h
  have e := tok_loop_ordinary_run w rest (TokState.mk ts [] false false) rfl rfl h3
    (by simpa using h2)
  simpa using e

theorem tok_loop_pipe_line (ws : List (List Char)) : ∀ ts : List Token, ws ≠ [] →
    (∀ w, w ∈ ws → plain_word w = true) → ts.length + 2 * ws.length ≤ MAX_TOKENS + 1 →
    (flush_word (tok_loop (TokState.mk ts [] false false) (pipe_line ws))).tokens
      = ts ++ pipe_tokens ws := by
  induction ws with
  | nil =>
    intro ts hne
    exact absurd rfl hne
  | cons w ws ih =>
    intro ts _ hw hroom
    have hpw := hw w (List.mem_cons_self _ _)
    obtain ⟨p1, p2, p3⟩ := plain_word_spec hpw
    simp only [List.length_cons] at hroom
    cases ws with
    | nil =>
      have e := tok_loop_plain_word w [] ts hpw
      rw [List.append_nil] at e
      have tnil : tok_loop (TokState.mk ts w false false) [] = TokState.mk ts w false false := by
        simp [tok_loop]
      rw [pipe_line, e, tnil, flush_word_of_pos (TokState.mk ts w false false) p1]
      simp only [pipe_tokens]
      exact add_token_word_room ts w (by simp only [List.length_nil] at hroom; omega) p2
    | cons w2 ws2 =>
      simp only [List.length_cons] at hroom
      have hsp : isspace ' ' = true := by decide
      rw [pipe_line, tok_loop_plain_word w _ ts hpw, tok_loop_step,
        tok_step_space (TokState.mk ts w false false) ' ' _ rfl rfl hsp]
      simp only []
      rw [flush_word_of_pos (TokState.mk ts w false false) p1]
      simp only []
      rw [add_token_word_room ts w (by omega) p2, tok_loop_pipe _ _ rfl rfl]
      have hfw : flush_word (TokState.mk (ts ++ [word_token w]) [] false false)
          = TokState.mk (ts ++ [word_token w]) [] false false := by
        simp [flush_word]
      rw [hfw]
      have hem : emit_op (TokState.mk (ts ++ [word_token w]) [] false false)
            TokenKind.TOKEN_PIPE
          = TokState.mk (ts ++ [word_token w, { type := TokenKind.TOKEN_PIPE, value := [] }])
              [] false false := by
        unfold emit_op
        simp only []
        rw [add_token_room _ _ (by simp only [List.length_append, List.length_singleton]; omega),
          List.append_assoc]
        rfl
      rw [hem, tok_loop_step, tok_step_space _ ' ' _ rfl rfl hsp]
      simp only []
      have hfw2 : flush_word (TokState.mk
            (ts ++ [word_token w, { type := TokenKind.TOKEN_PIPE, value := [] }]) [] false false)
          = TokState.mk (ts ++ [word_token w, { type := TokenKind.TOKEN_PIPE, value := [] }])
              [] false false := by
        simp [flush_word]
      rw [hfw2, ih _ (List.cons_ne_nil _ _) (fun u hu => hw u (List.mem_cons_of_mem _ hu))
        (by simp only [List.length_append, List.length_cons, List.length_nil]; omega)]
      simp [pipe_tokens]

theorem parse_loop_pipe_tokens (ws : List (List Char)) : ∀ st : ParseState, ws ≠ [] →
    st.current_cmd = none → st.expect_redirect_file = false →
    (parse_loop st (pipe_tokens ws)).commands = st.commands ++ ws.map plain_command := by
  induction ws with
  | nil =>
    intro st hne
    exact absurd rfl hne
  | cons w ws ih =>
    intro st _ hcur hexp
    cases ws with
    | nil =>
      rw [pipe_tokens, parse_loop_cons, parse_step_word_new st w hexp hcur]
      rfl
    | cons w2 ws2 =>
      rw [pipe_tokens, parse_loop_cons, parse_loop_cons, parse_step_word_new st w hexp hcur,
        parse_step_pipe, ih _ (List.cons_ne_nil _ _) rfl rfl]
      simp

theorem pipe_tokens_ne_nil (ws : List (List Char)) (h : ws ≠ []) : pipe_tokens ws ≠ [] := by
  cases ws with
  | nil => exact absurd rfl h
  | cons w ws => cases ws <;> simp [pipe_tokens]

/-- Claim C16, amended: for 1 ≤ n ≤ 64 (so that the 2n - 1 tokens fit the token
list of `MAX_TOKENS = 128`) and plain words w1..wn (not empty, at most 255
characters, no whitespace, quote, backslash or operator character), the line
`w1 | w2 | ... | wn` has the tokens WORD w1, PIPE, ..., WORD wn, and
`parse_command_line` yields a pipeline of exactly n commands in order, command
i having argv = [wi], no input_file, no output_file, append_output = false
and background = false; `a | b | c` gives three such commands. -/
theorem c16_pipe_splitting (ws : List (List Char)) (hn : 1 ≤ ws.length)
    (hcap : 2 * ws.length ≤ MAX_TOKENS) (hw : ∀ w, w ∈ ws → plain_word w = true) :
    parse_tokens (pipe_line ws) = pipe_tokens ws ∧
    parse_command_line (pipe_line ws) = some (ws.map plain_command) ∧
    (ws.map plain_command).length = ws.length ∧
    (∀ w : List Char, plain_command w
      = { argv := [w], input_file := none, output_file := none, append_output := false,
          background := false }) ∧
    parse_command_line ['a', ' ', '|', ' ', 'b', ' ', '|', ' ', 'c']
      = some [plain_command ['a'], plain_command ['b'], plain_command ['c']] := by
  have hne : ws ≠ [] := by
    intro h
    rw [h] at hn
    simp at hn
  have ht : parse_tokens (pipe_line ws) = pipe_tokens ws := by
    have h := tok_loop_pipe_line ws [] hne hw (by simp only [List.length_nil]; omega)
    simpa [parse_tokens, tok_init] using h
  refine ⟨ht, ?_, List.length_map _ _, fun w => rfl, by decide⟩
  unfold parse_command_line parse_pipeline
  rw [ht, if_neg (fun h => pipe_tokens_ne_nil ws hne (List.length_eq_zero.mp h)),
    parse_loop_pipe_tokens ws parse_init hne rfl rfl]
  rfl

theorem c16_pipe_splitting_witness :
    parse_command_line (pipe_line [['l', 's'], ['w', 'c']])
      = some [plain_command ['l', 's'], plain_command ['w', 'c']] :=
  (c16_pipe_splitting [['l', 's'], ['w', 'c']] (by decide) (by decide) (by decide)).2.1

set_option maxRecDepth 100000 in
/-- Claim C16 as stated fails for long pipelines: the line of 65 words `a`
joined by ` | ` has 129 tokens, the token list keeps 128 of them, and the
pipeline has 64 commands instead of 65. -/
theorem c16_long_pipeline_drops_command :
    parse_command_line (pipe_line (List.replicate 65 ['a']))
      = some (List.replicate 64 (plain_command ['a'])) ∧
    parse_command_line (pipe_line (List.replicate 65 ['a']))
      ≠ some ((List.replicate 65 ['a']).map plain_command) := by
  decide

/-! ## Listing -/

theorem take_succ_getD (l : List FileEntry) (i : Nat) (h : i < l.length) :
    l.take i ++ [l.getD i zero_entry] = l.take (i + 1) := by
  rw [List.take_succ, List.getD_eq_getElem?_getD, List.getElem?_eq_getElem h]
  rfl

theorem list_loop_eq (s : VFS) (hs : s.header.num_files ≤ s.header.entries.length)
    (fuel : Nat) : ∀ i, i ≤ min s.header.num_files 100 →
    list_loop fuel s i (s.header.entries.take i)
      = s.header.entries.take (min (min s.header.num_files 100) (i + fuel)) := by
  induction fuel with
  | zero =>
    intro i hi
    simp only [list_loop, Nat.add_zero]
    rw [Nat.min_eq_right hi]
  | succ fuel ih =>
    intro i hi
    have hlen : (s.header.entries.take i).length = i := by
      rw [List.length_take]
      omega
    unfold list_loop
    rw [hlen]
    by_cases hlt : i < s.header.num_files ∧ i < 100
    · rw [if_pos hlt, take_succ_getD _ _ (by omega), ih (i + 1) (by omega)]
      congr 2
      omega
    · rw [if_neg hlt]
      congr 1
      omega

/-- Claim C22, amended: for every store state (whose entry table lies within
the array `entries`) and every requested path, `vfs_list_directory` returns
true and yields the first 100 entries of the entry table in table order,
that is `min(num_files, 100)` entries: the entire table when it has at most
100 entries.  The result does not depend on the path. -/
theorem c22_listing (s : VFS) (path : List Char)
    (hs : s.header.num_files ≤ s.header.entries.length) :
    (vfs_list_directory s path).1 = true ∧
    (vfs_list_directory s path).2 = (file_table s).take 100 ∧
    (vfs_list_directory s path).2.length = min s.header.num_files 100 ∧
    (s.header.num_files ≤ 100 → (vfs_list_directory s path).2 = file_table s) ∧
    (∀ other : List Char, vfs_list_directory s other = vfs_list_directory s path) := by
  have h := list_loop_eq s hs 100 0 (Nat.zero_le _)
  rw [List.take_zero] at h
  have e : (vfs_list_directory s path).2 = (file_table s).take 100 := by
    show list_loop 100 s 0 [] = _
    rw [h, file_table, List.take_take]
    congr 1
    omega
  refine ⟨rfl, e, ?_, ?_, fun _ => rfl⟩
  · rw [e, List.length_take, file_table, List.length_take]
    omega
  · intro hn
    rw [e, List.take_of_length_le]
    rw [file_table, List.length_take]
    omega

set_option maxRecDepth 100000 in
theorem c22_listing_witness :
    (vfs_list_directory store_ab ['x']).2 = file_table store_ab ∧
    (file_table store_ab).map (fun e => e.name) = [['/'], ['a'], ['b']] :=
  ⟨(c22_listing store_ab ['x'] (by decide)).2.2.2.1 (by decide), by decide⟩

theorem reachable_foldl_create (names : List (List Char)) : ∀ s : VFS, Reachable s →
    Reachable (names.foldl (fun s n => (vfs_create_file s n FileType.FT_REGULAR 0).1) s) := by
  induction names with
  | nil =>
    intro s h
    exact h
  | cons n names ih =>
    intro s h
    exact ih _ (Reachable.create s n FileType.FT_REGULAR 0 h)

theorem reachable_store_many (n : Nat) : Reachable (store_many n) := by
  have h := reachable_foldl_create ((List.range n).map file_name_of_index) (fresh_store 0)
    (Reachable.fresh 0)
  rw [List.foldl_map] at h
  exact h

set_option maxRecDepth 1000000 in
/-- Claim C22 as stated fails for a table of more than 100 entries: after 100
files have been created in a fresh store the table has 101 entries (with the
root directory), and `vfs_list_directory` yields 100 of them. -/
theorem c22_long_table_cut :
    Reachable (store_many 100) ∧
    (store_many 100).header.num_files = 101 ∧
    (vfs_list_directory (store_many 100) ['/']).1 = true ∧
    (vfs_list_directory (store_many 100) ['/']).2.length = 100 :=
  ⟨reachable_store_many 100, by decide!⟩

/-! ## Writing when the blocks run out -/

theorem find_free_block_none {s : VFS} (h : first_free s.header.block_used = none) :
    find_free_block s = (s, NO_BLOCK) := by
  unfold find_free_block
  rw [h]

theorem write_loop_exhausted (fuel : Nat) (s : VFS) (block : Nat) (src : List Byte)
    (remaining : Nat) (hB : remaining > BLOCK_SIZE)
    (hfull : first_free s.header.block_used = none) :
    write_loop (fuel + 1) s block src remaining = write_block s block src BLOCK_SIZE := by
  have h : first_free (write_block s block src BLOCK_SIZE).header.block_used = none := by
    rw [write_block_header]
    exact hfull
  rw [write_loop_more fuel s block src remaining hB, find_free_block_none h]
  simp

theorem wf_store_a_full : WF store_a_full := by
  have hs : WF store_a :=
    reachable_wf (Reachable.create _ ['a'] FileType.FT_REGULAR 0 (Reachable.fresh 0))
  have hsame : SameTable store_a store_a_full :=
    { entries_eq := rfl, num_eq := rfl, magic_eq := rfl, cwd_eq := rfl,
      blocks_len_eq := by
        rw [hs.blocks_len]
        exact List.length_replicate _ _ }
  exact wf_of_same_table hsame hs

/-- Claim C24: when `vfs_write_file` finds the file or can create it, the call
returns true and sets the entry's size to the full `len` whatever the write
loop has stored.  When `len > BLOCK_SIZE` and no block is free when the loop
asks for a second block, the loop has stored only the first `BLOCK_SIZE`
bytes of the data, in the file's first block, and nothing else of the data
region or of the allocation bitmap has changed: fewer than `len` bytes are
stored, and the size is `len` all the same. -/
theorem c24_advisory_size (s : VFS) (hs : WF s) (path : List Char) (data : List Byte)
    (len now : Nat) (s1 : VFS) (idx : Nat)
    (ht : write_target s path now = some (s1, idx)) (h32 : len < 4294967296) :
    (vfs_write_file s path data len now).2 = true ∧
    ((vfs_write_file s path data len now).1.header.entries.getD idx zero_entry).size = len ∧
    ((vfs_write_file s path data len now).1.header.entries.getD idx zero_entry).name
      = lookup_name s path ∧
    (len > BLOCK_SIZE → first_free s1.header.block_used = none →
      (vfs_write_file s path data len now).1.file_data
        = file_write_at s1.file_data
            ((s1.header.entries.getD idx zero_entry).first_block * BLOCK_SIZE)
            (data.take BLOCK_SIZE) ∧
      (vfs_write_file s path data len now).1.header.block_used = s1.header.block_used ∧
      (data.take BLOCK_SIZE).length < len) := by
  obtain ⟨hs1, hidx, _⟩ := write_target_some hs ht
  obtain ⟨hlt, hnm, _⟩ := find_file_index_some hidx
  have hle : s1.header.num_files ≤ s1.header.entries.length := by
    rw [hs1.entries_len]
    exact hs1.num_le
  have hil : idx < s1.header.entries.length := Nat.lt_of_lt_of_le hlt hle
  have hf : (s1.header.entries.getD idx zero_entry).first_block < MAX_BLOCKS :=
    hs1.first_lt _ (getD_mem_table hle hlt)
  have e := write_eq s path data len now
  rw [ht] at e
  simp only [] at e
  rw [e, write_entry_fst]
  refine ⟨rfl, ?_, ?_, ?_⟩
  · simp only [save_header]
    rw [List.getD_eq_getElem?_getD, List.getElem?_set, if_pos rfl, if_pos hil]
    exact Nat.mod_eq_of_lt h32
  · simp only [save_header]
    rw [List.getD_eq_getElem?_getD, List.getElem?_set, if_pos rfl, if_pos hil]
    exact hnm
  · intro hB hfull
    obtain ⟨k, hk⟩ : ∃ k, len = k + 1 := ⟨len - 1, by omega⟩
    have hloop : write_loop len s1 (s1.header.entries.getD idx zero_entry).first_block data len
        = write_block s1 (s1.header.entries.getD idx zero_entry).first_block data BLOCK_SIZE := by
      have h1 := write_loop_exhausted k s1
        (s1.header.entries.getD idx zero_entry).first_block data len hB hfull
      rw [← hk] at h1
      exact h1
    rw [hloop]
    refine ⟨?_, ?_, ?_⟩
    · simp only [save_header]
      exact write_block_file s1 _ data BLOCK_SIZE hf (Nat.le_refl _)
    · simp only [save_header]
      rw [write_block_header]
    · rw [List.length_take]
      omega

theorem store_a_full_target :
    write_target store_a_full ['a'] 1 = some (store_a_full, 1) := by
  rfl

theorem store_a_full_no_free : first_free store_a_full.header.block_used = none := by
  decide!

theorem c24_advisory_size_witness :
    (vfs_write_file store_a_full ['a'] (List.replicate 5000 7) 5000 1).2 = true ∧
    ((vfs_write_file store_a_full ['a'] (List.replicate 5000 7) 5000 1).1.header.entries.getD 1
      zero_entry).size = 5000 ∧
    (vfs_write_file store_a_full ['a'] (List.replicate 5000 7) 5000 1).1.file_data
      = file_write_at store_a_full.file_data
          ((store_a_full.header.entries.getD 1 zero_entry).first_block * BLOCK_SIZE)
          ((List.replicate 5000 7).take BLOCK_SIZE) :=
  ⟨(c24_advisory_size store_a_full wf_store_a_full ['a'] (List.replicate 5000 7) 5000 1
      store_a_full 1 store_a_full_target (by decide)).1,
   (c24_advisory_size store_a_full wf_store_a_full ['a'] (List.replicate 5000 7) 5000 1
      store_a_full 1 store_a_full_target (by decide)).2.1,
   ((c24_advisory_size store_a_full wf_store_a_full ['a'] (List.replicate 5000 7) 5000 1
      store_a_full 1 store_a_full_target (by decide)).2.2.2 (by decide)
      store_a_full_no_free).1⟩

/-! ## Resolved paths -/

theorem nds_cons (c : Char) (l : List Char) :
    no_double_slash (c :: l) = true ↔
      ¬ (c = '/' ∧ l.head? = some '/') ∧ no_double_slash l = true := by
  cases l with
  | nil => simp [no_double_slash]
  | cons d rest =>
    rw [no_double_slash]
    simp only [Bool.and_eq_true, Bool.not_eq_true', List.head?_cons, Option.some.injEq]
    constructor
    · rintro ⟨h1, h2⟩
      refine ⟨?_, h2⟩
      rintro ⟨hc, hd⟩
      simp [hc, hd] at h1
    · rintro ⟨h1, h2⟩
      refine ⟨?_, h2⟩
      by_cases hc : c = '/'
      · by_cases hd : d = '/'
        · exact absurd ⟨hc, hd⟩ h1
        · simp [hd]
      · simp [hc]

theorem nds_collapse (l : List Char) : ∀ b : Bool,
    no_double_slash (collapse_slashes b l) = true ∧
      (b = true → (collapse_slashes b l).head? ≠ some '/') := by
  induction l with
  | nil =>
    intro b
    simp [collapse_slashes, no_double_slash]
  | cons c rest ih =>
    intro b
    unfold collapse_slashes
    by_cases hc : c = '/'
    · rw [if_pos hc]
      cases b with
      | true =>
        simp only [Bool.not_true, Bool.false_eq_true, if_false]
        simpa using ih true
      | false =>
        simp only [Bool.not_false, if_true]
        refine ⟨?_, fun h => absurd h (by decide)⟩
        rw [nds_cons]
        exact ⟨fun h => (ih true).2 rfl h.2, (ih true).1⟩
    · rw [if_neg hc]
      refine ⟨?_, fun _ => by simp [hc]⟩
      rw [nds_cons]
      exact ⟨fun h => hc h.1, (ih false).1⟩

theorem nds_append (a b : List Char) (ha : no_double_slash a = true)
    (hb : no_double_slash b = true) (hab : ¬ (a.getLast? = some '/' ∧ b.head? = some '/')) :
    no_double_slash (a ++ b) = true := by
  induction a with
  | nil => simpa using hb
  | cons c rest ih =>
    rw [nds_cons] at ha
    rw [List.cons_append, nds_cons]
    cases rest with
    | nil =>
      refine ⟨?_, by simpa using hb⟩
      rintro ⟨hc, hh⟩
      apply hab
      simp only [List.nil_append] at hh
      exact ⟨by simp [hc], hh⟩
    | cons d rest2 =>
      refine ⟨?_, ih ha.2 ?_⟩
      · rintro ⟨hc, hh⟩
        exact ha.1 ⟨hc, by simpa using hh⟩
      · rintro ⟨h1, h2⟩
        apply hab
        refine ⟨?_, h2⟩
        rw [List.getLast?_cons_cons]
        exact h1

theorem nds_take (l : List Char) : ∀ n : Nat, no_double_slash l = true →
    no_double_slash (l.take n) = true := by
  induction l with
  | nil =>
    intro n h
    simp [no_double_slash]
  | cons c rest ih =>
    intro n h
    cases n with
    | zero => simp [no_double_slash]
    | succ n =>
      rw [nds_cons] at h
      rw [List.take_succ_cons, nds_cons]
      refine ⟨?_, ih n h.2⟩
      rintro ⟨hc, hh⟩
      apply h.1
      refine ⟨hc, ?_⟩
      cases rest with
      | nil => simp at hh
      | cons d rest2 =>
        cases n with
        | zero => simp at hh
        | succ n => simpa using hh

theorem relative_head {p : List Char} (h : is_absolute_path p = false) :
    p.head? ≠ some '/' := by
  intro hh
  unfold is_absolute_path at h
  rw [hh] at h
  simp at h

theorem join_path_eq (dir file : List Char) (h : '\\' ∉ dir) :
    join_path dir file
      = if dir.getLast? = some '/' then dir ++ file else dir ++ '/' :: file := by
  have hb : dir.getLast? ≠ some '\\' := by
    intro hl
    exact h (List.mem_of_mem_getLast? hl)
  unfold join_path
  by_cases hs : dir.getLast? = some '/'
  · rw [if_pos hs, if_neg (fun hh => hh.1 hs)]
  · rw [if_neg hs, if_pos ⟨hs, hb⟩]
    simp

theorem nds_resolve {s : VFS} (h1 : '\\' ∉ s.current_dir)
    (h2 : no_double_slash s.current_dir = true) (path : List Char) :
    no_double_slash (vfs_resolve_path s path) = true := by
  unfold vfs_resolve_path
  simp only []
  have hn := (nds_collapse (path.map (fun c => if c = '\\' then '/' else c)) false).1
  cases ha : is_absolute_path (normalize_path path)
  · simp only [Bool.false_eq_true, if_false]
    have hh := relative_head ha
    rw [join_path_eq _ _ h1]
    by_cases hs : s.current_dir.getLast? = some '/'
    · rw [if_pos hs]
      exact nds_append _ _ h2 hn (fun h => hh h.2)
    · rw [if_neg hs]
      apply nds_append _ _ h2
      · rw [nds_cons]
        exact ⟨fun h => hh h.2, hn⟩
      · exact fun h => hs h.1
  · simp only [if_true]
    exact hn

theorem write_cwd {s : VFS} (hs : WF s) (path : List Char) (data : List Byte) (len now : Nat) :
    (vfs_write_file s path data len now).1.current_dir = s.current_dir := by
  rw [write_eq]
  cases ht : write_target s path now with
  | none =>
    simp only []
    exact create_cwd s path FileType.FT_REGULAR now
  | some p =>
    obtain ⟨s1, idx⟩ := p
    simp only []
    rw [write_entry_cwd]
    exact (write_target_some hs ht).2.2

theorem chdir_cwd (s : VFS) (path : List Char) :
    (vfs_change_directory s path).1.current_dir = s.current_dir ∨
    (vfs_change_directory s path).1.current_dir = ['/'] ∨
    (vfs_change_directory s path).1.current_dir
      = (vfs_resolve_path s path).take (MAX_PATH - 1) := by
  unfold vfs_change_directory
  simp only []
  split_ifs with h
  · exact Or.inr (Or.inl rfl)
  · split
    · exact Or.inl rfl
    · split_ifs
      · exact Or.inl rfl
      · exact Or.inr (Or.inr rfl)

theorem reachable_nds {s : VFS} (h : Reachable s) : no_double_slash s.current_dir = true := by
  induction h with
  | fresh now => rfl
  | create s path type now _ ih =>
    rw [create_cwd]
    exact ih
  | write s path data len now hr _ ih =>
    rw [write_cwd (reachable_wf hr)]
    exact ih
  | delete s path _ ih =>
    rw [delete_cwd]
    exact ih
  | chdir s path hr ih =>
    rcases chdir_cwd s path with h | h | h
    · rw [h]
      exact ih
    · rw [h]
      rfl
    · rw [h]
      exact nds_take _ _ (nds_resolve (reachable_wf hr).cwd_ok ih path)
  | reopen s s1 now hr hopen _ =>
    rw [reopen_eq (reachable_wf hr).magic_ok] at hopen
    simp only [Option.some.injEq] at hopen
    rw [← hopen]
    rfl

theorem collapse_filter (p : Char → Bool) (hp : p '/' = false) (l : List Char) : ∀ b : Bool,
    (collapse_slashes b l).filter p = l.filter p := by
  induction l with
  | nil =>
    intro b
    simp [collapse_slashes]
  | cons c rest ih =>
    intro b
    unfold collapse_slashes
    by_cases hc : c = '/'
    · rw [if_pos hc, List.filter_cons, hc, hp]
      simp only [Bool.false_eq_true, if_false]
      cases b
      · simp only [Bool.not_false, if_true]
        rw [List.filter_cons, hp]
        simp only [Bool.false_eq_true, if_false]
        exact ih true
      · simp only [Bool.not_true, Bool.false_eq_true, if_false]
        exact ih true
    · rw [if_neg hc, List.filter_cons, List.filter_cons, ih false]

theorem normalize_filter (path : List Char) :
    (normalize_path path).filter (fun c => decide (c ≠ '/'))
      = path.filter (fun c => decide (c ≠ '/') && decide (c ≠ '\\')) := by
  unfold normalize_path
  rw [collapse_filter _ (by decide)]
  induction path with
  | nil => rfl
  | cons c rest ih =>
    rw [List.map_cons, List.filter_cons, List.filter_cons, ih]
    by_cases h1 : c = '\\'
    · subst h1
      rfl
    · by_cases h2 : c = '/'
      · subst h2
        rfl
      · have e1 : (if c = '\\' then '/' else c) = c := if_neg h1
        rw [e1]
        have e2 : decide (c ≠ '/') = true := decide_eq_true h2
        have e3 : decide (c ≠ '\\') = true := decide_eq_true h1
        rw [e2, e3]
        rfl

theorem collapse_id (l : List Char) : ∀ b : Bool, '\\' ∉ l → no_double_slash l = true →
    (b = true → l.head? ≠ some '/') → collapse_slashes b l = l := by
  induction l with
  | nil =>
    intro b _ _ _
    rfl
  | cons c rest ih =>
    intro b h1 h2 h3
    rw [nds_cons] at h2
    have hr : '\\' ∉ rest := fun h => h1 (List.mem_cons_of_mem _ h)
    unfold collapse_slashes
    by_cases hc : c = '/'
    · have hb : b = false := by
        cases b
        · rfl
        · exact absurd (by simp [hc]) (h3 rfl)
      rw [if_pos hc, hb]
      simp only [Bool.not_false, if_true]
      rw [ih true hr h2.2 (fun _ hh => h2.1 ⟨hc, hh⟩), hc]
    · rw [if_neg hc, ih false hr h2.2 (fun h => absurd h (by decide))]

theorem normalize_id (path : List Char) (h1 : '\\' ∉ path) (h2 : no_double_slash path = true) :
    normalize_path path = path := by
  have hm : path.map (fun c => if c = '\\' then '/' else c) = path := by
    conv_rhs => rw [← List.map_id path]
    apply List.map_congr_left
    intro c hc
    have : c ≠ '\\' := fun h => h1 (h ▸ hc)
    simp [this]
  unfold normalize_path
  rw [hm]
  exact collapse_id path false h1 h2 (fun h => absurd h (by decide))

/-- For calls that stay inside the buffer `resolved[MAX_PATH]`: in every
store reachable from a fresh store `vfs_resolve_path` gives
`normalize_path(path)` when that is absolute, and otherwise the current directory and `normalize_path(path)` with one `/`
between them (the one that ends the current directory, or one put in).  The
result has no backslash and no two adjacent `/`.  `normalize_path` keeps every
character that is not a separator, in order, and leaves a path without
backslash and without repeated `/` as it is, so `.` and `..` segments are kept
verbatim: `a/../b` resolved in a fresh store is `/a/../b`. -/
theorem resolved_path_shape (s : VFS) (hr : Reachable s) (path : List Char) :
    vfs_resolve_path s path
      = (if is_absolute_path (normalize_path path) then normalize_path path
         else if s.current_dir.getLast? = some '/' then s.current_dir ++ normalize_path path
         else s.current_dir ++ '/' :: normalize_path path) ∧
    '\\' ∉ vfs_resolve_path s path ∧
    no_double_slash (vfs_resolve_path s path) = true ∧
    (normalize_path path).filter (fun c => decide (c ≠ '/'))
      = path.filter (fun c => decide (c ≠ '/') && decide (c ≠ '\\')) ∧
    ('\\' ∉ path → no_double_slash path = true → normalize_path path = path) ∧
    vfs_resolve_path (fresh_store 0) ['a', '/', '.', '.', '/', 'b']
      = ['/', 'a', '/', '.', '.', '/', 'b'] := by
  have hw := reachable_wf hr
  refine ⟨?_, resolve_no_backslash hw.cwd_ok path, nds_resolve hw.cwd_ok (reachable_nds hr) path,
    normalize_filter path, normalize_id path, by decide⟩
  unfold vfs_resolve_path
  simp only []
  rw [join_path_eq _ _ hw.cwd_ok]

theorem resolved_path_example :
    vfs_resolve_path store_a ['x', '\\', '\\', '.', '/', '/', 'y'] = ['/', 'x', '/', '.', '/', 'y'] ∧
    no_double_slash (vfs_resolve_path store_a ['x', '\\', '\\', '.', '/', '/', 'y']) = true :=
  ⟨by decide,
   (resolved_path_shape store_a
      (Reachable.create _ ['a'] FileType.FT_REGULAR 0 (Reachable.fresh 0))
      ['x', '\\', '\\', '.', '/', '/', 'y']).2.2.1⟩

/-! ## Changing the directory -/

theorem mem_table_index {s : VFS} (h : s.header.num_files ≤ s.header.entries.length)
    {e : FileEntry} (he : e ∈ file_table s) :
    ∃ i, i < s.header.num_files ∧ s.header.entries.getD i zero_entry = e := by
  unfold file_table at he
  obtain ⟨i, hi, hget⟩ := List.getElem_of_mem he
  rw [List.length_take] at hi
  refine ⟨i, by omega, ?_⟩
  rw [List.getElem_take] at hget
  rw [List.getD_eq_getElem _ _ (by omega)]
  exact hget

theorem chdir_result (s : VFS) (hs : WF s) (path : List Char) :
    (vfs_change_directory s path).2 = true ↔
      vfs_resolve_path s path = ['/'] ∨
      ∃ e, e ∈ file_table s ∧ e.name = filename_of (vfs_resolve_path s path) ∧
        e.type = FileType.FT_DIRECTORY := by
  have hle : s.header.num_files ≤ s.header.entries.length := by
    rw [hs.entries_len]
    exact hs.num_le
  unfold vfs_change_directory
  simp only []
  by_cases hroot : vfs_resolve_path s path = ['/']
  · rw [if_pos hroot]
    exact ⟨fun _ => Or.inl hroot, fun _ => rfl⟩
  · rw [if_neg hroot]
    unfold find_file_entry
    cases hfind : find_file_index s (filename_of (vfs_resolve_path s path)) with
    | none =>
      simp only [Option.map_none']
      constructor
      · intro h
        cases h
      · rintro (h | ⟨e, he, hname, _⟩)
        · exact absurd h hroot
        · obtain ⟨i, hi, hget⟩ := mem_table_index hle he
          have := (find_file_index_none.mp hfind) i hi
          rw [hget] at this
          exact absurd hname this
    | some k =>
      simp only [Option.map_some']
      obtain ⟨hk, hkname, _⟩ := find_file_index_some hfind
      by_cases hty : (s.header.entries.getD k zero_entry).type = FileType.FT_DIRECTORY
      · rw [if_neg (fun h => h hty)]
        exact ⟨fun _ => Or.inr ⟨_, getD_mem_table hle hk, hkname, hty⟩, fun _ => rfl⟩
      · rw [if_pos hty]
        constructor
        · intro h
          cases h
        · rintro (h | ⟨e, he, hname, hdir⟩)
          · exact absurd h hroot
          · obtain ⟨i, hi, hget⟩ := mem_table_index hle he
            have hik : i = k := wf_name_inj hs hi hk (by rw [hget, hname, hkname])
            rw [hik] at hget
            rw [hget] at hty
            exact absurd hdir hty

theorem chdir_success (s : VFS) (path : List Char)
    (h : (vfs_change_directory s path).2 = true) :
    (vfs_change_directory s path).1.current_dir
      = (vfs_resolve_path s path).take (MAX_PATH - 1) := by
  unfold vfs_change_directory at h ⊢
  simp only [] at h ⊢
  split_ifs with hroot
  · rw [hroot]
    rfl
  · rw [if_neg hroot] at h
    split at h
    · cases h
    · split_ifs at h ⊢
      rfl

theorem chdir_failure (s : VFS) (path : List Char)
    (h : (vfs_change_directory s path).2 = false) :
    (vfs_change_directory s path).1 = s := by
  unfold vfs_change_directory at h ⊢
  simp only [] at h ⊢
  split_ifs with hroot
  · rw [if_pos hroot] at h
    cases h
  · rw [if_neg hroot] at h
    split at h
    · rfl
    · split_ifs at h ⊢
      rfl

/-- For calls that stay inside the buffer `resolved[MAX_PATH]`: in every
store reachable from a fresh store `vfs_change_directory(path)` returns true
if and only if the resolved path is exactly `/` or its final component is the name of an entry of type DIRECTORY.
On success `current_dir` becomes the resolved path, as far as it fits the
buffer of `MAX_PATH` characters (a resolved path that fits `resolved[MAX_PATH]`
is copied whole); on failure the store is unchanged; in both cases the
header, with the entry table and the allocation bitmap, and the store file
are unchanged. -/
theorem change_directory_outcome (s : VFS) (hr : Reachable s) (path : List Char) :
    ((vfs_change_directory s path).2 = true ↔
      vfs_resolve_path s path = ['/'] ∨
      ∃ e, e ∈ file_table s ∧ e.name = filename_of (vfs_resolve_path s path) ∧
        e.type = FileType.FT_DIRECTORY) ∧
    ((vfs_change_directory s path).2 = true →
      (vfs_change_directory s path).1.current_dir
        = (vfs_resolve_path s path).take (MAX_PATH - 1)) ∧
    ((vfs_change_directory s path).2 = true →
      (vfs_resolve_path s path).length ≤ MAX_PATH - 1 →
      (vfs_change_directory s path).1.current_dir = vfs_resolve_path s path) ∧
    ((vfs_change_directory s path).2 = false → (vfs_change_directory s path).1 = s) ∧
    (vfs_change_directory s path).1.header = s.header ∧
    (vfs_change_directory s path).1.file_data = s.file_data ∧
    (vfs_change_directory s path).1.file_header = s.file_header := by
  refine ⟨chdir_result s (reachable_wf hr) path, chdir_success s path, ?_, chdir_failure s path,
    (chdir_header s path).1, (chdir_header s path).2.1, (chdir_header s path).2.2⟩
  intro h hlen
  rw [chdir_success s path h, List.take_of_length_le hlen]

theorem change_directory_example :
    (vfs_change_directory (vfs_create_directory (fresh_store 0) ['d'] 0).1 ['d']).2 = true ∧
    (vfs_change_directory (vfs_create_directory (fresh_store 0) ['d'] 0).1 ['d']).1.current_dir
      = ['/', 'd'] ∧
    (vfs_change_directory store_a ['a']).2 = false ∧
    (vfs_change_directory store_a ['a']).1 = store_a :=
  ⟨by decide,
   (change_directory_outcome (vfs_create_directory (fresh_store 0) ['d'] 0).1
      (Reachable.create _ ['d'] FileType.FT_DIRECTORY 0 (Reachable.fresh 0)) ['d']).2.2.1
      (by decide) (by decide),
   by decide,
   (change_directory_outcome store_a
      (Reachable.create _ ['a'] FileType.FT_REGULAR 0 (Reachable.fresh 0)) ['a']).2.2.2.1
      (by decide)⟩

/-! ## The job table -/

theorem shift_jobs_length (fuel : Nat) : ∀ (jobs : List Job) (j last : Nat),
    (shift_jobs fuel jobs j last).length = jobs.length := by
  induction fuel with
  | zero =>
    intro jobs j last
    rfl
  | succ fuel ih =>
    intro jobs j last
    unfold shift_jobs
    split_ifs
    · rw [ih, List.length_set]
    · rfl

theorem shift_jobs_get (fuel : Nat) : ∀ (jobs : List Job) (j last : Nat),
    last < jobs.length → last - j ≤ fuel → ∀ k,
    (shift_jobs fuel jobs j last)[k]? = if j ≤ k ∧ k < last then jobs[k + 1]? else jobs[k]? := by
  induction fuel with
  | zero =>
    intro jobs j last _ hf k
    rw [if_neg (by omega)]
    rfl
  | succ fuel ih =>
    intro jobs j last hl hf k
    unfold shift_jobs
    by_cases hj : j < last
    · rw [if_pos hj, ih _ (j + 1) last (by rw [List.length_set]; exact hl) (by omega) k]
      by_cases h1 : j + 1 ≤ k ∧ k < last
      · rw [if_pos h1, if_pos (by omega), List.getElem?_set_ne (by omega)]
      · rw [if_neg h1]
        by_cases h2 : k = j
        · subst h2
          have hlt : k + 1 < jobs.length := by omega
          rw [if_pos (by omega), List.getElem?_set_self (by omega), List.getD_eq_getElem?_getD,
            List.getElem?_eq_getElem hlt]
          rfl
        · rw [if_neg (by omega), List.getElem?_set_ne (fun h => h2 h.symm)]
    · rw [if_neg hj, if_neg (by omega)]

theorem find_job_index_some {jm : JobManager} {pid i : Nat}
    (h : find_job_index jm pid = some i) :
    i < jm.count ∧ (jm.jobs.getD i zero_job).dwProcessId = pid ∧
      ∀ j, j < i → (jm.jobs.getD j zero_job).dwProcessId ≠ pid := by
  obtain ⟨h1, h2, h3⟩ := range_find_some h
  refine ⟨h1, of_decide_eq_true h2, fun j hj => ?_⟩
  exact of_decide_eq_false (h3 j hj)

theorem find_job_index_first {jm : JobManager} {pid i : Nat} (hi : i < jm.count)
    (hp : (jm.jobs.getD i zero_job).dwProcessId = pid)
    (hlt : ∀ j, j < i → (jm.jobs.getD j zero_job).dwProcessId ≠ pid) :
    find_job_index jm pid = some i :=
  range_find_first hi (decide_eq_true hp) (fun j hj => decide_eq_false (hlt j hj))

theorem find_job_index_exists {jm : JobManager} {pid i : Nat} (hi : i < jm.count)
    (hp : (jm.jobs.getD i zero_job).dwProcessId = pid) :
    ∃ k, k ≤ i ∧ find_job_index jm pid = some k := by
  cases hf : find_job_index jm pid with
  | none =>
    have := range_find_none.mp hf i hi
    rw [decide_eq_true hp] at this
    cases this
  | some k =>
    refine ⟨k, ?_, rfl⟩
    obtain ⟨_, _, h3⟩ := find_job_index_some hf
    by_contra hk
    exact h3 i (by omega) hp

theorem remove_found {jm : JobManager} {pid i : Nat} (h : find_job_index jm pid = some i) :
    job_manager_remove jm pid
      = { jobs := shift_jobs jm.count jm.jobs i (jm.count - 1), count := jm.count - 1 } := by
  unfold job_manager_remove
  rw [h]

theorem remove_not_found {jm : JobManager} {pid : Nat} (h : find_job_index jm pid = none) :
    job_manager_remove jm pid = jm := by
  unfold job_manager_remove
  rw [h]

theorem remove_table {jm : JobManager} {pid i : Nat} (hc : jm.count ≤ jm.jobs.length)
    (h : find_job_index jm pid = some i) :
    job_table (job_manager_remove jm pid) = (job_table jm).eraseIdx i := by
  obtain ⟨hi, _, _⟩ := find_job_index_some h
  rw [remove_found h]
  unfold job_table
  simp only []
  apply List.ext_getElem?
  intro k
  rw [List.getElem?_take, List.getElem?_eraseIdx, List.getElem?_take, List.getElem?_take]
  by_cases hk : k < jm.count - 1
  · rw [if_pos hk, shift_jobs_get jm.count jm.jobs i (jm.count - 1) (by omega) (by omega) k]
    by_cases hki : k < i
    · rw [if_neg (by omega), if_pos hki, if_pos (by omega)]
    · rw [if_pos (by omega), if_neg hki, if_pos (by omega)]
  · rw [if_neg hk]
    by_cases hki : k < i
    · omega
    · rw [if_neg hki, if_neg (by omega)]

theorem remove_inv (jm : JobManager) (pid : Nat)
    (h : jm.jobs.length = MAX_JOBS ∧ jm.count ≤ MAX_JOBS) :
    (job_manager_remove jm pid).jobs.length = MAX_JOBS ∧
      (job_manager_remove jm pid).count ≤ MAX_JOBS := by
  cases hf : find_job_index jm pid with
  | none =>
    rw [remove_not_found hf]
    exact h
  | some i =>
    rw [remove_found hf]
    simp only []
    rw [shift_jobs_length]
    exact ⟨h.1, by omega⟩

theorem cleanup_loop_inv (poll : Nat → Option Nat) (i : Nat) : ∀ jm : JobManager,
    jm.jobs.length = MAX_JOBS ∧ jm.count ≤ MAX_JOBS →
    (cleanup_loop poll i jm).jobs.length = MAX_JOBS ∧
      (cleanup_loop poll i jm).count ≤ MAX_JOBS := by
  induction i with
  | zero =>
    intro jm h
    exact h
  | succ i ih =>
    intro jm h
    unfold cleanup_loop
    simp only []
    split_ifs
    · exact ih jm h
    · split
      · split_ifs
        · exact ih _ (remove_inv jm _ h)
        · exact ih jm h
      · exact ih jm h

theorem running_loop_inv (poll : Nat → Option Nat) (fuel : Nat) :
    ∀ (jm : JobManager) (i count : Nat),
    (running_loop poll fuel jm i count).1.jobs.length = jm.jobs.length ∧
      (running_loop poll fuel jm i count).1.count = jm.count := by
  induction fuel with
  | zero =>
    intro jm i count
    exact ⟨rfl, rfl⟩
  | succ fuel ih =>
    intro jm i count
    unfold running_loop
    simp only []
    split_ifs
    · split
      · split_ifs
        · exact ih jm _ _
        · obtain ⟨h1, h2⟩ := ih
            { jm with jobs := jm.jobs.set i { jm.jobs.getD i zero_job with is_running := false } }
            (i + 1) count
          exact ⟨by rw [h1, List.length_set], h2⟩
      · exact ih jm _ _
    · exact ih jm _ _
    · exact ⟨rfl, rfl⟩

theorem job_reachable_inv {jm : JobManager} (h : JobReachable jm) :
    jm.jobs.length = MAX_JOBS ∧ jm.count ≤ MAX_JOBS := by
  induction h with
  | create => exact ⟨List.length_replicate _ _, Nat.zero_le _⟩
  | add jm hProcess pid cmd background _ ih =>
    unfold job_manager_add
    split_ifs with hfull
    · exact ih
    · simp only [List.length_set]
      exact ⟨ih.1, by omega⟩
  | remove jm pid _ ih => exact remove_inv jm pid ih
  | cleanup jm poll _ ih => exact cleanup_loop_inv poll jm.count jm ih
  | running jm poll _ ih =>
    obtain ⟨h1, h2⟩ := running_loop_inv poll jm.count jm 0 0
    unfold job_manager_get_running_count
    rw [h1, h2]
    exact ih

/-- Claim C25: `job_manager_add` on a table that holds `MAX_JOBS = 64` jobs
returns -1 and leaves the table as it is; on a table with `count < 64` it
returns the old `count`, stores the new job at that index with
`is_running = true` and the given handle, pid, command and background flag,
adds one to `count` and leaves all earlier jobs as they are.  In every table
reachable through add, remove, cleanup_finished and get_running_count,
`count` is at most 64 (it is never decremented at 0), and so it is after each
of these operations. -/
theorem c25_job_capacity (jm : JobManager) (hr : JobReachable jm) (hProcess pid : Nat)
    (cmd : Option (List Char)) (background : Bool) :
    jm.count ≤ MAX_JOBS ∧ jm.jobs.length = MAX_JOBS ∧
    (jm.count = MAX_JOBS → job_manager_add jm hProcess pid cmd background = (jm, -1)) ∧
    (jm.count < MAX_JOBS →
      (job_manager_add jm hProcess pid cmd background).2 = (jm.count : Int) ∧
      (job_manager_add jm hProcess pid cmd background).1.count = jm.count + 1 ∧
      (job_manager_add jm hProcess pid cmd background).1.jobs.getD jm.count zero_job
        = { hProcess := hProcess, dwProcessId := pid, command := cmd,
            is_background := background, is_running := true } ∧
      (∀ i, i < jm.count →
        (job_manager_add jm hProcess pid cmd background).1.jobs.getD i zero_job
          = jm.jobs.getD i zero_job)) ∧
    (job_manager_add jm hProcess pid cmd background).1.count ≤ MAX_JOBS ∧
    (∀ p, (job_manager_remove jm p).count ≤ MAX_JOBS ∧
      ((job_manager_remove jm p).count = jm.count ∨
        (0 < jm.count ∧ (job_manager_remove jm p).count + 1 = jm.count))) ∧
    (∀ poll, (job_manager_cleanup_finished poll jm).count ≤ MAX_JOBS) ∧
    (∀ poll, (job_manager_get_running_count poll jm).1.count ≤ MAX_JOBS) := by
  obtain ⟨hlen, hcount⟩ := job_reachable_inv hr
  refine ⟨hcount, hlen, ?_, ?_,
    (job_reachable_inv (JobReachable.add jm hProcess pid cmd background hr)).2, ?_,
    fun poll => (job_reachable_inv (JobReachable.cleanup jm poll hr)).2,
    fun poll => (job_reachable_inv (JobReachable.running jm poll hr)).2⟩
  · intro hfull
    unfold job_manager_add
    rw [if_pos (by omega)]
  · intro hroom
    unfold job_manager_add
    rw [if_neg (by omega)]
    simp only []
    refine ⟨by omega, trivial, ?_, ?_⟩
    · rw [List.getD_eq_getElem?_getD, List.getElem?_set_self (by omega)]
      rfl
    · intro i hi
      rw [List.getD_eq_getElem?_getD, List.getD_eq_getElem?_getD,
        List.getElem?_set_ne (by omega)]
  · intro p
    refine ⟨(job_reachable_inv (JobReachable.remove jm p hr)).2, ?_⟩
    cases hf : find_job_index jm p with
    | none =>
      rw [remove_not_found hf]
      exact Or.inl rfl
    | some i =>
      obtain ⟨hi, _, _⟩ := find_job_index_some hf
      rw [remove_found hf]
      exact Or.inr ⟨by omega, by simp only []; omega⟩

theorem c25_job_capacity_witness :
    (job_manager_add job_manager_create 7 100 (some ['l', 's']) true).2 = 0 ∧
    (job_manager_add job_manager_create 7 100 (some ['l', 's']) true).1.count = 1 ∧
    (job_manager_add job_manager_create 7 100 (some ['l', 's']) true).1.jobs.getD 0 zero_job
      = { hProcess := 7, dwProcessId := 100, command := some ['l', 's'],
          is_background := true, is_running := true } :=
  ⟨((c25_job_capacity job_manager_create JobReachable.create 7 100 (some ['l', 's']) true).2.2.2.1
      (by decide)).1,
   ((c25_job_capacity job_manager_create JobReachable.create 7 100 (some ['l', 's']) true).2.2.2.1
      (by decide)).2.1,
   ((c25_job_capacity job_manager_create JobReachable.create 7 100 (some ['l', 's']) true).2.2.2.1
      (by decide)).2.2.1⟩

/-! ## Cleaning up the job table -/

theorem cleanup_loop_succ (poll : Nat → Option Nat) (i : Nat) (jm : JobManager) :
    cleanup_loop poll (i + 1) jm
      = if polled_finished poll (jm.jobs.getD i zero_job) = true then
          cleanup_loop poll i (job_manager_remove jm (jm.jobs.getD i zero_job).dwProcessId)
        else cleanup_loop poll i jm := by
  rw [cleanup_loop]
  simp only [polled_finished, terminated]
  generalize jm.jobs.getD i zero_job = job
  obtain ⟨h, p, c, b, r⟩ := job
  cases r
  · simp
  · simp only [Bool.not_true, Bool.false_eq_true, if_false, Bool.true_and]
    cases poll h with
    | none => simp
    | some code =>
      by_cases hc : code = STILL_ACTIVE
      · simp [hc]
      · simp [hc]

theorem job_table_length {jm : JobManager} (hc : jm.count ≤ jm.jobs.length) :
    (job_table jm).length = jm.count := by
  unfold job_table
  rw [List.length_take]
  omega

theorem job_table_getElem {jm : JobManager} (hc : jm.count ≤ jm.jobs.length) {i : Nat}
    (hi : i < (job_table jm).length) :
    (job_table jm)[i] = jm.jobs.getD i zero_job := by
  have hn := job_table_length hc
  have hl : i < jm.jobs.length := by omega
  simp only [job_table, List.getElem_take]
  rw [List.getD_eq_getElem _ _ hl]

theorem remove_count {jm : JobManager} {pid i : Nat} (h : find_job_index jm pid = some i) :
    (job_manager_remove jm pid).count = jm.count - 1 ∧
      (job_manager_remove jm pid).jobs.length = jm.jobs.length := by
  rw [remove_found h]
  exact ⟨rfl, shift_jobs_length _ _ _ _⟩

theorem eraseIdx_take_drop (l : List Job) (i : Nat) :
    (l.eraseIdx i).take i = l.take i ∧ (l.eraseIdx i).drop i = l.drop (i + 1) := by
  by_cases h : i < l.length
  · have hlen : (l.take i).length = i := by
      rw [List.length_take]
      omega
    rw [List.eraseIdx_eq_take_drop_succ]
    constructor
    · rw [List.take_append_of_le_length (by omega), List.take_of_length_le (by omega)]
    · rw [List.drop_append_of_le_length (by omega), List.drop_of_length_le (by omega),
        List.nil_append]
  · rw [List.eraseIdx_of_length_le (by omega)]
    refine ⟨rfl, ?_⟩
    rw [List.drop_of_length_le (by omega), List.drop_of_length_le (by omega)]

/-- With different process ids in the table, the cleanup loop keeps the jobs
it does not find finished, in their order. -/
theorem cleanup_loop_table (poll : Nat → Option Nat) (i : Nat) : ∀ jm : JobManager,
    i ≤ jm.count → jm.count ≤ jm.jobs.length →
    ((job_table jm).map (fun j => j.dwProcessId)).Nodup →
    job_table (cleanup_loop poll i jm)
      = ((job_table jm).take i).filter (fun j => !polled_finished poll j)
          ++ (job_table jm).drop i := by
  induction i with
  | zero =>
    intro jm _ _ _
    simp [cleanup_loop]
  | succ i ih =>
    intro jm hi hc hnd
    have hn := job_table_length hc
    have hil : i < (job_table jm).length := by omega
    have hjob := job_table_getElem hc hil
    have htake : (job_table jm).take (i + 1) = (job_table jm).take i ++ [jm.jobs.getD i zero_job] := by
      rw [List.take_succ, List.getElem?_eq_getElem hil, hjob]
      rfl
    have hdrop : (job_table jm).drop i = jm.jobs.getD i zero_job :: (job_table jm).drop (i + 1) := by
      rw [List.drop_eq_getElem_cons hil, hjob]
    rw [cleanup_loop_succ, htake, List.filter_append]
    by_cases hfin : polled_finished poll (jm.jobs.getD i zero_job) = true
    · rw [if_pos hfin]
      have hfirst : find_job_index jm (jm.jobs.getD i zero_job).dwProcessId = some i := by
        apply find_job_index_first (by omega) rfl
        intro j hj heq
        have hjl : j < (job_table jm).length := by omega
        have h1 : j < ((job_table jm).map (fun j => j.dwProcessId)).length := by
          rw [List.length_map]
          exact hjl
        have h2 : i < ((job_table jm).map (fun j => j.dwProcessId)).length := by
          rw [List.length_map]
          exact hil
        have := (@List.Nodup.getElem_inj_iff _ _ hnd j h1 i h2).mp (by
          rw [List.getElem_map, List.getElem_map, job_table_getElem hc hjl, hjob]
          exact heq)
        omega
      obtain ⟨hcount, hlen⟩ := remove_count hfirst
      have htab := remove_table hc hfirst
      have hnd2 : ((job_table (job_manager_remove jm
          (jm.jobs.getD i zero_job).dwProcessId)).map (fun j => j.dwProcessId)).Nodup := by
        rw [htab]
        exact hnd.sublist ((List.eraseIdx_sublist _ _).map _)
      rw [ih _ (by omega) (by omega) hnd2, htab, (eraseIdx_take_drop _ i).1,
        (eraseIdx_take_drop _ i).2]
      simp only [List.filter_cons, List.filter_nil, hfin, Bool.not_true, Bool.false_eq_true,
        if_false, List.append_nil]
    · rw [if_neg hfin, ih jm (by omega) hc hnd, hdrop]
      have hf : polled_finished poll (jm.jobs.getD i zero_job) = false :=
        Bool.eq_false_iff.mpr hfin
      simp only [List.filter_cons, List.filter_nil, hf, Bool.not_false, if_true,
        List.append_assoc, List.singleton_append]

/-- Whatever the process ids are, the cleanup loop leaves no job that it finds
finished among the jobs from index `i` on, when none was there beyond the
indices still to visit. -/
theorem cleanup_loop_none_finished (poll : Nat → Option Nat) (i : Nat) : ∀ jm : JobManager,
    i ≤ jm.count → jm.count ≤ jm.jobs.length →
    (∀ k, i ≤ k → k < jm.count → polled_finished poll (jm.jobs.getD k zero_job) = false) →
    ∀ j, j ∈ job_table (cleanup_loop poll i jm) → polled_finished poll j = false := by
  induction i with
  | zero =>
    intro jm _ hc hk j hj
    rw [cleanup_loop] at hj
    obtain ⟨k, hkl, hget⟩ := List.getElem_of_mem hj
    rw [job_table_getElem hc hkl] at hget
    rw [← hget]
    exact hk k (Nat.zero_le _) (by rw [job_table_length hc] at hkl; exact hkl)
  | succ i ih =>
    intro jm hi hc hk
    rw [cleanup_loop_succ]
    by_cases hfin : polled_finished poll (jm.jobs.getD i zero_job) = true
    · rw [if_pos hfin]
      obtain ⟨k0, hk0, hfind⟩ := @find_job_index_exists jm
        (jm.jobs.getD i zero_job).dwProcessId i (by omega) rfl
      obtain ⟨hcount, hlen⟩ := remove_count hfind
      have htab := remove_table hc hfind
      apply ih _ (by omega) (by omega)
      intro k hik hkc
      have hc2 : (job_manager_remove jm (jm.jobs.getD i zero_job).dwProcessId).count
          ≤ (job_manager_remove jm (jm.jobs.getD i zero_job).dwProcessId).jobs.length := by
        omega
      have hkl : k < (job_table (job_manager_remove jm
          (jm.jobs.getD i zero_job).dwProcessId)).length := by
        rw [job_table_length hc2]
        exact hkc
      have hk1 : k + 1 < (job_table jm).length := by
        rw [job_table_length hc]
        omega
      rw [← job_table_getElem hc2 hkl]
      have e : (job_table (job_manager_remove jm (jm.jobs.getD i zero_job).dwProcessId))[k]
          = (job_table jm)[k + 1] := by
        apply Option.some.inj
        rw [← List.getElem?_eq_getElem, ← List.getElem?_eq_getElem, htab,
          List.getElem?_eraseIdx, if_neg (by omega)]
      rw [e, job_table_getElem hc hk1]
      exact hk (k + 1) (by omega) (by omega)
    · rw [if_neg hfin]
      apply ih jm (by omega) hc
      intro k hik hkc
      by_cases hki : k = i
      · rw [hki]
        exact Bool.eq_false_iff.mpr hfin
      · exact hk k (by omega) hkc

/-- Claim C26, amended: for every job table whose jobs have pairwise different
process ids and every outcome of the exit-status polls,
`job_manager_cleanup_finished` leaves exactly the jobs it does not find
finished, in their order: each job it removes is marked running and its own
poll told that the process has ended, every job whose poll reports
`STILL_ACTIVE` remains, and the surviving jobs keep their relative order. -/
theorem c26_cleanup_only_finished (jm : JobManager) (poll : Nat → Option Nat)
    (hc : jm.count ≤ jm.jobs.length)
    (hnd : ((job_table jm).map (fun j => j.dwProcessId)).Nodup) :
    job_table (job_manager_cleanup_finished poll jm)
      = (job_table jm).filter (fun j => !polled_finished poll j) ∧
    (∀ j, j ∈ job_table jm → j ∉ job_table (job_manager_cleanup_finished poll jm) →
      j.is_running = true ∧ terminated poll j = true) ∧
    (∀ j, j ∈ job_table jm → poll j.hProcess = some STILL_ACTIVE →
      j ∈ job_table (job_manager_cleanup_finished poll jm)) ∧
    (job_table (job_manager_cleanup_finished poll jm)).Sublist (job_table jm) := by
  have e : job_table (job_manager_cleanup_finished poll jm)
      = (job_table jm).filter (fun j => !polled_finished poll j) := by
    have h := cleanup_loop_table poll jm.count jm (Nat.le_refl _) hc hnd
    have ht : (job_table jm).take jm.count = job_table jm :=
      List.take_of_length_le (Nat.le_of_eq (job_table_length hc))
    have hd : (job_table jm).drop jm.count = [] :=
      List.drop_of_length_le (Nat.le_of_eq (job_table_length hc))
    rw [ht, hd, List.append_nil] at h
    exact h
  refine ⟨e, ?_, ?_, ?_⟩
  · intro j hj hnot
    rw [e, List.mem_filter] at hnot
    have hfin : polled_finished poll j = true := by
      by_contra hne
      exact hnot ⟨hj, by simp [Bool.eq_false_iff.mpr hne]⟩
    unfold polled_finished at hfin
    exact Bool.and_eq_true_iff.mp hfin
  · intro j hj hact
    rw [e, List.mem_filter]
    refine ⟨hj, ?_⟩
    simp [polled_finished, terminated, hact]
  · rw [e]
    exact List.filter_sublist _

theorem c26_cleanup_only_finished_witness :
    job_table (job_manager_cleanup_finished
        (fun h => if h = 2 then some 0 else some STILL_ACTIVE)
        (job_manager_add (job_manager_add job_manager_create 1 7 none false).1 2 8 none
          false).1)
      = [{ hProcess := 1, dwProcessId := 7, command := none, is_background := false,
           is_running := true }] :=
  (c26_cleanup_only_finished
    (job_manager_add (job_manager_add job_manager_create 1 7 none false).1 2 8 none false).1
    (fun h => if h = 2 then some 0 else some STILL_ACTIVE) (by decide) (by decide)).1

/-- Claim C26 as stated fails for a table in which two jobs have the same
process id: with job `A` (handle 1, still active) before job `B` (handle 2,
ended), both with process id 7, the cleanup finds `B` finished and removes
the first job with process id 7, which is `A`, and then `B`: the active job
`A` does not remain. -/
theorem c26_shared_pid_removes_active :
    job_table (job_manager_add (job_manager_add job_manager_create 1 7 none false).1 2 7 none
        false).1
      = [{ hProcess := 1, dwProcessId := 7, command := none, is_background := false,
           is_running := true },
         { hProcess := 2, dwProcessId := 7, command := none, is_background := false,
           is_running := true }] ∧
    job_table (job_manager_remove
        (job_manager_add (job_manager_add job_manager_create 1 7 none false).1 2 7 none
          false).1 7)
      = [{ hProcess := 2, dwProcessId := 7, command := none, is_background := false,
           is_running := true }] ∧
    job_table (job_manager_cleanup_finished
        (fun h => if h = 2 then some 0 else some STILL_ACTIVE)
        (job_manager_add (job_manager_add job_manager_create 1 7 none false).1 2 7 none
          false).1)
      = [] := by
  decide

/-- Claim C27, amended: for every job table reachable through add, remove,
cleanup_finished and get_running_count and every outcome of the polls, after
`job_manager_cleanup_finished` returns the table contains no job that is
marked running and whose poll tells that its process has ended: every job
left is marked not running, or its poll is `STILL_ACTIVE`, or its poll
failed.  A job marked not running is not polled, and when the process ids in
the table are pairwise different it stays in the table. -/
theorem c27_cleanup_all_finished (jm : JobManager) (hr : JobReachable jm)
    (poll : Nat → Option Nat) :
    (∀ j, j ∈ job_table (job_manager_cleanup_finished poll jm) →
      polled_finished poll j = false) ∧
    (∀ j, j ∈ job_table (job_manager_cleanup_finished poll jm) →
      j.is_running = false ∨ poll j.hProcess = some STILL_ACTIVE ∨ poll j.hProcess = none) ∧
    (∀ j, j.is_running = false → polled_finished poll j = false) ∧
    (((job_table jm).map (fun j => j.dwProcessId)).Nodup →
      ∀ j, j ∈ job_table jm → j.is_running = false →
        j ∈ job_table (job_manager_cleanup_finished poll jm)) := by
  obtain ⟨hlen, hcount⟩ := job_reachable_inv hr
  have hskip : ∀ j : Job, j.is_running = false → polled_finished poll j = false := by
    intro j hj
    unfold polled_finished
    rw [hj]
    rfl
  have hstay : ((job_table jm).map (fun j => j.dwProcessId)).Nodup →
      ∀ j, j ∈ job_table jm → j.is_running = false →
        j ∈ job_table (job_manager_cleanup_finished poll jm) := by
    intro hnd j hj hrun
    have hc : jm.count ≤ jm.jobs.length := by omega
    have e : job_table (job_manager_cleanup_finished poll jm)
        = (job_table jm).filter (fun j => !polled_finished poll j) := by
      have h := cleanup_loop_table poll jm.count jm (Nat.le_refl _) hc hnd
      have ht : (job_table jm).take jm.count = job_table jm :=
        List.take_of_length_le (Nat.le_of_eq (job_table_length hc))
      have hd : (job_table jm).drop jm.count = [] :=
        List.drop_of_length_le (Nat.le_of_eq (job_table_length hc))
      rw [ht, hd, List.append_nil] at h
      exact h
    rw [e, List.mem_filter]
    refine ⟨hj, ?_⟩
    rw [hskip j hrun]
    rfl
  have h : ∀ j, j ∈ job_table (job_manager_cleanup_finished poll jm) →
      polled_finished poll j = false :=
    cleanup_loop_none_finished poll jm.count jm (Nat.le_refl _) (by omega)
      (fun k h1 h2 => by omega)
  refine ⟨h, fun j hj => ?_, hskip, hstay⟩
  have hj2 := h j hj
  unfold polled_finished terminated at hj2
  cases hrun : j.is_running
  · exact Or.inl rfl
  · rw [hrun] at hj2
    cases hp : poll j.hProcess with
    | none => exact Or.inr (Or.inr rfl)
    | some code =>
      rw [hp] at hj2
      simp only [Bool.true_and, decide_eq_false_iff_not, not_not] at hj2
      rw [hj2]
      exact Or.inr (Or.inl rfl)

theorem c27_cleanup_all_finished_witness :
    job_table (job_manager_cleanup_finished
        (fun h => if h = 2 then some 0 else some STILL_ACTIVE)
        (job_manager_add (job_manager_add job_manager_create 1 7 none false).1 2 8 none
          false).1)
      = [{ hProcess := 1, dwProcessId := 7, command := none, is_background := false,
           is_running := true }] ∧
    polled_finished (fun h => if h = 2 then some 0 else some STILL_ACTIVE)
      { hProcess := 1, dwProcessId := 7, command := none, is_background := false,
        is_running := true } = false :=
  ⟨by decide,
   (c27_cleanup_all_finished
      (job_manager_add (job_manager_add job_manager_create 1 7 none false).1 2 8 none false).1
      (JobReachable.add _ 2 8 none false (JobReachable.add _ 1 7 none false JobReachable.create))
      (fun h => if h = 2 then some 0 else some STILL_ACTIVE)).1
      { hProcess := 1, dwProcessId := 7, command := none, is_background := false,
        is_running := true } (by decide)⟩

/-- Claim C27 as stated fails for a job that `job_manager_get_running_count`
has marked not running: after one job is added and its process has ended, a
call of get_running_count (every poll succeeds and tells the end) clears
`is_running`, and `job_manager_cleanup_finished` then skips the job, which
stays in the table although its process has terminated. -/
theorem c27_marked_job_stays :
    JobReachable (job_manager_get_running_count (fun _ => some 0)
      (job_manager_add job_manager_create 1 7 none true).1).1 ∧
    job_manager_get_running_count (fun _ => some 0)
        (job_manager_add job_manager_create 1 7 none true).1
      = ({ jobs := job_manager_create.jobs.set 0
             { hProcess := 1, dwProcessId := 7, command := none, is_background := true,
               is_running := false },
           count := 1 }, 0) ∧
    job_table (job_manager_cleanup_finished (fun _ => some 0)
        (job_manager_get_running_count (fun _ => some 0)
          (job_manager_add job_manager_create 1 7 none true).1).1)
      = [{ hProcess := 1, dwProcessId := 7, command := none, is_background := true,
           is_running := false }] ∧
    terminated (fun _ => some 0)
        { hProcess := 1, dwProcessId := 7, command := none, is_background := true,
          is_running := false } = true :=
  ⟨JobReachable.running _ _ (JobReachable.add _ 1 7 none true JobReachable.create),
   by decide, by decide, by decide⟩

/-- Why the process ids have to differ for a job marked not running to stay:
with job `A` (process id 7) marked not running by
`job_manager_get_running_count` and job `B` added afterwards with the same
process id and ended, the cleanup finds `B` finished and removes the first job
with process id 7, which is `A`, and then `B`. -/
theorem shared_pid_removes_marked_job :
    job_table (job_manager_add (job_manager_get_running_count (fun _ => some 0)
        (job_manager_add job_manager_create 1 7 none true).1).1 2 7 none true).1
      = [{ hProcess := 1, dwProcessId := 7, command := none, is_background := true,
           is_running := false },
         { hProcess := 2, dwProcessId := 7, command := none, is_background := true,
           is_running := true }] ∧
    job_table (job_manager_cleanup_finished (fun _ => some 0)
        (job_manager_add (job_manager_get_running_count (fun _ => some 0)
          (job_manager_add job_manager_create 1 7 none true).1).1 2 7 none true).1)
      = [] := by
  decide

/-! ## The executor: pipes, redirection targets, dispatch -/

theorem create_pipes_spec (mk : Nat → Option (Int × Int)) (n : Nat) :
    ∀ pipes, create_pipes mk n = some pipes →
      pipes.length = n ∧ ∀ k, k < n → mk k = some (pipes.getD k (0, 0)) := by
  induction n with
  | zero =>
    intro pipes h
    simp only [create_pipes, Option.some.injEq] at h
    subst h
    exact ⟨rfl, fun k hk => absurd hk (Nat.not_lt_zero k)⟩
  | succ n ih =>
    intro pipes h
    rw [create_pipes] at h
    cases h1 : create_pipes mk n with
    | none =>
      rw [h1] at h
      cases h
    | some ps =>
      rw [h1] at h
      obtain ⟨hl, hk⟩ := ih ps h1
      cases h2 : mk n with
      | none =>
        rw [h2] at h
        cases h
      | some p =>
        rw [h2] at h
        simp only [Option.some.injEq] at h
        subst h
        refine ⟨by rw [List.length_append, hl]; rfl, fun k hkn => ?_⟩
        by_cases hlt : k < n
        · rw [List.getD_append _ _ _ _ (by omega)]
          exact hk k hlt
        · have hkeq : k = n := by omega
          subst hkeq
          rw [h2, List.getD_eq_getElem?_getD, ← hl, List.getElem?_concat_length]
          rfl

theorem stages_getD (count : Nat) (pipes : List (Int × Int)) (i : Nat) (hi : i < count) :
    ((List.range count).map (stage_endpoints count pipes)).getD i (0, 0)
      = stage_endpoints count pipes i := by
  rw [List.getD_eq_getElem?_getD, List.getElem?_map, List.getElem?_range hi]
  rfl

/-- Claim C28: for a pipeline of N > 1 commands whose pipes can all be
created, the executor creates exactly N-1 pipes, pipe k being the k-th one
`create_pipe` gives, and passes to stage i (0-indexed) as input standard
input (0) if i = 0 and otherwise the read end of pipe i-1, and as output
standard output (1) if i = N-1 and otherwise the write end of pipe i; so the
pipe written by stage i is the pipe read by stage i+1.  When a pipe cannot be
created, no stage is run and 1 is returned. -/
theorem c28_pipeline_wiring (count : Nat) (mk : Nat → Option (Int × Int))
    (run : Nat → Int × Int → Int) (pipes : List (Int × Int)) (hn : 1 < count)
    (hp : create_pipes mk (count - 1) = some pipes) :
    pipes.length = count - 1 ∧
    (∀ k, k < count - 1 → mk k = some (pipes.getD k (0, 0))) ∧
    (execute_command_pipeline count mk run).1 = 0 ∧
    (execute_command_pipeline count mk run).2.length = count ∧
    (∀ i, i < count →
      (execute_command_pipeline count mk run).2.getD i (0, 0)
        = (if i = 0 then 0 else (pipes.getD (i - 1) (0, 0)).1,
           if i = count - 1 then 1 else (pipes.getD i (0, 0)).2)) ∧
    (∀ i, i + 1 < count →
      ((execute_command_pipeline count mk run).2.getD i (0, 0)).2 = (pipes.getD i (0, 0)).2 ∧
      ((execute_command_pipeline count mk run).2.getD (i + 1) (0, 0)).1
        = (pipes.getD i (0, 0)).1) ∧
    (∀ mk2 : Nat → Option (Int × Int), create_pipes mk2 (count - 1) = none →
      execute_command_pipeline count mk2 run = (1, [])) := by
  obtain ⟨hl, hk⟩ := create_pipes_spec mk (count - 1) pipes hp
  have e : execute_command_pipeline count mk run
      = (0, (List.range count).map (stage_endpoints count pipes)) := by
    unfold execute_command_pipeline
    rw [if_neg (by omega), if_neg (by omega), hp]
  have hst : ∀ i, i < count → stage_endpoints count pipes i
      = (if i = 0 then 0 else (pipes.getD (i - 1) (0, 0)).1,
         if i = count - 1 then 1 else (pipes.getD i (0, 0)).2) := by
    intro i hi
    unfold stage_endpoints
    simp only []
    by_cases h0 : i = 0
    · subst h0
      rw [if_neg (by omega), if_pos rfl, if_pos (by omega), if_neg (by omega)]
    · by_cases h1 : i = count - 1
      · rw [if_pos (by omega), if_neg h0, if_neg (by omega), if_pos h1]
      · rw [if_pos (by omega), if_neg h0, if_pos (by omega), if_neg h1]
  refine ⟨hl, hk, by rw [e], by rw [e]; simp, ?_, ?_, ?_⟩
  · intro i hi
    rw [e]
    simp only []
    rw [stages_getD count pipes i hi, hst i hi]
  · intro i hi
    rw [e]
    simp only []
    rw [stages_getD count pipes i (by omega), stages_getD count pipes (i + 1) hi,
      hst i (by omega), hst (i + 1) hi]
    simp only []
    rw [if_neg (by omega), if_neg (by omega)]
    exact ⟨rfl, rfl⟩
  · intro mk2 hfail
    unfold execute_command_pipeline
    rw [if_neg (by omega), if_neg (by omega), hfail]

theorem c28_pipeline_wiring_witness :
    (execute_command_pipeline 3 (fun k => some (10 + 2 * (k : Int), 11 + 2 * (k : Int)))
        (fun _ _ => 0)).2
      = [(0, 11), (10, 13), (12, 1)] ∧
    (execute_command_pipeline 3 (fun k => some (10 + 2 * (k : Int), 11 + 2 * (k : Int)))
        (fun _ _ => 0)).2.length = 3 :=
  ⟨by decide,
   (c28_pipeline_wiring 3 (fun k => some (10 + 2 * (k : Int), 11 + 2 * (k : Int)))
      (fun _ _ => 0) [(10, 11), (12, 13)] (by decide) (by decide)).2.2.2.1⟩

/-- Claim C29 fails on the code: `execute_command` leaves a redirection target
to the host exactly when its second character is `:` and its first character
is neither `/` nor a backslash; every target that starts with a backslash,
a UNC path such as `\\srv\f` included, is taken as a path of the store. -/
theorem c29_unc_target_is_vfs :
    is_vfs_target ['\\', '\\', 's', 'r', 'v', '\\', 'f'] = true ∧
    is_absolute_path ['\\', '\\', 's', 'r', 'v', '\\', 'f'] = true ∧
    is_vfs_target ['C', ':', '\\', 'f'] = false ∧
    is_vfs_target ['o', 'u', 't', '.', 't', 'x', 't'] = true ∧
    (∀ f : List Char, is_vfs_target f = false ↔
      (f.get? 1 = some ':' ∧ f.head? ≠ some '/' ∧ f.head? ≠ some '\\')) := by
  refine ⟨by decide, by decide, by decide, by decide, ?_⟩
  intro f
  unfold is_vfs_target is_absolute_path
  cases f with
  | nil => simp
  | cons c rest =>
    cases rest with
    | nil => simp
    | cons d rest2 =>
      by_cases h1 : c = '/'
      · simp [h1]
      · by_cases h2 : c = '\\'
        · simp [h2]
        · simp [h1, h2]

/-- With more than one stage and every pipe created, `execute_command_pipeline`
returns 0 whatever the stages return. -/
theorem pipeline_result_multi (count : Nat) (mk : Nat → Option (Int × Int))
    (run : Nat → Int × Int → Int) (h : 1 < count) (pipes : List (Int × Int))
    (hp : create_pipes mk (count - 1) = some pipes) :
    (execute_command_pipeline count mk run).1 = 0 := by
  unfold execute_command_pipeline
  rw [if_neg (by omega), if_neg (by omega), hp]

/-- A single command's result is the result of the pipeline. -/
theorem pipeline_result_single (mk : Nat → Option (Int × Int)) (run : Nat → Int × Int → Int) :
    (execute_command_pipeline 1 mk run).1 = run 0 (0, 1) := by
  rfl

set_option maxRecDepth 100000 in
/-- Claim C31 fails on the code: the line `echo hi | nosuch` parses to two
stages, the last stage (an unknown command) makes `execute_command` return 1,
and `execute_command_pipeline` returns 0, because the loop over the stages
drops the value of every `execute_command` call and the function ends in
`return 0`; the one-command pipeline `nosuch` returns 1, the value of its
command. -/
theorem c31_pipeline_drops_exit_code :
    parse_command_line
        ['e', 'c', 'h', 'o', ' ', 'h', 'i', ' ', '|', ' ', 'n', 'o', 's', 'u', 'c', 'h']
      = some [{ argv := [['e', 'c', 'h', 'o'], ['h', 'i']], input_file := none,
                output_file := none, append_output := false, background := false },
              plain_command ['n', 'o', 's', 'u', 'c', 'h']] ∧
    stage_result [{ argv := [['e', 'c', 'h', 'o'], ['h', 'i']], input_file := none,
                    output_file := none, append_output := false, background := false },
                  plain_command ['n', 'o', 's', 'u', 'c', 'h']] 1 (3, 1) = 1 ∧
    (execute_command_pipeline 2 (fun _ => some (3, 4))
      (stage_result [{ argv := [['e', 'c', 'h', 'o'], ['h', 'i']], input_file := none,
                       output_file := none, append_output := false, background := false },
                     plain_command ['n', 'o', 's', 'u', 'c', 'h']])).1 = 0 ∧
    (execute_command_pipeline 1 (fun _ => some (3, 4))
      (stage_result [plain_command ['n', 'o', 's', 'u', 'c', 'h']])).1 = 1 := by
  decide

/-! ## Claim C37 -/

set_option maxRecDepth 100000 in
/-- Claim C37 fails on the code: the line `> f &` parses to a pipeline of one
command with `background` set and an empty argument vector (the redirect
token opens the command, the `&` marks it), so the read of `argv[0]` in the
background branch of `execute_command_pipeline` is a read through a null
pointer, while `execute_command` guards the same case with its test of
`argc`. -/
theorem c37_background_without_name :
    parse_command_line ['>', ' ', 'f', ' ', '&']
      = some [{ argv := [], input_file := none, output_file := some ['f'],
                append_output := false, background := true }] ∧
    background_command_name { argv := [], input_file := none, output_file := some ['f'],
                              append_output := false, background := true } = none ∧
    (execute_command plain_env (fresh_store 0)
      { argv := [], input_file := none, output_file := some ['f'],
        append_output := false, background := true }).result = 0 := by
  decide

/-! ## Claim C39 -/

theorem all_args_append (l : List Command) (c : Command) :
    all_args (l ++ [c]) = all_args l ++ c.argv := by
  simp [all_args]

theorem words_kept_step (st : ParseState) (t : Token) (ws : List (List Char)) (p : Nat)
    (hr : is_redirect t = false) (h : words_kept st ws p) :
    words_kept (parse_step st t) (ws ++ word_texts [t]) (p + pipe_count [t]) := by
  obtain ⟨ty, v⟩ := t
  obtain ⟨cmds, cur, ex, rt⟩ := st
  obtain ⟨hex, hargs, hne, hcur⟩ := h
  simp only at hex hargs hne hcur
  subst hex
  cases ty
  · -- WORD
    have hw : word_texts [Token.mk TokenKind.TOKEN_WORD v] = [v] := rfl
    have hp : pipe_count [Token.mk TokenKind.TOKEN_WORD v] = 0 := rfl
    rw [hw, hp]
    rcases hcur with ⟨hc, hl⟩ | ⟨l, c, hl, hc, hlen⟩
    · subst hc
      have := parse_step_word_new (ParseState.mk cmds none false rt) v rfl rfl
      rw [word_token] at this
      rw [this]
      refine ⟨rfl, ?_, ?_, Or.inr ⟨cmds, plain_command v, rfl, rfl, hl⟩⟩
      · show all_args (cmds ++ [plain_command v]) = ws ++ [v]
        rw [all_args_append, hargs]
        rfl
      · intro c hc
        rcases List.mem_append.mp hc with h1 | h1
        · exact hne c h1
        · rw [List.mem_singleton.mp h1]
          simp [plain_command]
    · subst hc hl
      have := parse_step_word_more (ParseState.mk (l ++ [c]) (some l.length) false rt) v
        l.length rfl rfl
      rw [word_token] at this
      rw [this]
      simp only [getD_length_append, set_length_append]
      refine ⟨rfl, ?_, ?_, Or.inr ⟨l, _, rfl, rfl, hlen⟩⟩
      · show all_args (l ++ [_]) = ws ++ [v]
        rw [all_args_append, ← hargs, all_args_append, List.append_assoc]
      · intro d hd
        rcases List.mem_append.mp hd with h1 | h1
        · exact hne d (List.mem_append_left _ h1)
        · rw [List.mem_singleton.mp h1]
          simp
  · -- PIPE
    have hw : word_texts [Token.mk TokenKind.TOKEN_PIPE v] = [] := rfl
    have hp : pipe_count [Token.mk TokenKind.TOKEN_PIPE v] = 1 := rfl
    rw [hw, hp, List.append_nil]
    have : parse_step (ParseState.mk cmds cur false rt) (Token.mk TokenKind.TOKEN_PIPE v)
        = ParseState.mk cmds none false rt := by
      simp [parse_step]
    rw [this]
    refine ⟨rfl, hargs, hne, Or.inl ⟨rfl, ?_⟩⟩
    rcases hcur with ⟨_, hl⟩ | ⟨l, c, hl, _, hlen⟩
    · exact Nat.le_succ_of_le hl
    · show cmds.length ≤ p + 1
      rw [hl]
      simp
      exact hlen
  · simp [is_redirect] at hr
  · simp [is_redirect] at hr
  · simp [is_redirect] at hr
  · -- BACKGROUND
    have hw : word_texts [Token.mk TokenKind.TOKEN_BACKGROUND v] = [] := rfl
    have hp : pipe_count [Token.mk TokenKind.TOKEN_BACKGROUND v] = 0 := rfl
    rw [hw, hp, List.append_nil]
    rcases hcur with ⟨hc, hl⟩ | ⟨l, c, hl, hc, hlen⟩
    · subst hc
      have : parse_step (ParseState.mk cmds none false rt)
          (Token.mk TokenKind.TOKEN_BACKGROUND v) = ParseState.mk cmds none false rt := by
        simp [parse_step, update_current]
      rw [this]
      exact ⟨rfl, hargs, hne, Or.inl ⟨rfl, hl⟩⟩
    · subst hc hl
      have : parse_step (ParseState.mk (l ++ [c]) (some l.length) false rt)
          (Token.mk TokenKind.TOKEN_BACKGROUND v)
          = ParseState.mk (l ++ [{ c with background := true }]) (some l.length) false rt := by
        simp [parse_step, update_current, getD_length_append, set_length_append]
      rw [this]
      refine ⟨rfl, ?_, ?_, Or.inr ⟨l, _, rfl, rfl, hlen⟩⟩
      · show all_args (l ++ [_]) = ws
        rw [all_args_append, ← hargs, all_args_append]
      · intro d hd
        rcases List.mem_append.mp hd with h1 | h1
        · exact hne d (List.mem_append_left _ h1)
        · rw [List.mem_singleton.mp h1]
          exact hne c (List.mem_append_right _ (List.mem_singleton.mpr rfl))

theorem word_texts_cons (t : Token) (ts : List Token) :
    word_texts (t :: ts) = word_texts [t] ++ word_texts ts := by
  simp only [word_texts, List.filter_cons, List.filter_nil]
  split <;> simp

theorem pipe_count_cons (t : Token) (ts : List Token) :
    pipe_count (t :: ts) = pipe_count [t] + pipe_count ts := by
  simp only [pipe_count, List.filter_cons, List.filter_nil]
  split <;> simp [Nat.add_comm]

theorem words_kept_loop (tokens : List Token) : ∀ (st : ParseState) (ws : List (List Char))
    (p : Nat), (∀ t, t ∈ tokens → is_redirect t = false) → words_kept st ws p →
    words_kept (parse_loop st tokens) (ws ++ word_texts tokens) (p + pipe_count tokens) := by
  induction tokens with
  | nil =>
    intro st ws p _ h
    simpa [parse_loop, word_texts, pipe_count] using h
  | cons t ts ih =>
    intro st ws p hr h
    rw [parse_loop_cons, word_texts_cons, pipe_count_cons, ← List.append_assoc, ← Nat.add_assoc]
    exact ih _ _ _ (fun u hu => hr u (List.mem_cons_of_mem _ hu))
      (words_kept_step st t ws p (hr t (List.mem_cons_self _ _)) h)

/-- Claim C39: for a token list that is not empty and holds no redirect token,
`parse_command_line` builds a pipeline whose argument vectors, concatenated in
pipeline order, are the texts of the WORD tokens in input order; every command
has a non-empty argument vector; and there are at most as many commands as
PIPE tokens plus one. -/
theorem c39_parser_conserves_words (tokens : List Token) (hne : tokens ≠ [])
    (hr : ∀ t, t ∈ tokens → is_redirect t = false) :
    ∃ cmds, parse_pipeline tokens = some cmds ∧
      all_args cmds = word_texts tokens ∧
      (∀ c, c ∈ cmds → c.argv ≠ []) ∧
      cmds.length ≤ pipe_count tokens + 1 := by
  have h0 : words_kept parse_init [] 0 :=
    ⟨rfl, rfl, fun c hc => by simp [parse_init] at hc, Or.inl ⟨rfl, Nat.le_refl _⟩⟩
  have h := words_kept_loop tokens parse_init [] 0 hr h0
  rw [List.nil_append, Nat.zero_add] at h
  obtain ⟨_, hargs, hnon, hcur⟩ := h
  refine ⟨(parse_loop parse_init tokens).commands, ?_, hargs, hnon, ?_⟩
  · unfold parse_pipeline
    rw [if_neg]
    intro hl
    exact hne (List.length_eq_zero.mp hl)
  · rcases hcur with ⟨_, hl⟩ | ⟨l, c, hl, _, hlen⟩
    · exact Nat.le_succ_of_le hl
    · rw [hl]
      simp
      exact hlen

set_option maxRecDepth 100000 in
theorem c39_parser_conserves_words_witness :
    ∃ cmds, parse_pipeline (parse_tokens ['a', ' ', 'x', ' ', '|', ' ', '|', ' ', 'b', ' ', '&'])
        = some cmds ∧
      all_args cmds
        = word_texts (parse_tokens ['a', ' ', 'x', ' ', '|', ' ', '|', ' ', 'b', ' ', '&']) ∧
      (∀ c, c ∈ cmds → c.argv ≠ []) ∧
      cmds.length
        ≤ pipe_count (parse_tokens ['a', ' ', 'x', ' ', '|', ' ', '|', ' ', 'b', ' ', '&']) + 1 :=
  c39_parser_conserves_words
    (parse_tokens ['a', ' ', 'x', ' ', '|', ' ', '|', ' ', 'b', ' ', '&']) (by decide) (by decide)

/-! ## Claim C40 -/

theorem star_loop_true (f : List Char → Bool) (text : List Char) :
    star_loop f text = true ↔ ∃ a b, text = a ++ b ∧ f b = true := by
  induction text with
  | nil =>
    simp only [star_loop]
    constructor
    · intro h
      exact ⟨[], [], rfl, h⟩
    · rintro ⟨a, b, hab, h⟩
      have hb : b = [] := (List.append_eq_nil.mp hab.symm).2
      rw [← hb]
      exact h
  | cons c t ih =>
    simp only [star_loop]
    constructor
    · intro h
      by_cases hf : f (c :: t) = true
      · exact ⟨[], c :: t, rfl, hf⟩
      · rw [if_neg hf] at h
        obtain ⟨a, b, hab, hb⟩ := ih.mp h
        exact ⟨c :: a, b, by rw [hab]; rfl, hb⟩
    · rintro ⟨a, b, hab, hb⟩
      by_cases hf : f (c :: t) = true
      · rw [if_pos hf]
      · rw [if_neg hf]
        cases a with
        | nil =>
          rw [List.nil_append] at hab
          rw [← hab] at hb
          exact absurd hb hf
        | cons x a =>
          rw [List.cons_append, List.cons.injEq] at hab
          exact ih.mpr ⟨a, b, hab.2, hb⟩

theorem glob_matches_nil (text : List Char) : glob_matches text [] ↔ text = [] := by
  unfold glob_matches
  constructor
  · rintro ⟨pieces, h, e⟩
    rw [List.forall₂_nil_left_iff] at h
    rw [← e, h]
    rfl
  · intro h
    exact ⟨[], List.Forall₂.nil, by rw [h]; rfl⟩

theorem glob_matches_cons (text : List Char) (p : Char) (pattern : List Char) :
    glob_matches text (p :: pattern) ↔
      ∃ piece rest, piece_matches p piece ∧ text = piece ++ rest ∧ glob_matches rest pattern := by
  unfold glob_matches
  constructor
  · rintro ⟨pieces, h, e⟩
    rw [List.forall₂_cons_left_iff] at h
    obtain ⟨piece, more, h1, h2, h3⟩ := h
    refine ⟨piece, more.flatten, h1, ?_, more, h2, rfl⟩
    rw [← e, h3, List.flatten_cons]
  · rintro ⟨piece, rest, h1, e, more, h2, h3⟩
    refine ⟨piece :: more, List.Forall₂.cons h1 h2, ?_⟩
    rw [List.flatten_cons, h3, e]

theorem match_pattern_iff (pattern : List Char) : ∀ text : List Char,
    match_pattern text pattern = true ↔ glob_matches text pattern := by
  induction pattern with
  | nil =>
    intro text
    rw [glob_matches_nil]
    cases text <;> simp [match_pattern]
  | cons p pattern ih =>
    intro text
    rw [glob_matches_cons]
    by_cases hs : p = '*'
    · subst hs
      by_cases he : pattern = []
      · subst he
        simp only [match_pattern, if_true, List.isEmpty_nil, true_iff]
        exact ⟨text, [], by simp [piece_matches], by simp, (glob_matches_nil []).mpr rfl⟩
      · have he2 : pattern.isEmpty = false := by
          cases pattern with
          | nil => exact absurd rfl he
          | cons _ _ => rfl
        simp only [match_pattern, if_true, he2, Bool.false_eq_true, if_false]
        rw [star_loop_true]
        constructor
        · rintro ⟨a, b, hab, hb⟩
          exact ⟨a, b, by simp [piece_matches], hab, (ih b).mp hb⟩
        · rintro ⟨a, b, _, hab, hb⟩
          exact ⟨a, b, hab, (ih b).mpr hb⟩
    · by_cases hq : p = '?'
      · subst hq
        cases text with
        | nil =>
          simp only [match_pattern, hs, if_false, if_true, Bool.false_eq_true, false_iff]
          rintro ⟨piece, rest, h1, e, _⟩
          simp only [piece_matches, hs, if_false, if_true] at h1
          have := congrArg List.length e
          simp at this
          omega
        | cons c t =>
          simp only [match_pattern, hs, if_false, if_true]
          rw [ih t]
          constructor
          · intro h
            exact ⟨[c], t, by simp [piece_matches], rfl, h⟩
          · rintro ⟨piece, rest, h1, e, h⟩
            simp only [piece_matches, hs, if_false, if_true] at h1
            obtain ⟨x, hx⟩ := List.length_eq_one.mp h1
            rw [hx, List.singleton_append, List.cons.injEq] at e
            rw [e.2]
            exact h
      · cases text with
        | nil =>
          simp only [match_pattern, hs, hq, if_false, Bool.false_eq_true, false_iff]
          rintro ⟨piece, rest, h1, e, _⟩
          simp only [piece_matches, hs, hq, if_false] at h1
          rw [h1] at e
          cases e
        | cons c t =>
          simp only [match_pattern, hs, hq, if_false]
          by_cases hc : c = p
          · subst hc
            simp only [ne_eq, not_true_eq_false, if_false]
            rw [ih t]
            constructor
            · intro h
              exact ⟨[c], t, by simp [piece_matches, hs, hq], rfl, h⟩
            · rintro ⟨piece, rest, h1, e, h⟩
              simp only [piece_matches, hs, hq, if_false] at h1
              rw [h1, List.singleton_append, List.cons.injEq] at e
              rw [e.2]
              exact h
          · simp only [ne_eq, hc, not_false_eq_true, if_true, Bool.false_eq_true, false_iff]
            rintro ⟨piece, rest, h1, e, _⟩
            simp only [piece_matches, hs, hq, if_false] at h1
            rw [h1, List.singleton_append, List.cons.injEq] at e
            exact hc e.1

/-- Claim C40: for all strings `text` and `pattern`, `match_pattern(text,
pattern)` returns a value (the recursion is on the pattern, which gets shorter
in every call, and the loop of the `*` case is on the text), and the value is
true exactly when `text` matches `pattern` under glob semantics: `*` matches
any sequence of characters, the empty one included, `?` exactly one character,
every other character only itself, and the whole text is consumed. -/
theorem c40_match_pattern (text pattern : List Char) :
    ∃ b : Bool, match_pattern text pattern = b ∧ (b = true ↔ glob_matches text pattern) :=
  ⟨match_pattern text pattern, rfl, match_pattern_iff pattern text⟩

/-! ## Claim C32 -/

theorem history_last (h : History) (hle : h.history_count ≤ h.history_list.length)
    (line : List Char) :
    (h.history_count > 0 ∧ h.history_list.getD (h.history_count - 1) [] = line) ↔
      (history_table h).getLast? = some line := by
  unfold history_table
  rw [List.getLast?_eq_getElem?, List.length_take, Nat.min_eq_left hle]
  by_cases h0 : h.history_count = 0
  · rw [h0]
    simp
  · have hpos : h.history_count > 0 := Nat.pos_of_ne_zero h0
    have hlt : h.history_count - 1 < h.history_list.length := by omega
    rw [List.getElem?_take_of_lt (by omega), List.getD_eq_getElem _ _ hlt,
      List.getElem?_eq_getElem hlt]
    simp [hpos]

theorem add_to_history_skip (h : History) (hle : h.history_count ≤ h.history_list.length)
    (line : List Char) (hl : line = [] ∨ (history_table h).getLast? = some line) :
    add_to_history h line = h := by
  unfold add_to_history
  rcases hl with hl | hl
  · rw [if_pos (by rw [hl]; rfl)]
  · by_cases h0 : line.length = 0
    · rw [if_pos h0]
    · rw [if_neg h0, if_pos ((history_last h hle line).mpr hl)]

theorem add_to_history_room (h : History) (line : List Char) (hne : line ≠ [])
    (hlast : (history_table h).getLast? ≠ some line)
    (hcap : h.history_capacity ≤ h.history_list.length)
    (hroom : h.history_count < h.history_capacity) :
    add_to_history h line
      = { h with history_list := h.history_list.set h.history_count line,
                 history_count := h.history_count + 1 } := by
  have h0 : ¬ line.length = 0 := fun e => hne (List.length_eq_zero.mp e)
  have h1 : ¬ (h.history_count > 0 ∧ h.history_list.getD (h.history_count - 1) [] = line) :=
    fun e => hlast ((history_last h (by omega) line).mp e)
  unfold add_to_history
  rw [if_neg h0, if_neg h1]
  simp only []
  rw [if_neg (Nat.not_le.mpr hroom)]

theorem add_to_history_full (h : History) (line : List Char) (hne : line ≠ [])
    (hlast : (history_table h).getLast? ≠ some line)
    (hcap : h.history_capacity = h.history_list.length)
    (hfull : h.history_count = h.history_capacity) (hpos : 0 < h.history_capacity) :
    add_to_history h line
      = { h with history_list := h.history_list.drop 1 ++ [line] } := by
  have h0 : ¬ line.length = 0 := fun e => hne (List.length_eq_zero.mp e)
  have h1 : ¬ (h.history_count > 0 ∧ h.history_list.getD (h.history_count - 1) [] = line) :=
    fun e => hlast ((history_last h (by omega) line).mp e)
  unfold add_to_history
  rw [if_neg h0, if_neg h1]
  simp only []
  rw [if_pos (by omega : h.history_count ≥ h.history_capacity)]
  simp only []
  have e1 : (h.history_list.drop 1).take (h.history_capacity - 1) = h.history_list.drop 1 :=
    List.take_of_length_le (by rw [List.length_drop]; omega)
  have e2 : (h.history_list.drop (h.history_capacity - 1)).length = 1 := by
    rw [List.length_drop]; omega
  obtain ⟨x, hx⟩ := List.length_eq_one.mp e2
  have e3 : (h.history_list.drop 1).length = h.history_count - 1 := by
    rw [List.length_drop]; omega
  have e4 : (h.history_list.drop 1 ++ [x]).set (h.history_count - 1) line
      = h.history_list.drop 1 ++ [line] := by
    rw [← e3]
    generalize h.history_list.drop 1 = l
    induction l with
    | nil => rfl
    | cons a l ih => simp [ih]
  rw [e1, hx, e4]
  have e5 : h.history_count - 1 + 1 = h.history_count := by omega
  rw [e5]

theorem chain_append_one (l : List (List Char)) (x : List Char)
    (hc : List.Chain' (fun a b => a ≠ b) l) (hx : l.getLast? ≠ some x) :
    List.Chain' (fun a b => a ≠ b) (l ++ [x]) := by
  rw [List.chain'_append]
  refine ⟨hc, List.chain'_singleton x, ?_⟩
  intro a ha b hb
  simp only [List.head?_cons, Option.mem_def, Option.some.injEq] at hb
  rw [Option.mem_def] at ha
  intro e
  apply hx
  rw [ha, e, hb]

theorem getLast_drop_one (l : List (List Char)) (x : List Char)
    (h : (l.drop 1).getLast? = some x) : l.getLast? = some x := by
  cases l with
  | nil => simp at h
  | cons a l =>
    simp only [List.drop_succ_cons, List.drop_zero] at h
    cases l with
    | nil => simp at h
    | cons b l =>
      rw [List.getLast?_cons_cons]
      exact h

theorem history_ok_init : HistoryOk history_init where
  slots := by simp [history_init]
  capacity := rfl
  count_le := Nat.zero_le _
  no_empty := by
    intro l hl
    simp [history_table, history_init] at hl
  no_repeat := by simp [history_table, history_init]

theorem history_table_room (h : History) (line : List Char) (ok : HistoryOk h)
    (hne : line ≠ []) (hlast : (history_table h).getLast? ≠ some line)
    (hroom : h.history_count < MAX_HISTORY) :
    history_table (add_to_history h line) = history_table h ++ [line] := by
  rw [add_to_history_room h line hne hlast (by rw [ok.capacity, ok.slots])
    (by rw [ok.capacity]; exact hroom)]
  unfold history_table
  exact take_succ_set_self _ _ _ (by rw [ok.slots]; exact hroom)

theorem history_table_full (h : History) (line : List Char) (ok : HistoryOk h)
    (hne : line ≠ []) (hlast : (history_table h).getLast? ≠ some line)
    (hfull : h.history_count = MAX_HISTORY) :
    history_table (add_to_history h line) = (history_table h).drop 1 ++ [line] := by
  rw [add_to_history_full h line hne hlast (by rw [ok.capacity, ok.slots])
    (by rw [ok.capacity]; exact hfull) (by rw [ok.capacity]; decide)]
  unfold history_table
  simp only []
  have e1 : h.history_list.take h.history_count = h.history_list :=
    List.take_of_length_le (by rw [ok.slots, hfull])
  rw [e1]
  apply List.take_of_length_le
  rw [List.length_append, List.length_drop, ok.slots, hfull, List.length_singleton]
  decide

theorem history_ok_add (h : History) (line : List Char) (ok : HistoryOk h) :
    HistoryOk (add_to_history h line) := by
  by_cases hskip : line = [] ∨ (history_table h).getLast? = some line
  · rw [add_to_history_skip h (by rw [ok.slots]; exact ok.count_le) line hskip]
    exact ok
  · have hne : line ≠ [] := fun e => hskip (Or.inl e)
    have hlast : (history_table h).getLast? ≠ some line := fun e => hskip (Or.inr e)
    by_cases hroom : h.history_count < MAX_HISTORY
    · have ht := history_table_room h line ok hne hlast hroom
      have he := add_to_history_room h line hne hlast (by rw [ok.capacity, ok.slots])
        (by rw [ok.capacity]; exact hroom)
      refine ⟨?_, ?_, ?_, ?_, ?_⟩
      · rw [he]; simp only [List.length_set]; exact ok.slots
      · rw [he]; exact ok.capacity
      · rw [he]; exact hroom
      · rw [ht]
        intro l hl
        rcases List.mem_append.mp hl with h1 | h1
        · exact ok.no_empty l h1
        · rw [List.mem_singleton.mp h1]; exact hne
      · rw [ht]
        exact chain_append_one _ _ ok.no_repeat hlast
    · have hfull : h.history_count = MAX_HISTORY := Nat.le_antisymm ok.count_le (Nat.not_lt.mp hroom)
      have ht := history_table_full h line ok hne hlast hfull
      have he := add_to_history_full h line hne hlast (by rw [ok.capacity, ok.slots])
        (by rw [ok.capacity]; exact hfull) (by rw [ok.capacity]; decide)
      refine ⟨?_, ?_, ?_, ?_, ?_⟩
      · rw [he]
        simp only [List.length_append, List.length_drop, ok.slots, List.length_singleton]
        decide
      · rw [he]; exact ok.capacity
      · rw [he]; exact ok.count_le
      · rw [ht]
        intro l hl
        rcases List.mem_append.mp hl with h1 | h1
        · exact ok.no_empty l (List.mem_of_mem_drop h1)
        · rw [List.mem_singleton.mp h1]; exact hne
      · rw [ht]
        exact chain_append_one _ _ (List.Chain'.drop ok.no_repeat 1)
          (fun e => hlast (getLast_drop_one _ _ e))

theorem history_ok_foldl (lines : List (List Char)) : ∀ h : History, HistoryOk h →
    HistoryOk (lines.foldl add_to_history h) := by
  induction lines with
  | nil => intro h ok; exact ok
  | cons l ls ih =>
    intro h ok
    exact ih _ (history_ok_add h l ok)

theorem history_ok_after (lines : List (List Char)) : HistoryOk (history_after lines) :=
  history_ok_foldl lines history_init history_ok_init

theorem get_history_item_table (h : History) (hle : h.history_count ≤ h.history_list.length)
    (i : Nat) : get_history_item h ((i : Int) + 1) = (history_table h)[i]? := by
  unfold get_history_item history_table
  have h1 : ¬ ((i : Int) + 1 < 1) := by omega
  by_cases hi : i < h.history_count
  · have h2 : ¬ ((i : Int) + 1 > h.history_count) := by omega
    have h3 : ((i : Int) + 1 - 1).toNat = i := by simp
    have hlt : i < h.history_list.length := by omega
    rw [if_neg (by simp only [not_or]; exact ⟨h1, h2⟩), h3, List.getElem?_take_of_lt hi,
      List.getD_eq_getElem _ _ hlt, List.getElem?_eq_getElem hlt]
  · have h2 : (i : Int) + 1 > h.history_count := by omega
    rw [if_pos (Or.inr h2)]
    symm
    rw [List.getElem?_eq_none]
    rw [List.length_take]
    omega

/-- Claim C32: after any sequence of `add_to_history` calls on the initialised
history (no line stored, capacity `MAX_HISTORY` = 1000), `history_count` is at
most 1000, no stored line is empty and no two adjacent stored lines are equal;
`get_history_item` numbers the stored lines from 1; adding the empty line or a
line equal to the last stored one changes nothing; adding another line to a
full history drops the oldest line, keeps the others in order and puts the new
line last, and adding it to a history that is not full puts it last. -/
theorem c32_history_invariant (lines : List (List Char)) (line : List Char) :
    MAX_HISTORY = 1000 ∧
    (history_after lines).history_count ≤ MAX_HISTORY ∧
    (history_table (history_after lines)).length = (history_after lines).history_count ∧
    (∀ l, l ∈ history_table (history_after lines) → l ≠ []) ∧
    List.Chain' (fun a b => a ≠ b) (history_table (history_after lines)) ∧
    (∀ i : Nat, get_history_item (history_after lines) ((i : Int) + 1)
      = (history_table (history_after lines))[i]?) ∧
    (line = [] ∨ (history_table (history_after lines)).getLast? = some line →
      add_to_history (history_after lines) line = history_after lines) ∧
    (line ≠ [] → (history_table (history_after lines)).getLast? ≠ some line →
      (history_after lines).history_count = MAX_HISTORY →
      history_table (add_to_history (history_after lines) line)
        = (history_table (history_after lines)).drop 1 ++ [line]) ∧
    (line ≠ [] → (history_table (history_after lines)).getLast? ≠ some line →
      (history_after lines).history_count < MAX_HISTORY →
      history_table (add_to_history (history_after lines) line)
        = history_table (history_after lines) ++ [line]) := by
  have ok := history_ok_after lines
  have hle : (history_after lines).history_count ≤ (history_after lines).history_list.length := by
    rw [ok.slots]; exact ok.count_le
  refine ⟨rfl, ok.count_le, ?_, ok.no_empty, ok.no_repeat,
    get_history_item_table _ hle, add_to_history_skip _ hle line,
    fun h1 h2 h3 => history_table_full _ line ok h1 h2 h3,
    fun h1 h2 h3 => history_table_room _ line ok h1 h2 h3⟩
  unfold history_table
  rw [List.length_take, Nat.min_eq_left hle]

theorem history_after_snoc (lines : List (List Char)) (line : List Char) :
    history_after (lines ++ [line]) = add_to_history (history_after lines) line := by
  unfold history_after
  rw [List.foldl_append]
  rfl

/-- While fewer than `MAX_HISTORY` lines have been added, none empty and no
two adjacent ones equal, the history holds all of them. -/
theorem history_after_short (lines : List (List Char)) :
    lines.length ≤ MAX_HISTORY → (∀ l, l ∈ lines → l ≠ []) →
    List.Chain' (fun a b => a ≠ b) lines →
    history_table (history_after lines) = lines := by
  induction lines using List.reverseRecOn with
  | nil => intro _ _ _; rfl
  | append_singleton ls l ih =>
    intro hlen hne hch
    rw [List.length_append, List.length_singleton] at hlen
    rw [List.chain'_append] at hch
    have e := ih (by omega) (fun x hx => hne x (List.mem_append_left _ hx)) hch.1
    have ok := history_ok_after ls
    have hcount : (history_after ls).history_count = ls.length := by
      have := congrArg List.length e
      unfold history_table at this
      rw [List.length_take, Nat.min_eq_left (by rw [ok.slots]; exact ok.count_le)] at this
      exact this
    rw [history_after_snoc, history_table_room _ l ok
      (hne l (List.mem_append_right _ (List.mem_singleton.mpr rfl))) ?_
      (by rw [hcount]; omega), e]
    rw [e]
    intro hlast
    exact hch.2.2 l hlast l rfl rfl

theorem thousand_lines_table : history_table (history_after thousand_lines) = thousand_lines := by
  apply history_after_short
  · simp [thousand_lines, MAX_HISTORY]
  · intro l hl
    simp only [thousand_lines, List.mem_map] at hl
    obtain ⟨i, _, hi⟩ := hl
    rw [← hi]
    split <;> simp
  · unfold thousand_lines
    rw [List.chain'_map]
    have : (1000 : Nat) = Nat.succ 999 := rfl
    rw [this, List.chain'_range_succ]
    intro m _
    rcases Nat.mod_two_eq_zero_or_one m with h | h
    · have h2 : (m + 1) % 2 = 1 := by omega
      simp [h, h2]
    · have h2 : (m + 1) % 2 = 0 := by omega
      simp [h, h2]

theorem thousand_lines_count : (history_after thousand_lines).history_count = MAX_HISTORY := by
  have h := congrArg List.length thousand_lines_table
  have ok := history_ok_after thousand_lines
  unfold history_table at h
  rw [List.length_take, Nat.min_eq_left (by rw [ok.slots]; exact ok.count_le)] at h
  rw [h]
  simp [thousand_lines, MAX_HISTORY]

theorem thousand_lines_last :
    (history_table (history_after thousand_lines)).getLast? = some ['b'] := by
  rw [thousand_lines_table]
  unfold thousand_lines
  have : List.range 1000 = List.range 999 ++ [999] := by
    rw [← List.range_succ]
  rw [this, List.map_append, List.map_singleton, List.getLast?_append]
  rfl

theorem c32_history_invariant_witness :
    history_table (add_to_history (history_after thousand_lines) ['c'])
      = (history_table (history_after thousand_lines)).drop 1 ++ [['c']] ∧
    add_to_history (history_after thousand_lines) ['b'] = history_after thousand_lines ∧
    history_table (add_to_history (history_after [['l', 's'], ['l', 's'], []]) ['p', 'w', 'd'])
      = [['l', 's'], ['p', 'w', 'd']] :=
  ⟨(c32_history_invariant thousand_lines ['c']).2.2.2.2.2.2.2.1 (by decide)
      (by rw [thousand_lines_last]; decide) thousand_lines_count,
   (c32_history_invariant thousand_lines ['b']).2.2.2.2.2.2.1 (Or.inr thousand_lines_last),
   (c32_history_invariant [['l', 's'], ['l', 's'], []] ['p', 'w', 'd']).2.2.2.2.2.2.2.2
      (by decide) (by decide) (by decide)⟩

/-! ## Claim C33 -/

theorem write_loop_small_used (s : VFS) (block : Nat) (data : List Byte) (len : Nat)
    (hB : len ≤ BLOCK_SIZE) :
    (write_loop len s block data len).header.block_used = s.header.block_used := by
  cases len with
  | zero => rfl
  | succ k =>
    rw [write_loop_last k s block data (k + 1) (Nat.succ_pos _) hB, write_block_header]

theorem reachable_store_big : Reachable store_big :=
  Reachable.write _ _ _ _ _ (Reachable.fresh 0) (by rw [List.length_replicate])


/-! ## The root entry and the run of used blocks -/

theorem after_last_mem (c : Char) (l : List Char) :
    (∀ r, after_last c l = some r → c ∉ r) ∧ (after_last c l = none → c ∉ l) := by
  induction l with
  | nil =>
    exact ⟨fun r h => by simp [after_last] at h, fun _ => List.not_mem_nil c⟩
  | cons d rest ih =>
    simp only [after_last]
    cases h : after_last c rest with
    | some r0 =>
      simp only []
      refine ⟨fun r hr => ?_, fun hn => by cases hn⟩
      cases hr
      exact ih.1 r0 h
    | none =>
      simp only []
      by_cases hd : d = c
      · rw [if_pos hd]
        refine ⟨fun r hr => ?_, fun hn => by cases hn⟩
        cases hr
        exact ih.2 h
      · rw [if_neg hd]
        constructor
        · intro r hr
          cases hr
        · intro _ hm
          rcases List.mem_cons.mp hm with e | e
          · exact hd e.symm
          · exact ih.2 h e

/-- The file name an operation looks up is never the name of the root. -/
theorem filename_of_ne_root (r : List Char) : filename_of r ≠ ['/'] := by
  unfold filename_of
  cases h : after_last '/' r with
  | some x =>
    simp only []
    intro e
    have := (after_last_mem '/' r).1 x h
    rw [e] at this
    exact this (List.mem_singleton.mpr rfl)
  | none =>
    simp only []
    intro e
    have := (after_last_mem '/' r).2 h
    rw [e] at this
    exact this (List.mem_singleton.mpr rfl)

theorem root_of_table {t : VFS} {r : FileEntry} {rest : List FileEntry}
    (h : file_table t = r :: rest) : root_entry t = r := by
  unfold file_table at h
  unfold root_entry
  cases he : t.header.entries with
  | nil => rw [he] at h; simp at h
  | cons a l =>
    rw [he] at h
    cases hn : t.header.num_files with
    | zero => rw [hn] at h; simp at h
    | succ n =>
      rw [hn, List.take_succ_cons, List.cons.injEq] at h
      rw [List.getD_cons_zero]
      exact h.1

theorem found_ge_one {s : VFS} (hb : BlocksOk s) {name : List Char} {idx : Nat}
    (h : find_file_index s name = some idx) (hn : name ≠ ['/']) : 1 ≤ idx := by
  obtain ⟨_, hnm, _⟩ := find_file_index_some h
  rcases Nat.eq_zero_or_pos idx with h0 | h0
  · exfalso
    rw [h0] at hnm
    have := hb.root_name
    unfold root_entry at this
    rw [this] at hnm
    exact hn hnm.symm
  · exact h0

theorem table_rest_mem {s : VFS} (hs : WF s) {r : FileEntry} {rest : List FileEntry}
    (ht : file_table s = r :: rest) {idx : Nat} (h1 : 1 ≤ idx) (h2 : idx < s.header.num_files) :
    s.header.entries.getD idx zero_entry ∈ rest := by
  have hle : s.header.num_files ≤ s.header.entries.length := by
    rw [hs.entries_len]; exact hs.num_le
  have hlen := file_table_length hle
  rw [ht, List.length_cons] at hlen
  rw [← file_table_getD h2, ht]
  obtain ⟨j, rfl⟩ : ∃ j, idx = j + 1 := ⟨idx - 1, by omega⟩
  rw [List.getD_cons_succ, List.getD_eq_getElem _ _ (by omega)]
  exact List.getElem_mem _

theorem blocks_ok_of_table {s t : VFS} (hb : BlocksOk s) (rest : List FileEntry)
    (ht : file_table t = root_entry s :: rest) (hrest : ∀ e, e ∈ rest → 1 ≤ e.first_block)
    (hused : used_run t.header.block_used) : BlocksOk t ∧ root_entry t = root_entry s := by
  have hr := root_of_table ht
  refine ⟨⟨⟨rest, ?_, hrest⟩, ?_, ?_, hused⟩, hr⟩
  · rw [hr]; exact ht
  · rw [hr]; exact hb.root_name
  · rw [hr]; exact hb.root_block

/-! ### The bitmap -/

theorem used_up_to_free {used : List Bool} {k b : Nat} (hp : used_up_to used k)
    (h : first_free used = some b) : b = k := by
  obtain ⟨hb, _, h3, h4⟩ := first_free_some h
  have h5 := hp b hb
  rw [h3] at h5
  have hge : ¬ b < k := by
    intro hlt
    rw [decide_eq_true hlt] at h5
    cases h5
  rcases Nat.lt_or_ge k b with hlt | hle
  · have h6 := hp k (Nat.lt_trans hlt hb)
    rw [h4 k hlt] at h6
    simp at h6
  · omega

theorem used_up_to_first_free {used : List Bool} {k : Nat} (hp : used_up_to used k)
    (hk : k < MAX_BLOCKS) (hl : used.length = MAX_BLOCKS) : first_free used = some k := by
  apply first_free_eq hk (by rw [hl]; exact hk)
  · rw [hp k hk]; simp
  · intro j hj
    rw [hp j (Nat.lt_trans hj hk)]
    simp [hj]

theorem used_up_to_full {used : List Bool} (hp : used_up_to used MAX_BLOCKS) :
    first_free used = none := by
  apply first_free_none_of_all_used
  intro i hi
  rw [hp i hi]
  simp [hi]

theorem used_up_to_set {used : List Bool} {k : Nat} (hp : used_up_to used k)
    (hk : k < MAX_BLOCKS) (hl : used.length = MAX_BLOCKS) :
    used_up_to (used.set k true) (k + 1) := by
  intro i hi
  by_cases hik : k = i
  · subst hik
    rw [getD_set_self used k (by rw [hl]; exact hk)]
    simp
  · rw [getD_set_ne used k i true hik, hp i hi]
    have : (i < k) ↔ (i < k + 1) := by omega
    simp [this]

theorem used_run_set_free {used : List Bool} (hr : used_run used) (hl : used.length = MAX_BLOCKS)
    {b : Nat} (h : first_free used = some b) : used_run (used.set b true) := by
  obtain ⟨k, h1, _, hp⟩ := hr
  have hb := used_up_to_free hp h
  have hlt := (first_free_some h).1
  subst hb
  exact ⟨b + 1, by omega, hlt, used_up_to_set hp hlt hl⟩

theorem find_free_block_run (s : VFS) (hl : s.header.block_used.length = MAX_BLOCKS)
    (hr : used_run s.header.block_used) :
    used_run (find_free_block s).1.header.block_used := by
  unfold find_free_block
  cases h : first_free s.header.block_used with
  | none => exact hr
  | some b => exact used_run_set_free hr hl h

theorem write_loop_run (fuel : Nat) : ∀ (s : VFS) (block : Nat) (src : List Byte)
    (remaining : Nat), s.header.block_used.length = MAX_BLOCKS →
    used_run s.header.block_used →
    used_run (write_loop fuel s block src remaining).header.block_used := by
  induction fuel with
  | zero => intro s _ _ _ _ hr; exact hr
  | succ fuel ih =>
    intro s block src remaining hl hr
    rcases Nat.eq_zero_or_pos remaining with h0 | h0
    · rw [h0, write_loop_none]; exact hr
    · by_cases hB : remaining ≤ BLOCK_SIZE
      · rw [write_loop_last fuel s block src remaining h0 hB, write_block_header]
        exact hr
      · rw [write_loop_more fuel s block src remaining (Nat.lt_of_not_le hB)]
        have hl1 : (write_block s block src BLOCK_SIZE).header.block_used.length = MAX_BLOCKS := by
          rw [write_block_header]; exact hl
        have hr1 : used_run (write_block s block src BLOCK_SIZE).header.block_used := by
          rw [write_block_header]; exact hr
        have hr2 := find_free_block_run _ hl1 hr1
        have hl2 : (find_free_block (write_block s block src BLOCK_SIZE)).1.header.block_used.length
            = MAX_BLOCKS := by
          rw [(find_free_block_same _).blocks_len_eq]; exact hl1
        split
        · exact hr2
        · exact ih _ _ _ _ hl2 hr2

theorem getD_set_false (used : List Bool) (b : Nat) :
    (used.set b false).getD b false = false := by
  rw [List.getD_eq_getElem?_getD, List.getElem?_set, if_pos rfl]
  split <;> rfl

/-- The freeing loop, started at block `b` with the blocks below `f` and the
blocks from `b` to `k - 1` marked used, leaves exactly the blocks below `f`
marked. -/
theorem free_loop_clears (fuel : Nat) (f k : Nat) : ∀ (s : VFS) (b : Nat),
    f ≤ b → b ≤ k → k ≤ MAX_BLOCKS → k ≤ b + fuel →
    (∀ i, i < MAX_BLOCKS →
      s.header.block_used.getD i false = decide (i < f ∨ (b ≤ i ∧ i < k))) →
    used_up_to (free_loop fuel s b).header.block_used f := by
  induction fuel with
  | zero =>
    intro s b _ hbk _ hfuel hu i hi
    have : b = k := by omega
    subst this
    show s.header.block_used.getD i false = decide (i < f)
    rw [hu i hi]
    have : (i < f ∨ (b ≤ i ∧ i < b)) ↔ i < f := by omega
    exact decide_eq_decide.mpr this
  | succ fuel ih =>
    intro s b hfb hbk hk hfuel hu
    unfold free_loop
    by_cases hlt : b < k
    · have hbM : b < MAX_BLOCKS := Nat.lt_of_lt_of_le hlt hk
      have hub : s.header.block_used.getD b false = true := by
        rw [hu b hbM]
        exact decide_eq_true (Or.inr ⟨Nat.le_refl _, hlt⟩)
      rw [if_pos ⟨hbM, hub⟩]
      apply ih (free_block s b) (b + 1) (by omega) hlt hk (by omega)
      intro i hi
      have e : (free_block s b).header.block_used = s.header.block_used.set b false := by
        unfold free_block
        rw [if_pos hbM]
      rw [e]
      by_cases hib : b = i
      · subst hib
        rw [getD_set_false]
        have : ¬ (b < f ∨ (b + 1 ≤ b ∧ b < k)) := by omega
        exact (decide_eq_false this).symm
      · rw [getD_set_ne _ b i false hib, hu i hi]
        have : (i < f ∨ (b ≤ i ∧ i < k)) ↔ (i < f ∨ (b + 1 ≤ i ∧ i < k)) := by omega
        exact decide_eq_decide.mpr this
    · have hbk2 : b = k := by omega
      subst hbk2
      have hcond : ¬ (b < MAX_BLOCKS ∧ s.header.block_used.getD b false = true) := by
        rintro ⟨h1, h2⟩
        rw [hu b h1, decide_eq_true_iff] at h2
        omega
      rw [if_neg hcond]
      intro i hi
      rw [hu i hi]
      have : (i < f ∨ (b ≤ i ∧ i < b)) ↔ i < f := by omega
      exact decide_eq_decide.mpr this

theorem free_loop_run {s : VFS} {k f : Nat} (hp : used_up_to s.header.block_used k)
    (hk : k ≤ MAX_BLOCKS) (hf : f < MAX_BLOCKS) :
    (f < k → used_up_to (free_loop MAX_BLOCKS s f).header.block_used f) ∧
    (k ≤ f → free_loop MAX_BLOCKS s f = s) := by
  constructor
  · intro hlt
    apply free_loop_clears MAX_BLOCKS f k s f (Nat.le_refl _) (Nat.le_of_lt hlt) hk (by omega)
    intro i hi
    rw [hp i hi]
    have : (i < k) ↔ (i < f ∨ (f ≤ i ∧ i < k)) := by omega
    exact decide_eq_decide.mpr this
  · intro hle
    have hcond : ¬ (f < MAX_BLOCKS ∧ s.header.block_used.getD f false = true) := by
      rintro ⟨_, h2⟩
      rw [hp f hf, decide_eq_true_iff] at h2
      omega
    have hM : free_loop MAX_BLOCKS s f = free_loop (1023 + 1) s f := rfl
    rw [hM]
    unfold free_loop
    rw [if_neg hcond]

/-! ### The operations keep the root entry and the run of used blocks -/

theorem blocks_ok_create {s : VFS} (hs : WF s) (hb : BlocksOk s) (path : List Char)
    (type : FileType) (now : Nat) :
    BlocksOk (vfs_create_file s path type now).1 ∧
      root_entry (vfs_create_file s path type now).1 = root_entry s := by
  by_cases h1 : (lookup_name s path).length = 0 ∨ (lookup_name s path).length ≥ MAX_FILENAME
  · rw [create_bad_name h1]; exact ⟨hb, rfl⟩
  cases h2 : find_file_index s (lookup_name s path) with
  | some k =>
    have : (find_file_entry s (lookup_name s path)).isSome = true := by
      rw [find_file_entry_isSome, h2]; rfl
    rw [create_exists this]; exact ⟨hb, rfl⟩
  | none =>
    by_cases h3 : s.header.num_files < MAX_FILES
    · have hlen : s.header.num_files < s.header.entries.length := by
        rw [hs.entries_len]; exact h3
      obtain ⟨rest, ht, hrest⟩ := hb.root_first
      cases h4 : first_free s.header.block_used with
      | none =>
        rw [create_no_block h1 h2 h3 h4]
        refine blocks_ok_of_table hb rest ?_ hrest ?_
        · show (s.header.entries.set s.header.num_files _).take s.header.num_files = _
          rw [take_set_self]
          exact ht
        · exact hb.used_ok
      | some b =>
        rw [create_ok h1 h2 h3 h4]
        obtain ⟨k, hk1, _, hp⟩ := hb.used_ok
        have hbk := used_up_to_free hp h4
        refine blocks_ok_of_table hb (rest ++ [new_entry (lookup_name s path) type b now])
          ?_ ?_ ?_
        · show (s.header.entries.set s.header.num_files _).take (s.header.num_files + 1) = _
          rw [take_succ_set_self _ _ _ hlen]
          unfold file_table at ht
          rw [ht]
          rfl
        · intro e he
          rcases List.mem_append.mp he with h5 | h5
          · exact hrest e h5
          · rw [List.mem_singleton.mp h5]
            show 1 ≤ b
            omega
        · exact used_run_set_free hb.used_ok hs.blocks_len h4
    · rw [create_table_full (Nat.le_of_not_lt h3)]; exact ⟨hb, rfl⟩

theorem blocks_ok_write_entry {s : VFS} (hs : WF s) (hb : BlocksOk s) {idx : Nat}
    (h1 : 1 ≤ idx) (h2 : idx < s.header.num_files) (data : List Byte) (len now : Nat) :
    BlocksOk (write_entry s idx data len now).1 ∧
      root_entry (write_entry s idx data len now).1 = root_entry s := by
  obtain ⟨rest, ht, hrest⟩ := hb.root_first
  have hmem := table_rest_mem hs ht h1 h2
  rw [write_entry_fst]
  obtain ⟨j, rfl⟩ : ∃ j, idx = j + 1 := ⟨idx - 1, by omega⟩
  refine blocks_ok_of_table hb
    (rest.set j { s.header.entries.getD (j + 1) zero_entry with
      size := len % 4294967296, modified_time := now % 4294967296 }) ?_ ?_ ?_
  · show (s.header.entries.set (j + 1) _).take
        (write_loop len s _ data len).header.num_files = _
    rw [(write_loop_same len s _ data len).num_eq, List.set_take]
    unfold file_table at ht
    rw [ht]
    rfl
  · intro e he
    rcases List.mem_or_eq_of_mem_set he with h5 | h5
    · exact hrest e h5
    · rw [h5]
      show 1 ≤ (s.header.entries.getD (j + 1) zero_entry).first_block
      exact hrest _ hmem
  · show used_run (write_loop len s _ data len).header.block_used
    exact write_loop_run len s _ data len hs.blocks_len hb.used_ok

theorem write_target_cases {s : VFS} {path : List Char} {now : Nat} {s1 : VFS} {idx : Nat}
    (h : write_target s path now = some (s1, idx)) :
    s1 = s ∨ s1 = (vfs_create_file s path FileType.FT_REGULAR now).1 := by
  unfold write_target at h
  cases h1 : find_file_index s (filename_of (vfs_resolve_path s path)) with
  | some k =>
    rw [h1] at h
    simp only [Option.some.injEq, Prod.mk.injEq] at h
    exact Or.inl h.1.symm
  | none =>
    rw [h1] at h
    simp only [] at h
    rcases h2 : vfs_create_file s path FileType.FT_REGULAR now with ⟨s2, ok⟩
    rw [h2] at h
    cases ok with
    | false => simp at h
    | true =>
      simp only [Option.map_eq_some', Prod.mk.injEq] at h
      obtain ⟨_, _, e, _⟩ := h
      exact Or.inr e.symm

theorem blocks_ok_write {s : VFS} (hs : WF s) (hb : BlocksOk s) (path : List Char)
    (data : List Byte) (len now : Nat) :
    BlocksOk (vfs_write_file s path data len now).1 ∧
      root_entry (vfs_write_file s path data len now).1 = root_entry s := by
  rw [write_eq]
  cases ht : write_target s path now with
  | none => exact blocks_ok_create hs hb path FileType.FT_REGULAR now
  | some p =>
    obtain ⟨s1, idx⟩ := p
    simp only []
    obtain ⟨hw1, hfind, _⟩ := write_target_some hs ht
    have h1 : BlocksOk s1 ∧ root_entry s1 = root_entry s := by
      rcases write_target_cases ht with e | e
      · rw [e]; exact ⟨hb, rfl⟩
      · rw [e]; exact blocks_ok_create hs hb path FileType.FT_REGULAR now
    have h2 := blocks_ok_write_entry hw1 h1.1
      (found_ge_one h1.1 hfind (filename_of_ne_root _)) (find_file_index_some hfind).1
      data len now
    exact ⟨h2.1, h2.2.trans h1.2⟩

theorem delete_used {s : VFS} {path : List Char} {idx : Nat}
    (h : find_file_index s (lookup_name s path) = some idx) :
    (vfs_delete_file s path).1.header.block_used
      = (free_loop MAX_BLOCKS s
          (s.header.entries.getD idx zero_entry).first_block).header.block_used := by
  rw [delete_found h]
  rfl

theorem blocks_ok_delete {s : VFS} (hs : WF s) (hb : BlocksOk s) (path : List Char) :
    BlocksOk (vfs_delete_file s path).1 ∧
      root_entry (vfs_delete_file s path).1 = root_entry s := by
  cases h : find_file_index s (lookup_name s path) with
  | none => rw [delete_not_found h]; exact ⟨hb, rfl⟩
  | some idx =>
    obtain ⟨rest, ht, hrest⟩ := hb.root_first
    have h1 := found_ge_one hb h (filename_of_ne_root _)
    have h2 := (find_file_index_some h).1
    have hmem := table_rest_mem hs ht h1 h2
    have hle : s.header.num_files ≤ s.header.entries.length := by
      rw [hs.entries_len]; exact hs.num_le
    have hf : (s.header.entries.getD idx zero_entry).first_block < MAX_BLOCKS :=
      hs.first_lt _ (getD_mem_table hle h2)
    obtain ⟨j, rfl⟩ : ∃ j, idx = j + 1 := ⟨idx - 1, by omega⟩
    refine blocks_ok_of_table hb (rest.eraseIdx j) ?_ ?_ ?_
    · rw [delete_table hs h, ht]
      rfl
    · intro e he
      exact hrest e (List.mem_of_mem_eraseIdx he)
    · rw [delete_used h]
      obtain ⟨k, hk1, hk2, hp⟩ := hb.used_ok
      obtain ⟨hlt, hge⟩ := free_loop_run hp hk2 hf
      rcases Nat.lt_or_ge (s.header.entries.getD (j + 1) zero_entry).first_block k with h5 | h5
      · exact ⟨_, hrest _ hmem, Nat.le_of_lt hf, hlt h5⟩
      · rw [hge h5]
        exact ⟨k, hk1, hk2, hp⟩

theorem blocks_ok_chdir {s : VFS} (hb : BlocksOk s) (path : List Char) :
    BlocksOk (vfs_change_directory s path).1 ∧
      root_entry (vfs_change_directory s path).1 = root_entry s := by
  have hh := (chdir_header s path).1
  obtain ⟨rest, ht, hrest⟩ := hb.root_first
  refine blocks_ok_of_table hb rest ?_ hrest ?_
  · unfold file_table
    rw [hh]
    exact ht
  · rw [hh]; exact hb.used_ok

theorem blocks_ok_fresh (now : Nat) : BlocksOk (fresh_store now) := by
  refine ⟨⟨[], ?_, fun e he => by cases he⟩, rfl, rfl, ⟨1, Nat.le_refl _, by decide, ?_⟩⟩
  · rw [fresh_store_table]
    rfl
  · rw [fresh_store_header]
    intro i hi
    show ((List.replicate MAX_BLOCKS false).set 0 true).getD i false = decide (i < 1)
    rcases Nat.eq_zero_or_pos i with h0 | h0
    · subst h0
      rfl
    · rw [getD_set_ne _ 0 i true (by omega)]
      have : ¬ i < 1 := by omega
      rw [decide_eq_false this, List.getD_eq_getElem?_getD, List.getElem?_replicate]
      split <;> rfl

theorem reachable_blocks_ok {s : VFS} (h : Reachable s) : BlocksOk s := by
  induction h with
  | fresh now => exact blocks_ok_fresh now
  | create s path type now hr ih => exact (blocks_ok_create (reachable_wf hr) ih path type now).1
  | write s path data len now hr _ ih =>
    exact (blocks_ok_write (reachable_wf hr) ih path data len now).1
  | delete s path hr ih => exact (blocks_ok_delete (reachable_wf hr) ih path).1
  | chdir s path _ ih => exact (blocks_ok_chdir ih path).1
  | reopen s s1 now hr h ih =>
    rw [reopen_eq (reachable_wf hr).magic_ok] at h
    cases h
    obtain ⟨rest, ht, hrest⟩ := ih.root_first
    refine (blocks_ok_of_table ih rest ?_ hrest ?_).1
    · exact ht
    · exact ih.used_ok

/-! ## Claim C34 -/

theorem reachable_store_shared : Reachable store_shared :=
  Reachable.create _ _ _ _ (Reachable.create _ _ _ _ (Reachable.delete _ _
    (Reachable.write _ _ _ _ _
      (Reachable.create _ _ _ _ (Reachable.create _ _ _ _ (Reachable.fresh 0)))
      (by decide))))

/-- Claim C34 fails on the code: in the store reached by creating `a` and `b`,
writing the bytes 1, 2, 3 to `b`, deleting `a` and creating `c` and `d`, the
entries `b` and `d` both have first block 2, because the freeing loop of
`vfs_delete_file` also cleared the mark of the block of `b` and
`find_free_block` then gave that block to `d`; writing one byte to `d` changes
what `vfs_read_file` returns for `b` from 1, 2, 3 to 9, 2, 3. -/
theorem c34_write_reaches_other_file :
    Reachable store_shared ∧
    table_names store_shared = [['/'], ['b'], ['c'], ['d']] ∧
    (find_file_entry store_shared ['b']).map (fun e => (e.first_block, e.size)) = some (2, 3) ∧
    (find_file_entry store_shared ['d']).map (fun e => (e.first_block, e.size)) = some (2, 0) ∧
    vfs_read_file store_shared ['b'] 3 = (3, [1, 2, 3]) ∧
    (vfs_write_file store_shared ['d'] [9] 1 0).2 = true ∧
    vfs_read_file (vfs_write_file store_shared ['d'] [9] 1 0).1 ['b'] 3 = (3, [9, 2, 3]) :=
  ⟨reachable_store_shared, by decide!⟩

/-! ## Claim C35 -/

theorem used_up_to_below {used : List Bool} {k : Nat} (hp : used_up_to used k) (i j : Nat)
    (hi : i < MAX_BLOCKS) (hj : j < i) (h : used.getD i false = true) :
    used.getD j false = true := by
  rw [hp i hi, decide_eq_true_iff] at h
  rw [hp j (Nat.lt_trans hj hi)]
  exact decide_eq_true (Nat.lt_trans hj h)

theorem find_free_block_value {s : VFS} {k : Nat} (hl : s.header.block_used.length = MAX_BLOCKS)
    (hp : used_up_to s.header.block_used k) (hk : k ≤ MAX_BLOCKS) :
    (find_free_block s).2 = if k < MAX_BLOCKS then k else NO_BLOCK := by
  unfold find_free_block
  by_cases h : k < MAX_BLOCKS
  · rw [if_pos h, used_up_to_first_free hp h hl]
  · have e : k = MAX_BLOCKS := by omega
    rw [if_neg h]
    rw [e] at hp
    rw [used_up_to_full hp]

/-- Claim C35: in every reachable store the blocks marked used are exactly the
blocks `0, ..., k - 1` for some `k` from 1 to `MAX_BLOCKS`: block 0 is marked,
and below a marked block every block is marked.  So `find_free_block` returns
block `k` (or the value for "no block" when `k` is `MAX_BLOCKS`), and
`vfs_delete_file` of an entry whose first block `f` is below `k` succeeds and
leaves exactly the blocks `0, ..., f - 1` marked: it frees every block from
`f` to `k - 1`. -/
theorem c35_used_blocks_run (s : VFS) (hs : Reachable s) :
    ∃ k, 1 ≤ k ∧ k ≤ MAX_BLOCKS ∧ used_up_to s.header.block_used k ∧
      s.header.block_used.getD 0 false = true ∧
      (∀ i j, i < MAX_BLOCKS → j < i → s.header.block_used.getD i false = true →
        s.header.block_used.getD j false = true) ∧
      (find_free_block s).2 = (if k < MAX_BLOCKS then k else NO_BLOCK) ∧
      (∀ path idx, find_file_index s (lookup_name s path) = some idx →
        (s.header.entries.getD idx zero_entry).first_block < k →
        (vfs_delete_file s path).2 = true ∧
        used_up_to (vfs_delete_file s path).1.header.block_used
          (s.header.entries.getD idx zero_entry).first_block) := by
  have hw := reachable_wf hs
  have hb := reachable_blocks_ok hs
  obtain ⟨k, hk1, hk2, hp⟩ := hb.used_ok
  refine ⟨k, hk1, hk2, hp, ?_, fun i j hi hj h => used_up_to_below hp i j hi hj h,
    find_free_block_value hw.blocks_len hp hk2, ?_⟩
  · rw [hp 0 (by decide)]
    exact decide_eq_true hk1
  · intro path idx hidx hf
    have hle : s.header.num_files ≤ s.header.entries.length := by
      rw [hw.entries_len]; exact hw.num_le
    have hfM : (s.header.entries.getD idx zero_entry).first_block < MAX_BLOCKS :=
      hw.first_lt _ (getD_mem_table hle (find_file_index_some hidx).1)
    refine ⟨?_, ?_⟩
    · rw [delete_found hidx]
    · rw [delete_used hidx]
      exact (free_loop_run hp hk2 hfM).1 hf

set_option maxRecDepth 100000 in
theorem c35_used_blocks_run_witness :
    ∃ k, 1 ≤ k ∧ k ≤ MAX_BLOCKS ∧ used_up_to store_ab.header.block_used k ∧
      store_ab.header.block_used.getD 0 false = true ∧
      (∀ i j, i < MAX_BLOCKS → j < i → store_ab.header.block_used.getD i false = true →
        store_ab.header.block_used.getD j false = true) ∧
      (find_free_block store_ab).2 = (if k < MAX_BLOCKS then k else NO_BLOCK) ∧
      (∀ path idx, find_file_index store_ab (lookup_name store_ab path) = some idx →
        (store_ab.header.entries.getD idx zero_entry).first_block < k →
        (vfs_delete_file store_ab path).2 = true ∧
        used_up_to (vfs_delete_file store_ab path).1.header.block_used
          (store_ab.header.entries.getD idx zero_entry).first_block) :=
  c35_used_blocks_run store_ab
    (Reachable.create _ _ _ _ (Reachable.create _ _ _ _ (Reachable.fresh 0)))

/-! ## Claim C36 -/

/-- When the two `strcpy` calls of `vfs_resolve_path` stay inside the caller's
buffer, the content of `resolved` is the value `vfs_resolve_path` of this
file, and it has fewer than `MAX_PATH` characters. -/
theorem resolve_in_buffer_some {s : VFS} {path r : List Char}
    (h : resolve_in_buffer s path = some r) :
    r = vfs_resolve_path s path ∧ r.length < MAX_PATH := by
  unfold resolve_in_buffer at h
  unfold vfs_resolve_path
  simp only [] at h ⊢
  by_cases h1 : fits_resolved (normalize_path path) = true
  · rw [h1] at h
    simp only [Bool.not_true, Bool.false_eq_true, if_false] at h
    by_cases h2 : is_absolute_path (normalize_path path) = true
    · rw [if_pos h2] at h ⊢
      cases h
      unfold fits_resolved at h1
      exact ⟨rfl, by have := of_decide_eq_true h1; omega⟩
    · rw [if_neg h2] at h ⊢
      by_cases h3 : fits_resolved (join_path s.current_dir (normalize_path path)) = true
      · rw [h3] at h
        simp only [Bool.not_true, Bool.false_eq_true, if_false] at h
        cases h
        unfold fits_resolved at h3
        exact ⟨rfl, by have := of_decide_eq_true h3; omega⟩
      · rw [Bool.not_eq_true] at h3
        rw [h3] at h
        simp at h
  · rw [Bool.not_eq_true] at h1
    rw [h1] at h
    simp at h

/-- Where `vfs_file_exists` stays inside its buffer, it returns the value
`vfs_file_exists` of this file. -/
theorem file_exists_in_buffer_some {s : VFS} {path : List Char} {b : Bool}
    (h : file_exists_in_buffer s path = some b) : b = vfs_file_exists s path := by
  unfold file_exists_in_buffer at h
  cases hr : resolve_in_buffer s path with
  | none => rw [hr] at h; cases h
  | some r =>
    rw [hr] at h
    simp only [Option.some.injEq] at h
    rw [← h, (resolve_in_buffer_some hr).1]
    rfl

/-- Where `vfs_change_directory` stays inside its buffer, it gives the value
`vfs_change_directory` of this file, and on success the current directory is
the whole resolved path. -/
theorem change_directory_in_buffer_some {s : VFS} {path : List Char} {x : VFS × Bool}
    (h : change_directory_in_buffer s path = some x) :
    x = vfs_change_directory s path ∧
      (x.2 = true → x.1.current_dir = vfs_resolve_path s path) := by
  unfold change_directory_in_buffer at h
  cases hr : resolve_in_buffer s path with
  | none => rw [hr] at h; cases h
  | some r =>
    rw [hr] at h
    obtain ⟨e, hlen⟩ := resolve_in_buffer_some hr
    have htake : r.take (MAX_PATH - 1) = r := List.take_of_length_le (by omega)
    simp only [] at h
    unfold vfs_change_directory
    simp only []
    rw [← e]
    by_cases h1 : r = ['/']
    · rw [if_pos h1] at h ⊢
      cases h
      exact ⟨rfl, fun _ => h1.symm⟩
    · rw [if_neg h1] at h ⊢
      cases hf : find_file_entry s (filename_of r) with
      | none =>
        rw [hf] at h
        cases h
        exact ⟨rfl, fun hc => by cases hc⟩
      | some entry =>
        rw [hf] at h
        simp only [] at h ⊢
        by_cases ht : entry.type ≠ FileType.FT_DIRECTORY
        · rw [if_pos ht] at h ⊢
          cases h
          exact ⟨rfl, fun hc => by cases hc⟩
        · rw [if_neg ht] at h ⊢
          cases h
          exact ⟨rfl, fun _ => htake⟩

theorem reachable_store_deep : Reachable store_deep :=
  Reachable.chdir _ _ (Reachable.chdir _ _ (Reachable.create _ _ _ _ (Reachable.fresh 0)))

/-! ## Claim C8 -/

/-- Claim C8 fails on the code for a long path: the path `a` and the path of
600 characters `xx...x/a` have the same final component `a`; on the store in
which `a` exists `vfs_file_exists("a")` returns true, and for the long path
the first `strcpy` of `vfs_resolve_path` writes 601 bytes into the caller's
buffer `char resolved[MAX_PATH]` of 512 bytes, so the call has no result (the
value the operations of this file give, true, is what a buffer of sufficient
size would yield). -/
theorem c8_long_path_overruns :
    Reachable store_a ∧
    long_path.length = 600 ∧
    filename_of (normalize_path long_path) = ['a'] ∧
    filename_of (normalize_path ['a']) = ['a'] ∧
    filename_of (vfs_resolve_path store_a long_path)
      = filename_of (vfs_resolve_path store_a ['a']) ∧
    file_exists_in_buffer store_a ['a'] = some true ∧
    fits_resolved (normalize_path long_path) = false ∧
    resolve_in_buffer store_a long_path = none ∧
    file_exists_in_buffer store_a long_path = none :=
  ⟨Reachable.create _ _ _ _ (Reachable.fresh 0), by decide!⟩

/-! ## Claim C21 -/

/-- Claim C21 fails on the code once the joined path does not fit the buffer:
after a directory with a name of 250 characters is created and entered twice
(every call on the way stays inside its buffer), the current directory has 502
characters; resolving the relative path of 250 characters then joins it to
753 characters and the second `strcpy` of `vfs_resolve_path` writes past the
caller's buffer `char resolved[MAX_PATH]`.  The first `strcpy` does so for
a path of 512 characters on a fresh store. -/
theorem c21_deep_path_overruns :
    Reachable store_deep ∧
    resolve_in_buffer (fresh_store 0) deep_name = some ('/' :: deep_name) ∧
    resolve_in_buffer store_deep0 deep_name = some ('/' :: deep_name) ∧
    resolve_in_buffer store_deep1 deep_name = some ('/' :: deep_name ++ '/' :: deep_name) ∧
    store_deep.current_dir = '/' :: deep_name ++ '/' :: deep_name ∧
    store_deep.current_dir.length = 502 ∧
    normalize_path deep_name = deep_name ∧
    is_absolute_path (normalize_path deep_name) = false ∧
    (join_path store_deep.current_dir (normalize_path deep_name)).length = 753 ∧
    resolve_in_buffer store_deep deep_name = none ∧
    resolve_in_buffer (fresh_store 0) ('/' :: List.replicate 511 'x') = none :=
  ⟨reachable_store_deep, by decide!⟩

/-! ## Claim C23 -/

/-- Claim C23 fails on the code once the joined path does not fit the buffer:
in the store reached by creating a directory with a name of 250 characters
and entering it twice (both `vfs_change_directory` calls stay inside their
buffer and return true), the final component of the path resolved for a third
`vfs_change_directory` names that directory, so the claim has the call return
true and make the path of 753 characters the current directory; the call
writes past its buffer `char resolved[MAX_PATH]` in `vfs_resolve_path`, and
the path would not fit `current_dir[MAX_PATH]` either. -/
theorem c23_deep_directory_overruns :
    Reachable store_deep ∧
    resolve_in_buffer (fresh_store 0) deep_name = some ('/' :: deep_name) ∧
    change_directory_in_buffer store_deep0 deep_name = some (store_deep1, true) ∧
    change_directory_in_buffer store_deep1 deep_name = some (store_deep, true) ∧
    filename_of (vfs_resolve_path store_deep deep_name) = deep_name ∧
    (find_file_entry store_deep deep_name).map (fun e => e.type)
      = some FileType.FT_DIRECTORY ∧
    (vfs_resolve_path store_deep deep_name).length = 753 ∧
    MAX_PATH = 512 ∧
    resolve_in_buffer store_deep deep_name = none ∧
    change_directory_in_buffer store_deep deep_name = none :=
  ⟨reachable_store_deep, by decide!⟩

/-! ## Claim C38 -/

/-- The write loop, started with the blocks `0, ..., k - 1` marked used, takes
one block for every chunk after the first while blocks are free: it leaves the
blocks below `min (k + (remaining - 1) / BLOCK_SIZE) MAX_BLOCKS` marked. -/
theorem write_loop_takes (fuel : Nat) : ∀ (s : VFS) (block : Nat) (src : List Byte)
    (remaining k : Nat), s.header.block_used.length = MAX_BLOCKS →
    used_up_to s.header.block_used k → k ≤ MAX_BLOCKS → 0 < remaining →
    (remaining - 1) / BLOCK_SIZE + 1 ≤ fuel →
    used_up_to (write_loop fuel s block src remaining).header.block_used
      (min (k + (remaining - 1) / BLOCK_SIZE) MAX_BLOCKS) := by
  induction fuel with
  | zero =>
    intro s block src remaining k _ _ _ _ hfuel
    exact absurd hfuel (Nat.not_succ_le_zero _)
  | succ fuel ih =>
    intro s block src remaining k hl hp hk h0 hfuel
    by_cases hB : remaining ≤ BLOCK_SIZE
    · have hdiv : (remaining - 1) / BLOCK_SIZE = 0 := by
        unfold BLOCK_SIZE at hB ⊢
        omega
      rw [write_loop_last fuel s block src remaining h0 hB, write_block_header, hdiv,
        Nat.add_zero, Nat.min_eq_left hk]
      exact hp
    · have hgt : remaining > BLOCK_SIZE := Nat.lt_of_not_le hB
      have hdiv : (remaining - 1) / BLOCK_SIZE
          = (remaining - BLOCK_SIZE - 1) / BLOCK_SIZE + 1 := by
        unfold BLOCK_SIZE at hB ⊢
        omega
      have hl1 : (write_block s block src BLOCK_SIZE).header.block_used.length = MAX_BLOCKS := by
        rw [write_block_header]; exact hl
      have hp1 : used_up_to (write_block s block src BLOCK_SIZE).header.block_used k := by
        rw [write_block_header]; exact hp
      rw [write_loop_more fuel s block src remaining hgt]
      by_cases hkM : k < MAX_BLOCKS
      · have hfree := used_up_to_first_free hp1 hkM hl1
        have hno : k ≠ NO_BLOCK := first_free_ne_no_block hfree
        have h2 : (find_free_block (write_block s block src BLOCK_SIZE)).2 = k := by
          unfold find_free_block
          rw [hfree]
        have h1 : (find_free_block (write_block s block src BLOCK_SIZE)).1.header.block_used
            = (write_block s block src BLOCK_SIZE).header.block_used.set k true := by
          unfold find_free_block
          rw [hfree]
        rw [h2, if_neg hno]
        have hrec := ih (find_free_block (write_block s block src BLOCK_SIZE)).1 k
          (src.drop BLOCK_SIZE) (remaining - BLOCK_SIZE) (k + 1)
          (by rw [h1, List.length_set]; exact hl1)
          (by rw [h1]; exact used_up_to_set hp1 hkM hl1)
          hkM (Nat.sub_pos_of_lt hgt)
          (by rw [hdiv] at hfuel; exact Nat.le_of_succ_le_succ hfuel)
        have e : k + 1 + (remaining - BLOCK_SIZE - 1) / BLOCK_SIZE
            = k + (remaining - 1) / BLOCK_SIZE := by
          rw [hdiv]
          generalize (remaining - BLOCK_SIZE - 1) / BLOCK_SIZE = q
          omega
        rw [e] at hrec
        exact hrec
      · have hkeq : k = MAX_BLOCKS := by omega
        have hfull : first_free (write_block s block src BLOCK_SIZE).header.block_used = none := by
          apply used_up_to_full
          rw [← hkeq]
          exact hp1
        have h2 : find_free_block (write_block s block src BLOCK_SIZE)
            = (write_block s block src BLOCK_SIZE, NO_BLOCK) := by
          unfold find_free_block
          rw [hfull]
        rw [h2, if_pos rfl, Nat.min_eq_right (by rw [hkeq]; exact Nat.le_add_right _ _), ← hkeq]
        exact hp1

/-- Claim C38, amended: on a reachable store, `vfs_write_file` on an existing
file with a length of at most `BLOCK_SIZE` (so also with the file's current
size, when that is at most `BLOCK_SIZE`) leaves the allocation bitmap, and so
the number of blocks marked used, as it was.  With a length above
`BLOCK_SIZE` the call takes one block from `find_free_block` for every chunk
after the first while blocks are free: the used blocks, `0, ..., k - 1`
before the call, are `0, ..., k + (len - 1) / BLOCK_SIZE - 1` after it, or all
`MAX_BLOCKS` blocks when fewer are free. -/
theorem c38_rewrite_one_block (s : VFS) (hs : Reachable s) (path : List Char)
    (data : List Byte) (len now : Nat) (hex : lookup_name s path ∈ table_names s) :
    (len ≤ BLOCK_SIZE →
      (vfs_write_file s path data len now).1.header.block_used = s.header.block_used ∧
      used_count (vfs_write_file s path data len now).1 = used_count s) ∧
    (∃ k, 1 ≤ k ∧ k ≤ MAX_BLOCKS ∧ used_up_to s.header.block_used k ∧
      (BLOCK_SIZE < len →
        used_up_to (vfs_write_file s path data len now).1.header.block_used
          (min (k + (len - 1) / BLOCK_SIZE) MAX_BLOCKS))) := by
  have hw := reachable_wf hs
  have hle : s.header.num_files ≤ s.header.entries.length := by
    rw [hw.entries_len]; exact hw.num_le
  have hsome : ∃ idx, find_file_index s (lookup_name s path) = some idx := by
    cases h : find_file_index s (lookup_name s path) with
    | none => exact absurd hex ((find_file_index_none_iff_not_mem hle).mp h)
    | some idx => exact ⟨idx, rfl⟩
  obtain ⟨idx, hidx⟩ := hsome
  have hused : (vfs_write_file s path data len now).1.header.block_used
      = (write_loop len s (s.header.entries.getD idx zero_entry).first_block data
          len).header.block_used := by
    unfold lookup_name at hidx
    unfold vfs_write_file
    simp only [hidx]
    rw [write_entry_fst]
    simp only [save_header]
  constructor
  · intro hB
    have key : (vfs_write_file s path data len now).1.header.block_used
        = s.header.block_used := by
      rw [hused]
      exact write_loop_small_used s _ data len hB
    refine ⟨key, ?_⟩
    unfold used_count
    rw [key]
  · obtain ⟨k, hk1, hk2, hp⟩ := (reachable_blocks_ok hs).used_ok
    refine ⟨k, hk1, hk2, hp, ?_⟩
    intro hgt
    rw [hused]
    apply write_loop_takes len s _ data len k hw.blocks_len hp hk2 (by omega)
    have h1 : (len - 1) / BLOCK_SIZE ≤ len - 1 := Nat.div_le_self _ _
    generalize (len - 1) / BLOCK_SIZE = q at h1 ⊢
    omega

set_option maxRecDepth 100000 in
theorem c38_rewrite_one_block_witness :
    (vfs_write_file store_a ['a'] [1, 2, 3] 3 1).1.header.block_used = store_a.header.block_used ∧
    used_count (vfs_write_file store_a ['a'] [1, 2, 3] 3 1).1 = used_count store_a :=
  (c38_rewrite_one_block store_a (Reachable.create _ _ _ _ (Reachable.fresh 0)) ['a'] [1, 2, 3] 3 1
    (by decide)).1 (by decide)

/-- Claim C38 as stated fails for a file of more than one block: the store
with the file `big` of 5000 bytes has 3 blocks marked used (block 0 and the
two blocks of the file); writing 5000 bytes to `big` again marks a 4th block,
because the loop of `vfs_write_file` takes a new block from `find_free_block`
for every chunk after the first. -/
theorem c38_rewrite_takes_block :
    Reachable store_big ∧
    (find_file_entry store_big ['b', 'i', 'g']).map (fun e => e.size) = some 5000 ∧
    used_count store_big = 3 ∧
    (vfs_write_file store_big ['b', 'i', 'g'] (List.replicate 5000 7) 5000 1).2 = true ∧
    used_count (vfs_write_file store_big ['b', 'i', 'g'] (List.replicate 5000 7) 5000 1).1
      = 4 :=
  ⟨reachable_store_big, by decide!⟩

end CustomShell
